import Mathlib

/-!
Archive and directory checksums of `common/releases/checksums.go`, and the latest release
of a core of `cores/cores.go`.

A model of the integrity checks of package `releases`: the checks of a downloaded archive
(`IsCached`, `TestLocalArchiveChecksum`, `TestLocalArchiveSize`, `TestLocalArchiveIntegrity`)
and the checksum of an installed directory (`computeDirChecksum`, `createPackageFile`,
`CheckDirChecksum`), with the properties proved of them; and a model of the releases of a
core package (`GetVersion`, `Versions`, `Latest`, `latestVersion`).

Conventions of the model:

* A Go result `(bool, error)` is an `Except Error Bool`; `(b, nil)` is `.ok b`. A function that
  changes the file system returns the file system it leaves.
* A Go `string` is a `String` (the strings of valid UTF-8), a `[]byte` a `List UInt8`.
* The file system is a tree of regular files and directories with the permissions that
  decide the outcome of the system calls made; it has no symbolic links and is used by one
  process at a time.
* The functions of the Go library that the code calls (`strings.SplitN`, `encoding/hex`,
  `crypto`, `path/filepath`, `os`, `io/ioutil`, `encoding/json`) are modelled under their
  names, as far as the code uses them. The three digest functions are written out in full.
* `ArchivePath`, a method defined outside of `checksums.go`, is taken as given: a resource
  carries its result.
* The versions of `github.com/blang/semver` (`Make`, `Compare`, `GT`, `String`) are modelled
  in the namespace `Semver`. A Go map is the list of its keys and values in the order in
  which an iteration visits them, a nil release a missing value.
-/

namespace Releases

/-! ## Digest functions of Go's `crypto` package (MD5, SHA-1, SHA-256) -/

/-- Mask of a 32-bit machine word. -/
def mask32 : Nat := 0xFFFFFFFF

/-- Addition of 32-bit words, wrapping around. -/
def add32 (x y : Nat) : Nat := (x + y) % 2 ^ 32

/-- Bitwise complement of a 32-bit word. -/
def not32 (x : Nat) : Nat := (x % 2 ^ 32) ^^^ mask32

/-- Rotation of a 32-bit word to the left by `n` bits. -/
def rotl32 (x n : Nat) : Nat := ((x <<< n) ||| (x >>> (32 - n))) % 2 ^ 32

/-- Rotation of a 32-bit word to the right by `n` bits. -/
def rotr32 (x n : Nat) : Nat := ((x >>> n) ||| (x <<< (32 - n))) % 2 ^ 32

/-- The four bytes of a 32-bit word, most significant first. -/
def be32 (w : Nat) : List UInt8 :=
  [UInt8.ofNat (w >>> 24), UInt8.ofNat (w >>> 16), UInt8.ofNat (w >>> 8), UInt8.ofNat w]

/-- The four bytes of a 32-bit word, least significant first. -/
def le32 (w : Nat) : List UInt8 :=
  [UInt8.ofNat w, UInt8.ofNat (w >>> 8), UInt8.ofNat (w >>> 16), UInt8.ofNat (w >>> 24)]

/-- The eight bytes of a 64-bit word, most significant first. -/
def be64 (w : Nat) : List UInt8 := be32 (w >>> 32) ++ be32 w

/-- The eight bytes of a 64-bit word, least significant first. -/
def le64 (w : Nat) : List UInt8 := le32 w ++ le32 (w >>> 32)

/-- Big-endian words of a block, four bytes each. -/
def wordsBE : List UInt8 → List Nat
  | b0 :: b1 :: b2 :: b3 :: rest =>
    (b0.toNat <<< 24 ||| b1.toNat <<< 16 ||| b2.toNat <<< 8 ||| b3.toNat) :: wordsBE rest
  | _ => []

/-- Little-endian words of a block, four bytes each. -/
def wordsLE : List UInt8 → List Nat
  | b0 :: b1 :: b2 :: b3 :: rest =>
    (b3.toNat <<< 24 ||| b2.toNat <<< 16 ||| b1.toNat <<< 8 ||| b0.toNat) :: wordsLE rest
  | _ => []

/-- Cut a list into consecutive blocks of `n` elements; `fuel` bounds the number of blocks. -/
def blocksOf {α : Type} (n : Nat) : Nat → List α → List (List α)
  | 0, _ => []
  | _ + 1, [] => []
  | fuel + 1, x :: xs => (x :: xs).take n :: blocksOf n fuel ((x :: xs).drop n)

/-- Merkle–Damgård padding shared by the three digests: a `0x80` byte, zeros up to 56 modulo
64, then the bit length of the message on 64 bits as laid out by `lenBytes`. -/
def mdPad (lenBytes : Nat → List UInt8) (msg : List UInt8) : List UInt8 :=
  msg ++ [0x80] ++ List.replicate ((119 - msg.length % 64) % 64) 0
    ++ lenBytes ((msg.length * 8) % 2 ^ 64)

/-- The padded message cut in 64-byte blocks. -/
def mdBlocks (lenBytes : Nat → List UInt8) (msg : List UInt8) : List (List UInt8) :=
  blocksOf 64 (msg.length / 64 + 2) (mdPad lenBytes msg)

/-! ### MD5 (RFC 1321) -/

/-- The additive constants of MD5, `floor (2^32 * |sin (i + 1)|)`. -/
def md5K : List Nat :=
  [0xd76aa478, 0xe8c7b756, 0x242070db, 0xc1bdceee, 0xf57c0faf, 0x4787c62a, 0xa8304613, 0xfd469501,
   0x698098d8, 0x8b44f7af, 0xffff5bb1, 0x895cd7be, 0x6b901122, 0xfd987193, 0xa679438e, 0x49b40821,
   0xf61e2562, 0xc040b340, 0x265e5a51, 0xe9b6c7aa, 0xd62f105d, 0x02441453, 0xd8a1e681, 0xe7d3fbc8,
   0x21e1cde6, 0xc33707d6, 0xf4d50d87, 0x455a14ed, 0xa9e3e905, 0xfcefa3f8, 0x676f02d9, 0x8d2a4c8a,
   0xfffa3942, 0x8771f681, 0x6d9d6122, 0xfde5380c, 0xa4beea44, 0x4bdecfa9, 0xf6bb4b60, 0xbebfbc70,
   0x289b7ec6, 0xeaa127fa, 0xd4ef3085, 0x04881d05, 0xd9d4d039, 0xe6db99e5, 0x1fa27cf8, 0xc4ac5665,
   0xf4292244, 0x432aff97, 0xab9423a7, 0xfc93a039, 0x655b59c3, 0x8f0ccc92, 0xffeff47d, 0x85845dd1,
   0x6fa87e4f, 0xfe2ce6e0, 0xa3014314, 0x4e0811a1, 0xf7537e82, 0xbd3af235, 0x2ad7d2bb, 0xeb86d391]

/-- The per-round rotation amounts of MD5. -/
def md5S : List Nat :=
  [7, 12, 17, 22, 7, 12, 17, 22, 7, 12, 17, 22, 7, 12, 17, 22,
   5, 9, 14, 20, 5, 9, 14, 20, 5, 9, 14, 20, 5, 9, 14, 20,
   4, 11, 16, 23, 4, 11, 16, 23, 4, 11, 16, 23, 4, 11, 16, 23,
   6, 10, 15, 21, 6, 10, 15, 21, 6, 10, 15, 21, 6, 10, 15, 21]

/-- Chaining state of MD5. -/
structure MD5State where
  a : Nat
  b : Nat
  c : Nat
  d : Nat

/-- One of the 64 steps of the MD5 compression function on message words `m`. -/
def md5Step (m : List Nat) (s : MD5State) (i : Nat) : MD5State :=
  let f :=
    if i < 16 then (s.b &&& s.c) ||| (not32 s.b &&& s.d)
    else if i < 32 then (s.d &&& s.b) ||| (not32 s.d &&& s.c)
    else if i < 48 then s.b ^^^ s.c ^^^ s.d
    else s.c ^^^ (s.b ||| not32 s.d)
  let g :=
    if i < 16 then i
    else if i < 32 then (5 * i + 1) % 16
    else if i < 48 then (3 * i + 5) % 16
    else (7 * i) % 16
  let t := add32 (add32 (add32 f s.a) (md5K.getD i 0)) (m.getD g 0)
  { a := s.d, d := s.c, c := s.b, b := add32 s.b (rotl32 t (md5S.getD i 0)) }

/-- MD5 compression of one 64-byte block into the chaining state. -/
def md5Block (s : MD5State) (block : List UInt8) : MD5State :=
  let t := (List.range 64).foldl (md5Step (wordsLE block)) s
  { a := add32 s.a t.a, b := add32 s.b t.b, c := add32 s.c t.c, d := add32 s.d t.d }

/-- The MD5 digest (16 bytes) of a byte string. -/
def md5 (msg : List UInt8) : List UInt8 :=
  let s := (mdBlocks le64 msg).foldl md5Block
    { a := 0x67452301, b := 0xefcdab89, c := 0x98badcfe, d := 0x10325476 }
  le32 s.a ++ le32 s.b ++ le32 s.c ++ le32 s.d

/-! ### SHA-1 (FIPS 180-4) -/

/-- Chaining state of SHA-1. -/
structure SHA1State where
  a : Nat
  b : Nat
  c : Nat
  d : Nat
  e : Nat

/-- Extend the 16 message words of a block by `n` further words of the SHA-1 schedule;
the list is kept most recent word first. -/
def sha1Schedule : Nat → List Nat → List Nat
  | 0, w => w
  | n + 1, w =>
    sha1Schedule n (rotl32 (w.getD 2 0 ^^^ w.getD 7 0 ^^^ w.getD 13 0 ^^^ w.getD 15 0) 1 :: w)

/-- One of the 80 steps of the SHA-1 compression function; `w` is the schedule in order. -/
def sha1Step (w : List Nat) (s : SHA1State) (i : Nat) : SHA1State :=
  let f :=
    if i < 20 then (s.b &&& s.c) ||| (not32 s.b &&& s.d)
    else if i < 40 then s.b ^^^ s.c ^^^ s.d
    else if i < 60 then (s.b &&& s.c) ||| (s.b &&& s.d) ||| (s.c &&& s.d)
    else s.b ^^^ s.c ^^^ s.d
  let k :=
    if i < 20 then 0x5a827999
    else if i < 40 then 0x6ed9eba1
    else if i < 60 then 0x8f1bbcdc
    else 0xca62c1d6
  let t := add32 (add32 (add32 (add32 (rotl32 s.a 5) f) s.e) k) (w.getD i 0)
  { a := t, b := s.a, c := rotl32 s.b 30, d := s.c, e := s.d }

/-- SHA-1 compression of one 64-byte block into the chaining state. -/
def sha1Block (s : SHA1State) (block : List UInt8) : SHA1State :=
  let w := (sha1Schedule 64 (wordsBE block).reverse).reverse
  let t := (List.range 80).foldl (sha1Step w) s
  { a := add32 s.a t.a, b := add32 s.b t.b, c := add32 s.c t.c, d := add32 s.d t.d,
    e := add32 s.e t.e }

/-- The SHA-1 digest (20 bytes) of a byte string. -/
def sha1 (msg : List UInt8) : List UInt8 :=
  let s := (mdBlocks be64 msg).foldl sha1Block
    { a := 0x67452301, b := 0xefcdab89, c := 0x98badcfe, d := 0x10325476, e := 0xc3d2e1f0 }
  be32 s.a ++ be32 s.b ++ be32 s.c ++ be32 s.d ++ be32 s.e

/-! ### SHA-256 (FIPS 180-4) -/

/-- The round constants of SHA-256. -/
def sha256K : List Nat :=
  [0x428a2f98, 0x71374491, 0xb5c0fbcf, 0xe9b5dba5, 0x3956c25b, 0x59f111f1, 0x923f82a4, 0xab1c5ed5,
   0xd807aa98, 0x12835b01, 0x243185be, 0x550c7dc3, 0x72be5d74, 0x80deb1fe, 0x9bdc06a7, 0xc19bf174,
   0xe49b69c1, 0xefbe4786, 0x0fc19dc6, 0x240ca1cc, 0x2de92c6f, 0x4a7484aa, 0x5cb0a9dc, 0x76f988da,
   0x983e5152, 0xa831c66d, 0xb00327c8, 0xbf597fc7, 0xc6e00bf3, 0xd5a79147, 0x06ca6351, 0x14292967,
   0x27b70a85, 0x2e1b2138, 0x4d2c6dfc, 0x53380d13, 0x650a7354, 0x766a0abb, 0x81c2c92e, 0x92722c85,
   0xa2bfe8a1, 0xa81a664b, 0xc24b8b70, 0xc76c51a3, 0xd192e819, 0xd6990624, 0xf40e3585, 0x106aa070,
   0x19a4c116, 0x1e376c08, 0x2748774c, 0x34b0bcb5, 0x391c0cb3, 0x4ed8aa4a, 0x5b9cca4f, 0x682e6ff3,
   0x748f82ee, 0x78a5636f, 0x84c87814, 0x8cc70208, 0x90befffa, 0xa4506ceb, 0xbef9a3f7, 0xc67178f2]

/-- Chaining state of SHA-256. -/
structure SHA256State where
  a : Nat
  b : Nat
  c : Nat
  d : Nat
  e : Nat
  f : Nat
  g : Nat
  h : Nat

/-- Extend the 16 message words of a block by `n` further words of the SHA-256 schedule;
the list is kept most recent word first. -/
def sha256Schedule : Nat → List Nat → List Nat
  | 0, w => w
  | n + 1, w =>
    let w15 := w.getD 14 0
    let w2 := w.getD 1 0
    let s0 := rotr32 w15 7 ^^^ rotr32 w15 18 ^^^ (w15 >>> 3)
    let s1 := rotr32 w2 17 ^^^ rotr32 w2 19 ^^^ (w2 >>> 10)
    sha256Schedule n (add32 (add32 (add32 (w.getD 15 0) s0) (w.getD 6 0)) s1 :: w)

/-- One of the 64 steps of the SHA-256 compression function; `w` is the schedule in order. -/
def sha256Step (w : List Nat) (s : SHA256State) (i : Nat) : SHA256State :=
  let s1 := rotr32 s.e 6 ^^^ rotr32 s.e 11 ^^^ rotr32 s.e 25
  let ch := (s.e &&& s.f) ^^^ (not32 s.e &&& s.g)
  let t1 := add32 (add32 (add32 (add32 s.h s1) ch) (sha256K.getD i 0)) (w.getD i 0)
  let s0 := rotr32 s.a 2 ^^^ rotr32 s.a 13 ^^^ rotr32 s.a 22
  let maj := (s.a &&& s.b) ^^^ (s.a &&& s.c) ^^^ (s.b &&& s.c)
  let t2 := add32 s0 maj
  { a := add32 t1 t2, b := s.a, c := s.b, d := s.c, e := add32 s.d t1, f := s.e, g := s.f,
    h := s.g }

/-- SHA-256 compression of one 64-byte block into the chaining state. -/
def sha256Block (s : SHA256State) (block : List UInt8) : SHA256State :=
  let w := (sha256Schedule 48 (wordsBE block).reverse).reverse
  let t := (List.range 64).foldl (sha256Step w) s
  { a := add32 s.a t.a, b := add32 s.b t.b, c := add32 s.c t.c, d := add32 s.d t.d,
    e := add32 s.e t.e, f := add32 s.f t.f, g := add32 s.g t.g, h := add32 s.h t.h }

/-- The SHA-256 digest (32 bytes) of a byte string. -/
def sha256 (msg : List UInt8) : List UInt8 :=
  let s := (mdBlocks be64 msg).foldl sha256Block
    { a := 0x6a09e667, b := 0xbb67ae85, c := 0x3c6ef372, d := 0xa54ff53a,
      e := 0x510e527f, f := 0x9b05688c, g := 0x1f83d9ab, h := 0x5be0cd19 }
  be32 s.a ++ be32 s.b ++ be32 s.c ++ be32 s.d ++ be32 s.e ++ be32 s.f ++ be32 s.g ++ be32 s.h

/-! ## Go strings: `strings.SplitN`, `encoding/hex`, `fmt.Sprintf "%x"` -/

/-- The text before the first occurrence of `sep`, and what follows it (if `sep` occurs). -/
def cutAt (sep : Char) : List Char → List Char × Option (List Char)
  | [] => ([], none)
  | c :: cs =>
    if c = sep then ([], some cs)
    else ((c :: (cutAt sep cs).1), (cutAt sep cs).2)

/-- Character-level `strings.SplitN` for a one-character separator. -/
def splitNChars (sep : Char) : Nat → List Char → List (List Char)
  | 0, _ => []
  | 1, s => [s]
  | n + 2, s =>
    match (cutAt sep s).2 with
    | none => [s]
    | some rest => (cutAt sep s).1 :: splitNChars sep (n + 1) rest

/-- Go's `strings.SplitN(s, sep, n)` for a one-character separator and `n ≥ 0`: at most `n`
substrings, the last one being the unsplit remainder. -/
def SplitN (s : String) (sep : Char) (n : Nat) : List String :=
  (splitNChars sep n s.data).map String.mk

/-- Value of a hexadecimal digit, either case (`fromHexChar` of `encoding/hex`). -/
def fromHexChar (c : Char) : Option Nat :=
  if '0' ≤ c ∧ c ≤ '9' then some (c.toNat - '0'.toNat)
  else if 'a' ≤ c ∧ c ≤ 'f' then some (c.toNat - 'a'.toNat + 10)
  else if 'A' ≤ c ∧ c ≤ 'F' then some (c.toNat - 'A'.toNat + 10)
  else none

/-- Errors of `hex.DecodeString`: `InvalidByteError` with the byte that is no digit, and
`ErrLength`. -/
inductive HexError where
  | invalidByte (b : UInt8)
  | errLength
deriving DecidableEq, Repr

/-- The first byte of the UTF-8 encoding of a character. -/
def firstByte (c : Char) : UInt8 :=
  if c.toNat < 0x80 then UInt8.ofNat c.toNat
  else if c.toNat < 0x800 then UInt8.ofNat (0xC0 + c.toNat / 64)
  else if c.toNat < 0x10000 then UInt8.ofNat (0xE0 + c.toNat / 4096)
  else UInt8.ofNat (0xF0 + c.toNat / 262144)

/-- Go's `hex.Decode` on the bytes of a string, read character by character: a digit is one
byte, so up to the first character that is no digit the pairs of bytes are the pairs of
characters. Pairs of digits are decoded left to right; the first byte that is no digit is
reported (the first byte of the first character that is none), then an odd length. -/
def decodeHexChars : List Char → Except HexError (List UInt8)
  | [] => .ok []
  | [c] =>
    match fromHexChar c with
    | none => .error (.invalidByte (firstByte c))
    | some _ => .error .errLength
  | p :: q :: rest =>
    match fromHexChar p with
    | none => .error (.invalidByte (firstByte p))
    | some a =>
      match fromHexChar q with
      | none => .error (.invalidByte (firstByte q))
      | some b =>
        match decodeHexChars rest with
        | .error e => .error e
        | .ok bs => .ok (UInt8.ofNat (a * 16 + b) :: bs)

/-- Go's `hex.DecodeString`. -/
def DecodeString (s : String) : Except HexError (List UInt8) := decodeHexChars s.data

/-- Lower-case digit of a value below 16. -/
def hexDigit (n : Nat) : Char :=
  if n < 10 then Char.ofNat ('0'.toNat + n) else Char.ofNat ('a'.toNat + (n - 10))

/-- Characters of the lower-case hexadecimal rendering of a byte string. -/
def hexChars : List UInt8 → List Char
  | [] => []
  | b :: bs => hexDigit (b.toNat / 16) :: hexDigit (b.toNat % 16) :: hexChars bs

/-- Go's `fmt.Sprintf("%x", bytes)`: two lower-case digits per byte. -/
def SprintfHex (bs : List UInt8) : String := String.mk (hexChars bs)

deriving instance DecidableEq for Except

/-! ## Path strings: `path/filepath` (Unix) and `os.basename` -/

/-- The elements of a path between its separators; `"/a//b"` gives `["", "a", "", "b"]`. -/
def splitSlash : List Char → List (List Char)
  | [] => [[]]
  | c :: cs =>
    if c = '/' then [] :: splitSlash cs
    else
      match splitSlash cs with
      | [] => [[c]]
      | h :: t => (c :: h) :: t

/-- Elements joined by single separators. -/
def joinSlash : List (List Char) → List Char
  | [] => []
  | [c] => c
  | c :: d :: rest => c ++ '/' :: joinSlash (d :: rest)

/-- One element processed by `filepath.Clean`; `stk` holds the elements kept so far, the
last one first. Empty and `.` elements are dropped, `..` removes the element before it,
except at the start of a relative path, where it is kept, and at the root, where it is
dropped. -/
def cleanStep (rooted : Bool) (stk : List (List Char)) (c : List Char) : List (List Char) :=
  if c = [] ∨ c = ['.'] then stk
  else if c = ['.', '.'] then
    match stk with
    | [] => if rooted then [] else [c]
    | top :: rest => if top = ['.', '.'] then c :: stk else rest
  else c :: stk

/-- Character-level `filepath.Clean`. -/
def cleanChars (p : List Char) : List Char :=
  let rooted := p.head? = some '/'
  let body := joinSlash ((splitSlash p).foldl (cleanStep rooted) []).reverse
  if rooted then '/' :: body
  else if body = [] then ['.'] else body

/-- Go's `filepath.Clean`: the shortest path name equivalent to `path` by purely lexical
processing. -/
def Clean (path : String) : String := String.mk (cleanChars path.data)

/-- Go's `filepath.Join`: empty elements are ignored, the rest is joined by separators and
cleaned; the result is empty when every element is. -/
def Join (elem : List String) : String :=
  match elem.filter (fun e => e ≠ "") with
  | [] => ""
  | es => String.mk (cleanChars (joinSlash (es.map String.data)))

/-- A path up to and including its last separator. -/
def dirPrefix (p : List Char) : List Char := (p.reverse.dropWhile (fun c => c ≠ '/')).reverse

/-- Go's `filepath.Dir`: all but the last element of `path`, cleaned. -/
def Dir (path : String) : String := String.mk (cleanChars (dirPrefix path.data))

/-- Character-level `os.basename`; the argument is the path reversed. Trailing separators
are removed (but not a separator that is the whole path), then the leading directory. -/
def basenameRev : List Char → List Char
  | [] => []
  | [c] => if c = '/' then ['/'] else [c]
  | c :: d :: rest =>
    if c = '/' then basenameRev (d :: rest)
    else ((c :: d :: rest).takeWhile (fun x => x ≠ '/')).reverse

/-- Go's `os.basename`, the `Name()` that `os.Lstat` and `os.Stat` report for a path. -/
def basename (path : String) : String := String.mk (basenameRev path.data.reverse)

/-! ## The file system -/

/-- Error numbers of the system calls the code makes. -/
inductive Errno where
  | ENOENT
  | ENOTDIR
  | EACCES
  | EISDIR
  /-- The input/output error `EIO`. -/
  | EIOERR
deriving DecidableEq, Repr

/-- What the file system holds of a regular file besides its content: the permission bits
of its mode, and what they grant to the process. That depends on the owner and the group of
the file and of the process, which the model leaves out, so it is said directly. -/
structure FileAttr where
  /-- Opening the file for reading succeeds. -/
  canRead : Bool
  /-- Opening the file for writing succeeds. -/
  canWrite : Bool
  /-- Reading the opened file fails with an I/O error. -/
  readFault : Bool
  /-- The permission bits of the file mode, as `Stat` reports them (`0o644` is `rw-r--r--`). -/
  mode : Nat
deriving DecidableEq, Repr

/-- What the file system grants on a directory. -/
structure DirAttr where
  /-- The size `Stat` reports for the directory. -/
  size : Nat
  /-- The names in the directory can be listed (and it can be opened for reading). -/
  canList : Bool
  /-- Names can be looked up in the directory. -/
  canSearch : Bool
  /-- Entries can be created in the directory. -/
  canWrite : Bool
deriving DecidableEq, Repr

/-- A file system object: a regular file with its bytes, or a directory with its entries, kept
in the order `readDirNames` returns them (sorted by name). -/
inductive Node where
  | file (data : List UInt8) (attr : FileAttr)
  | dir (entries : List (String × Node)) (attr : DirAttr)
deriving Repr

mutual
/-- Equality of file system objects is decidable. -/
def Node.decEq : (x y : Node) → Decidable (x = y)
  | .file d a, .file d1 a1 =>
    if h : d = d1 ∧ a = a1 then isTrue (by rw [h.1, h.2])
    else isFalse (fun e => by cases e; exact h ⟨rfl, rfl⟩)
  | .dir es a, .dir es1 a1 =>
    match entriesDecEq es es1 with
    | isTrue h1 =>
      if h2 : a = a1 then isTrue (by rw [h1, h2])
      else isFalse (fun e => by cases e; exact h2 rfl)
    | isFalse h1 => isFalse (fun e => by cases e; exact h1 rfl)
  | .file _ _, .dir _ _ => isFalse (fun e => by cases e)
  | .dir _ _, .file _ _ => isFalse (fun e => by cases e)
/-- Equality of directory listings is decidable. -/
def entriesDecEq : (x y : List (String × Node)) → Decidable (x = y)
  | [], [] => isTrue rfl
  | [], _ :: _ => isFalse (fun e => by cases e)
  | _ :: _, [] => isFalse (fun e => by cases e)
  | (k, v) :: rest, (k1, v1) :: rest1 =>
    if hk : k = k1 then
      match Node.decEq v v1 with
      | isTrue hv =>
        match entriesDecEq rest rest1 with
        | isTrue hr => isTrue (by rw [hk, hv, hr])
        | isFalse hr => isFalse (fun e => by cases e; exact hr rfl)
      | isFalse hv => isFalse (fun e => by cases e; exact hv rfl)
    else isFalse (fun e => by cases e; exact hk rfl)
end

instance : DecidableEq Node := Node.decEq

/-- State of the file system: the tree below `/`, the working directory of the process,
given by the names leading to it from `/`, and the file mode creation mask of the process
(`umask`), whose bits are cleared in the mode of a file the process creates; it is `0o022`
where nothing else is said. -/
structure FS where
  tree : Node
  cwd : List String
  umask : Nat := 0o022
deriving DecidableEq

/-- The entry of a directory under a name. -/
def lookupEntry (name : String) : List (String × Node) → Option Node
  | [] => none
  | (k, v) :: rest => if k = name then some v else lookupEntry name rest

/-- The object at a position, given by the names leading to it. -/
def Node.descend : Node → List String → Option Node
  | n, [] => some n
  | .file _ _, _ :: _ => none
  | .dir es _, c :: cs =>
    match lookupEntry c es with
    | none => none
    | some child => child.descend cs

/-- One element of a path name resolved from the position `cur`: the object at `cur` has to
be a directory; an empty element (doubled or trailing separator) stays there, `.` and `..`
and a name need search permission. The object a name leads to is looked at by the next step. -/
def resolveStep (fs : FS) (cur : List String) (c : String) : Except Errno (List String) :=
  match fs.tree.descend cur with
  | none => .error .ENOENT
  | some (.file _ _) => .error .ENOTDIR
  | some (.dir _ a) =>
    if c = "" then .ok cur
    else if a.canSearch = false then .error .EACCES
    else if c = "." then .ok cur
    else if c = ".." then .ok cur.dropLast
    else .ok (cur ++ [c])

/-- The elements of a path resolved one after the other. -/
def resolveFrom (fs : FS) : List String → List String → Except Errno (List String)
  | cur, [] => .ok cur
  | cur, c :: cs =>
    match resolveStep fs cur c with
    | .error e => .error e
    | .ok next => resolveFrom fs next cs

/-- Path name resolution: the position a path string names, from `/` when it starts with a
separator and from the working directory otherwise. The empty path names nothing. -/
def resolve (fs : FS) (path : String) : Except Errno (List String) :=
  if path = "" then .error .ENOENT
  else
    resolveFrom fs (if path.data.head? = some '/' then [] else fs.cwd)
      ((splitSlash path.data).map String.mk)

/-- The object a path string names. -/
def lookup (fs : FS) (path : String) : Except Errno Node :=
  match resolve fs path with
  | .error e => .error e
  | .ok pos =>
    match fs.tree.descend pos with
    | none => .error .ENOENT
    | some n => .ok n

/-- The part of `os.FileInfo` the code reads. -/
structure FileInfo where
  name : String
  size : Nat
  isDir : Bool
deriving DecidableEq, Repr

/-- The file info of an object reached under a name. -/
def Node.info (name : String) : Node → FileInfo
  | .file data _ => { name := name, size := data.length, isDir := false }
  | .dir _ a => { name := name, size := a.size, isDir := true }

/-- Go's `os.Lstat`. -/
def Lstat (fs : FS) (path : String) : Except Errno FileInfo :=
  match lookup fs path with
  | .error e => .error e
  | .ok n => .ok (n.info (basename path))

/-- Go's `os.Stat`; the file system has no symbolic links, so it is `Lstat`. -/
def Stat (fs : FS) (path : String) : Except Errno FileInfo := Lstat fs path

/-- Go's `os.IsNotExist`. -/
def IsNotExist : Option Errno → Bool
  | some .ENOENT => true
  | _ => false

/-- Opening an object for reading, as `os.Open` does on the path that names it. -/
def Node.openRead : Node → Except Errno Node
  | .file data a => if a.canRead then .ok (.file data a) else .error .EACCES
  | .dir es a => if a.canList then .ok (.dir es a) else .error .EACCES

/-- Go's `os.Open`; the opened file is the object itself. -/
def Open (fs : FS) (path : String) : Except Errno Node :=
  match lookup fs path with
  | .error e => .error e
  | .ok n => n.openRead

/-- Go's `io.Copy(hash, file)`: the bytes read from an opened file until its end, or the
error of the read that failed. A directory cannot be read. -/
def Copy : Node → Except Errno (List UInt8)
  | .file data a => if a.readFault then .error .EIOERR else .ok data
  | .dir _ _ => .error .EISDIR

/-! ## Errors -/

/-- The errors the package returns, one constructor for each `fmt.Errorf` of the source; an
operating system error returned as it is, is `os`. -/
inductive Error where
  | gettingArchivePath (cause : String)
  | checkingArchiveExistence (cause : Errno)
  | invalidChecksumFormat (checksum : String)
  | invalidHash (text : String) (cause : HexError)
  | unsupportedHashAlgorithm (name : String)
  | openingArchiveFile (cause : Errno)
  | computingHash (cause : Errno)
  | gettingArchiveInfo (cause : Errno)
  | testingIfArchiveIsCached (cause : Error)
  | tetingArchiveSize (cause : Error)
  | testingArchiveChecksum (cause : Error)
  | failedToComputeHashOfFile (name : String)
  | os (cause : Errno)
deriving DecidableEq, Repr

/-! ## Archive checks (`checksums.go`) -/

/-- A resource to download. `ArchivePath` is the result of the method of that name, which
resolves where the local copy of the archive lives: a path, or the message of its error. -/
structure DownloadResource where
  Checksum : String
  Size : Int
  ArchivePath : Except String String

/-- The error of a result, `nil` being `none`. -/
def errOf {ε α : Type} : Except ε α → Option ε
  | .error e => some e
  | .ok _ => none

/-- IsCached returns a bool representing if the release has already been downloaded. -/
def DownloadResource.IsCached (fs : FS) (r : DownloadResource) : Except Error Bool :=
  match r.ArchivePath with
  | .error err => .error (.gettingArchivePath err)
  | .ok archivePath =>
    let err := errOf (Stat fs archivePath)
    match err with
    | some e =>
      if !IsNotExist err then .error (.checkingArchiveExistence e)
      else .ok (!IsNotExist err)
    | none => .ok (!IsNotExist err)

/-- The digest function the `switch` of `TestLocalArchiveChecksum` selects for a name. -/
def selectAlgo (name : String) : Option (List UInt8 → List UInt8) :=
  if name = "SHA-256" then some sha256
  else if name = "SHA-1" then some sha1
  else if name = "MD5" then some md5
  else none

/-- TestLocalArchiveChecksum tests if the checksum of the local archive matches the checksum
of the DownloadResource. -/
def DownloadResource.TestLocalArchiveChecksum (fs : FS) (r : DownloadResource) :
    Except Error Bool :=
  let split := SplitN r.Checksum ':' 2
  if split.length ≠ 2 then .error (.invalidChecksumFormat r.Checksum)
  else
    match DecodeString (split.getD 1 "") with
    | .error err => .error (.invalidHash (split.getD 1 "") err)
    | .ok digest =>
      match selectAlgo (split.getD 0 "") with
      | none => .error (.unsupportedHashAlgorithm (split.getD 0 ""))
      | some algo =>
        match r.ArchivePath with
        | .error err => .error (.gettingArchivePath err)
        | .ok filePath =>
          match Open fs filePath with
          | .error err => .error (.openingArchiveFile err)
          | .ok file =>
            match Copy file with
            | .error err => .error (.computingHash err)
            | .ok written => .ok (decide (algo written = digest))

/-- TestLocalArchiveSize tests if the local archive size matches the DownloadResource size. -/
def DownloadResource.TestLocalArchiveSize (fs : FS) (r : DownloadResource) :
    Except Error Bool :=
  match r.ArchivePath with
  | .error err => .error (.gettingArchivePath err)
  | .ok filePath =>
    match Stat fs filePath with
    | .error err => .error (.gettingArchiveInfo err)
    | .ok info => .ok (decide ((info.size : Int) ≠ r.Size))

/-- TestLocalArchiveIntegrity checks for integrity of the local archive. -/
def DownloadResource.TestLocalArchiveIntegrity (fs : FS) (r : DownloadResource) :
    Except Error Bool :=
  match r.IsCached fs with
  | .error err => .error (.testingIfArchiveIsCached err)
  | .ok false => .ok false
  | .ok true =>
    match r.TestLocalArchiveSize fs with
    | .error err => .error (.tetingArchiveSize err)
    | .ok false => .ok false
    | .ok true =>
      match r.TestLocalArchiveChecksum fs with
      | .error err => .error (.testingArchiveChecksum err)
      | .ok ok => .ok ok


/-! ## Vocabulary of the archive claims -/

/-- A hexadecimal digit, in either case. -/
def IsHexDigit (c : Char) : Prop :=
  ('0' ≤ c ∧ c ≤ '9') ∨ ('a' ≤ c ∧ c ≤ 'f') ∨ ('A' ≤ c ∧ c ≤ 'F')

instance (c : Char) : Decidable (IsHexDigit c) := by
  unfold IsHexDigit
  infer_instance

/-- Valid hexadecimal text: an even number of hexadecimal digits. -/
def IsHexString (s : String) : Prop :=
  s.data.length % 2 = 0 ∧ ∀ c ∈ s.data, IsHexDigit c

instance (s : String) : Decidable (IsHexString s) := by
  unfold IsHexString
  infer_instance

/-- The text of a string after its first `:` (empty when there is none). -/
def afterFirstColon (s : String) : String :=
  String.mk (s.data.dropWhile (fun c => c ≠ ':')).tail

/-- The text of a string before its first `:` (all of it when there is none). -/
def beforeFirstColon (s : String) : String :=
  String.mk (s.data.takeWhile (fun c => c ≠ ':'))

/-- The errors that report a malformed checksum string. -/
def Error.isMalformedInput : Error → Bool
  | .invalidChecksumFormat _ => true
  | .invalidHash _ _ => true
  | _ => false

/-- The first result in a sequence of checks that is not `(true, nil)`. -/
def firstNotTrue : List (Except Error Bool) → Option (Except Error Bool)
  | [] => none
  | c :: cs => if c = .ok true then firstNotTrue cs else some c

/-- An ordinary file: readable, writable, read without fault, of mode `0o644`. -/
def plainFile (data : List UInt8) : Node := .file data ⟨true, true, false, 0o644⟩

/-- An ordinary directory: listable, searchable, writable. -/
def plainDir (entries : List (String × Node)) : Node := .dir entries ⟨4096, true, true, true⟩

/-- A file system holding the zero-byte archive `/cache/core.zip`. -/
def emptyArchiveFS : FS :=
  { tree := plainDir [("cache", plainDir [("core.zip", plainFile [])])], cwd := [] }

/-- The resource of the end-to-end scenario: the MD5 of the empty input, size 0. -/
def emptyArchiveResource : DownloadResource :=
  { Checksum := "MD5:d41d8cd98f00b204e9800998ecf8427e", Size := 0,
    ArchivePath := .ok "/cache/core.zip" }

/-- The three checks `TestLocalArchiveIntegrity` is made of, in the order it runs them. -/
def subChecks (fs : FS) (r : DownloadResource) : List (Except Error Bool) :=
  [r.IsCached fs, r.TestLocalArchiveSize fs, r.TestLocalArchiveChecksum fs]

/-- A resource with a checksum string, expecting 5 bytes at `/cache/core.zip`. -/
def resourceWithChecksum (checksum : String) : DownloadResource :=
  { Checksum := checksum, Size := 5, ArchivePath := .ok "/cache/core.zip" }

/-- A resource whose archive `/cache/missing.zip` was never downloaded; its checksum
string is malformed. -/
def missingArchiveResource : DownloadResource :=
  { Checksum := "sha256-deadbeef", Size := 5, ArchivePath := .ok "/cache/missing.zip" }

/-! ## `encoding/json`, as far as `packageFile` needs it -/

/-- The UTF-8 encoding of a code point. -/
def utf8Encode (v : Nat) : List UInt8 :=
  if v < 0x80 then [UInt8.ofNat v]
  else if v < 0x800 then [UInt8.ofNat (0xC0 + v / 64), UInt8.ofNat (0x80 + v % 64)]
  else if v < 0x10000 then
    [UInt8.ofNat (0xE0 + v / 4096), UInt8.ofNat (0x80 + v / 64 % 64), UInt8.ofNat (0x80 + v % 64)]
  else
    [UInt8.ofNat (0xF0 + v / 262144), UInt8.ofNat (0x80 + v / 4096 % 64),
     UInt8.ofNat (0x80 + v / 64 % 64), UInt8.ofNat (0x80 + v % 64)]

/-- The UTF-8 bytes of a string. -/
def utf8Bytes (s : String) : List UInt8 := s.data.flatMap (fun c => utf8Encode c.toNat)

/-- The Unicode replacement character, which stands for invalid input. -/
def replacementChar : Char := Char.ofNat 0xFFFD

/-- A continuation byte of UTF-8 within bounds. -/
def inRange (lo hi : Nat) (b : UInt8) : Bool := decide (lo ≤ b.toNat) && decide (b.toNat ≤ hi)

/-- Go's `utf8.DecodeRune`: the first code point of a byte string and its width; an invalid
or incomplete encoding gives the replacement character and width 1. -/
def DecodeRune : List UInt8 → Char × Nat
  | [] => (replacementChar, 0)
  | b0 :: rest =>
    let n0 := b0.toNat
    if n0 < 0x80 then (Char.ofNat n0, 1)
    else if 0xC2 ≤ n0 ∧ n0 ≤ 0xDF then
      match rest with
      | b1 :: _ =>
        if inRange 0x80 0xBF b1 then (Char.ofNat ((n0 - 0xC0) * 64 + (b1.toNat - 0x80)), 2)
        else (replacementChar, 1)
      | _ => (replacementChar, 1)
    else if 0xE0 ≤ n0 ∧ n0 ≤ 0xEF then
      match rest with
      | b1 :: b2 :: _ =>
        if inRange (if n0 = 0xE0 then 0xA0 else 0x80) (if n0 = 0xED then 0x9F else 0xBF) b1
            && inRange 0x80 0xBF b2 then
          (Char.ofNat ((n0 - 0xE0) * 4096 + (b1.toNat - 0x80) * 64 + (b2.toNat - 0x80)), 3)
        else (replacementChar, 1)
      | _ => (replacementChar, 1)
    else if 0xF0 ≤ n0 ∧ n0 ≤ 0xF4 then
      match rest with
      | b1 :: b2 :: b3 :: _ =>
        if inRange (if n0 = 0xF0 then 0x90 else 0x80) (if n0 = 0xF4 then 0x8F else 0xBF) b1
            && inRange 0x80 0xBF b2 && inRange 0x80 0xBF b3 then
          (Char.ofNat ((n0 - 0xF0) * 262144 + (b1.toNat - 0x80) * 4096
            + (b2.toNat - 0x80) * 64 + (b3.toNat - 0x80)), 4)
        else (replacementChar, 1)
      | _ => (replacementChar, 1)
    else (replacementChar, 1)

/-- Value of a hexadecimal digit given as a byte. -/
def hexByte (b : UInt8) : Option Nat := fromHexChar (Char.ofNat b.toNat)

/-- The number written by four hexadecimal digits (`getu4` after its `\u`). -/
def hex4 (h1 h2 h3 h4 : UInt8) : Option Nat :=
  match hexByte h1, hexByte h2, hexByte h3, hexByte h4 with
  | some a, some b, some c, some d => some (((a * 16 + b) * 16 + c) * 16 + d)
  | _, _, _, _ => none

/-- A JSON value as the scanner delimits it; strings are kept as the bytes between their
quotes, numbers are not evaluated. -/
inductive JSON where
  | null
  | bool (b : Bool)
  | number
  | string (raw : List UInt8)
  | array (elems : List JSON)
  | object (members : List (List UInt8 × JSON))

/-- White space between JSON tokens. -/
def isSpace (b : UInt8) : Bool := b = 0x20 || b = 0x09 || b = 0x0D || b = 0x0A

/-- Input after its leading white space. -/
def skipSpace : List UInt8 → List UInt8
  | [] => []
  | b :: rest => if isSpace b then skipSpace rest else b :: rest

/-- The rest of a string literal after its opening quote: the bytes up to the closing
quote, and what follows it. Control characters and unknown escapes are invalid. -/
def scanString : List UInt8 → Option (List UInt8 × List UInt8)
  | [] => none
  | b :: rest =>
    if b = 0x22 then some ([], rest)
    else if b = 0x5C then
      match rest with
      | [] => none
      | c :: rest2 =>
        if c = 0x75 then
          match rest2 with
          | h1 :: h2 :: h3 :: h4 :: rest3 =>
            match hex4 h1 h2 h3 h4, scanString rest3 with
            | some _, some (raw, out) => some (b :: c :: h1 :: h2 :: h3 :: h4 :: raw, out)
            | _, _ => none
          | _ => none
        else if c = 0x22 ∨ c = 0x5C ∨ c = 0x2F ∨ c = 0x62 ∨ c = 0x66 ∨ c = 0x6E ∨ c = 0x72
            ∨ c = 0x74 then
          match scanString rest2 with
          | some (raw, out) => some (b :: c :: raw, out)
          | none => none
        else none
    else if b.toNat < 0x20 then none
    else
      match scanString rest with
      | some (raw, out) => some (b :: raw, out)
      | none => none

/-- A decimal digit. -/
def isDigit (b : UInt8) : Bool := decide (0x30 ≤ b.toNat) && decide (b.toNat ≤ 0x39)

/-- Input after its leading digits. -/
def skipDigits : List UInt8 → List UInt8
  | [] => []
  | b :: rest => if isDigit b then skipDigits rest else b :: rest

/-- Input after an optional exponent of a number. -/
def scanExponent : List UInt8 → Option (List UInt8)
  | e :: rest =>
    if e = 0x65 ∨ e = 0x45 then
      match rest with
      | s :: d :: rest2 =>
        if (s = 0x2B ∨ s = 0x2D) ∧ isDigit d = true then some (skipDigits rest2)
        else if isDigit s = true then some (skipDigits (d :: rest2))
        else none
      | [d] => if isDigit d = true then some [] else none
      | [] => none
    else some (e :: rest)
  | [] => some []

/-- Input after an optional fraction and exponent of a number. -/
def scanFraction : List UInt8 → Option (List UInt8)
  | p :: rest =>
    if p = 0x2E then
      match rest with
      | d :: rest2 => if isDigit d = true then scanExponent (skipDigits rest2) else none
      | [] => none
    else scanExponent (p :: rest)
  | [] => some []

/-- Input after a number: an optional minus sign, `0` or a digit string without leading
zero, an optional fraction, an optional exponent. -/
def scanNumber : List UInt8 → Option (List UInt8)
  | [] => none
  | b :: rest =>
    let body := if b = 0x2D then rest else b :: rest
    match body with
    | [] => none
    | d :: rest2 =>
      if d = 0x30 then scanFraction rest2
      else if isDigit d = true then scanFraction (skipDigits rest2)
      else none

/-- The nesting of arrays and objects beyond which the scanner of `encoding/json` fails with
`exceeded max depth` (`maxNestingDepth`). -/
def maxNestingDepth : Nat := 10000

mutual
/-- A JSON value at the head of the input (after white space), and the input after it;
`fuel` bounds the number of nested calls, `depth` is the number of arrays and objects that
are open around the value. An array or object that would be open inside more than
`maxNestingDepth - 1` others is an error, as in the scanner's `pushParseState`. -/
def parseValue : Nat → Nat → List UInt8 → Option (JSON × List UInt8)
  | 0, _, _ => none
  | _, _, [] => none
  | fuel + 1, depth, b :: rest =>
    if b = 0x7B then
      if depth + 1 ≤ maxNestingDepth then
        match skipSpace rest with
        | [] => none
        | c :: rest2 =>
          if c = 0x7D then some (.object [], rest2)
          else
            match parseMembers fuel (depth + 1) (c :: rest2) with
            | some (ms, out) => some (.object ms, out)
            | none => none
      else none
    else if b = 0x5B then
      if depth + 1 ≤ maxNestingDepth then
        match skipSpace rest with
        | [] => none
        | c :: rest2 =>
          if c = 0x5D then some (.array [], rest2)
          else
            match parseElements fuel (depth + 1) (c :: rest2) with
            | some (es, out) => some (.array es, out)
            | none => none
      else none
    else if b = 0x22 then
      match scanString rest with
      | some (raw, out) => some (.string raw, out)
      | none => none
    else if b = 0x74 then
      match rest with
      | 0x72 :: 0x75 :: 0x65 :: out => some (.bool true, out)
      | _ => none
    else if b = 0x66 then
      match rest with
      | 0x61 :: 0x6C :: 0x73 :: 0x65 :: out => some (.bool false, out)
      | _ => none
    else if b = 0x6E then
      match rest with
      | 0x75 :: 0x6C :: 0x6C :: out => some (.null, out)
      | _ => none
    else
      match scanNumber (b :: rest) with
      | some out => some (.number, out)
      | none => none
/-- The members of an object from its first key (or the key after a comma) to its closing
brace; `depth` counts the object itself. -/
def parseMembers : Nat → Nat → List UInt8 → Option (List (List UInt8 × JSON) × List UInt8)
  | 0, _, _ => none
  | _, _, [] => none
  | fuel + 1, depth, q :: rest =>
    if q = 0x22 then
      match scanString rest with
      | none => none
      | some (key, r1) =>
        match skipSpace r1 with
        | [] => none
        | colon :: r2 =>
          if colon = 0x3A then
            match parseValue fuel depth (skipSpace r2) with
            | none => none
            | some (v, r3) =>
              match skipSpace r3 with
              | [] => none
              | sep :: r4 =>
                if sep = 0x7D then some ([(key, v)], r4)
                else if sep = 0x2C then
                  match parseMembers fuel depth (skipSpace r4) with
                  | some (ms, out) => some ((key, v) :: ms, out)
                  | none => none
                else none
          else none
    else none
/-- The elements of an array from its first element (or the element after a comma) to its
closing bracket; `depth` counts the array itself. -/
def parseElements : Nat → Nat → List UInt8 → Option (List JSON × List UInt8)
  | 0, _, _ => none
  | fuel + 1, depth, bs =>
    match parseValue fuel depth bs with
    | none => none
    | some (v, r1) =>
      match skipSpace r1 with
      | [] => none
      | sep :: r2 =>
        if sep = 0x5D then some ([v], r2)
        else if sep = 0x2C then
          match parseElements fuel depth (skipSpace r2) with
          | some (es, out) => some (v :: es, out)
          | none => none
        else none
end

/-- The JSON value a document consists of, if it is valid: one value, with white space
around it at most, nested no deeper than `maxNestingDepth`. No call chain of the parser is
longer than the document. -/
def parseJSON (data : List UInt8) : Option JSON :=
  match parseValue (data.length + 1) 0 (skipSpace data) with
  | none => none
  | some (v, rest) =>
    match skipSpace rest with
    | [] => some v
    | _ :: _ => none

/-- The character a one-letter escape stands for. -/
def escapedChar (c : UInt8) : Char :=
  if c = 0x62 then Char.ofNat 0x08
  else if c = 0x66 then Char.ofNat 0x0C
  else if c = 0x6E then Char.ofNat 0x0A
  else if c = 0x72 then Char.ofNat 0x0D
  else if c = 0x74 then Char.ofNat 0x09
  else Char.ofNat c.toNat

/-- Go's `unquote` on the bytes between the quotes of a valid string literal: escapes are
replaced by what they stand for, a `\u` escape of half a surrogate pair and every byte that
is not part of valid UTF-8 by the replacement character. -/
def unquoteChars : Nat → List UInt8 → List Char
  | 0, _ => []
  | _, [] => []
  | fuel + 1, b :: rest =>
    if b = 0x5C then
      match rest with
      | [] => []
      | c :: rest2 =>
        if c = 0x75 then
          match rest2 with
          | h1 :: h2 :: h3 :: h4 :: rest3 =>
            let r := (hex4 h1 h2 h3 h4).getD 0
            if 0xD800 ≤ r ∧ r < 0xE000 then
              match rest3 with
              | b5 :: u5 :: g1 :: g2 :: g3 :: g4 :: rest4 =>
                let r2 := (hex4 g1 g2 g3 g4).getD 0
                if b5 = 0x5C ∧ u5 = 0x75 ∧ (hex4 g1 g2 g3 g4).isSome = true ∧ r < 0xDC00
                    ∧ 0xDC00 ≤ r2 ∧ r2 < 0xE000 then
                  Char.ofNat ((r - 0xD800) * 1024 + (r2 - 0xDC00) + 0x10000)
                    :: unquoteChars fuel rest4
                else replacementChar :: unquoteChars fuel rest3
              | _ => replacementChar :: unquoteChars fuel rest3
            else Char.ofNat r :: unquoteChars fuel rest3
          | _ => []
        else escapedChar c :: unquoteChars fuel rest2
    else if b.toNat < 0x80 then Char.ofNat b.toNat :: unquoteChars fuel rest
    else
      (DecodeRune (b :: rest)).1 :: unquoteChars fuel ((b :: rest).drop (DecodeRune (b :: rest)).2)

/-- The string a string literal stands for. -/
def unquote (raw : List UInt8) : String := String.mk (unquoteChars raw.length raw)

/-- Whether a character of an object key matches a letter of the field name `checksum`:
without regard to case, the Kelvin sign counting as `k` and the long s as `s`. -/
def foldMatches (name key : Char) : Bool :=
  key.toLower = name || (name = 'k' && key = Char.ofNat 0x212A)
    || (name = 's' && key = Char.ofNat 0x17F)

/-- Whether an object key names a field, as the decoder matches them: character by
character by `foldMatches`. -/
def equalFold : List Char → List Char → Bool
  | [], [] => true
  | n :: ns, k :: ks => foldMatches n k && equalFold ns ks
  | _, _ => false

/-- The contents of the sidecar file. -/
structure packageFile where
  Checksum : String
deriving DecidableEq, Repr

/-- One object member stored into a `packageFile`: a string under a key that matches
`checksum` sets the field; any other value and any other key leave it as it is. -/
def storeMember (file : packageFile) (member : List UInt8 × JSON) : packageFile :=
  if equalFold "checksum".data (unquote member.1).data then
    match member.2 with
    | .string raw => { Checksum := unquote raw }
    | _ => file
  else file

/-- Go's `json.Unmarshal(data, &file)`, its error dropped as the caller does: a document
that is not valid JSON (or is nested deeper than `maxNestingDepth`) or is no object leaves
`file` as it is; the members of an object
are stored one after the other. -/
def Unmarshal (data : List UInt8) (file : packageFile) : packageFile :=
  match parseJSON data with
  | some (.object members) => members.foldl storeMember file
  | _ => file

/-- Two lower-case hexadecimal digits of a byte value. -/
def hex2 (n : Nat) : List UInt8 :=
  utf8Encode (hexDigit (n / 16)).toNat ++ utf8Encode (hexDigit (n % 16)).toNat

/-- One character of a string as `json.Marshal` writes it (with HTML escaping, as it is
by default): quote and backslash are escaped by a backslash, line feed, carriage return and
tab by their letter, the other control characters, `<`, `>`, `&`, U+2028 and U+2029 by
`\u` and four digits; the rest is written in UTF-8. (Go 1.22 and later write `\b` and `\f`
for U+0008 and U+000C.) -/
def marshalChar (c : Char) : List UInt8 :=
  let v := c.toNat
  if v = 0x22 ∨ v = 0x5C then [0x5C, UInt8.ofNat v]
  else if v = 0x0A then [0x5C, 0x6E]
  else if v = 0x0D then [0x5C, 0x72]
  else if v = 0x09 then [0x5C, 0x74]
  else if v < 0x20 ∨ v = 0x3C ∨ v = 0x3E ∨ v = 0x26 then [0x5C, 0x75, 0x30, 0x30] ++ hex2 v
  else if v = 0x2028 ∨ v = 0x2029 then [0x5C, 0x75, 0x32, 0x30, 0x32] ++ [UInt8.ofNat (v - 0x2028 + 0x38)]
  else utf8Encode v

/-- Go's `json.Marshal` of a `packageFile`: the object `{"checksum":"..."}`. -/
def Marshal (file : packageFile) : List UInt8 :=
  utf8Bytes "\x7b\"checksum\":\"" ++ file.Checksum.data.flatMap marshalChar ++ utf8Bytes "\"\x7d"

/-! ## Writing files -/

/-- Byte order of strings, the order `sort.Strings` puts names in. -/
def ltChars : List Char → List Char → Bool
  | _, [] => false
  | [], _ :: _ => true
  | a :: as, b :: bs => decide (a.toNat < b.toNat) || (decide (a = b) && ltChars as bs)

/-- A directory listing with the entry `name` set to `new`: replaced where it exists, put
in before the first greater name otherwise. -/
def insertEntry (name : String) (new : Node) : List (String × Node) → List (String × Node)
  | [] => [(name, new)]
  | (k, v) :: rest =>
    if k = name then (k, new) :: rest
    else if ltChars name.data k.data then (name, new) :: (k, v) :: rest
    else (k, v) :: insertEntry name new rest

/-- A directory listing with the entry `name` changed by `f`. -/
def modifyEntry (name : String) (f : Node → Node) : List (String × Node) → List (String × Node)
  | [] => []
  | (k, v) :: rest => if k = name then (k, f v) :: rest else (k, v) :: modifyEntry name f rest

/-- The tree with the object at a position changed by `f`; nothing changes when there is no
object at the position. -/
def Node.modify : Node → List String → (Node → Node) → Node
  | n, [], f => f n
  | .file data a, _ :: _, _ => .file data a
  | .dir es a, c :: cs, f => .dir (modifyEntry c (fun child => child.modify cs f) es) a

/-- The tree with the object `new` entered at a position; the directories leading to the
position are not created. -/
def Node.create : Node → List String → Node → Node
  | n, [], _ => n
  | .file data a, _ :: _, _ => .file data a
  | .dir es a, [c], new => .dir (insertEntry c new es) a
  | .dir es a, c :: d :: cs, new =>
    .dir (modifyEntry c (fun child => child.create (d :: cs) new) es) a

/-- A file with its content replaced, its attributes kept; a directory stays as it is. -/
def Node.withData (data : List UInt8) : Node → Node
  | .file _ a => .file data a
  | .dir es a => .dir es a

/-- The mode of a file created with the permission bits `perm` by a process with the file
mode creation mask `umask`: the bits of `perm` that the mask does not clear,
`perm & ~umask`. -/
def createMode (umask perm : Nat) : Nat := perm &&& (0o777 - (umask &&& 0o777))

/-- The attributes of a file that the process creates with the permission bits `perm`: its
mode, and what the mode grants to the process, which is the owner of the file. -/
def attrOfPerm (umask perm : Nat) : FileAttr :=
  { canRead := decide (createMode umask perm / 256 % 2 = 1),
    canWrite := decide (createMode umask perm / 128 % 2 = 1),
    readFault := false, mode := createMode umask perm }

/-- Go's `ioutil.WriteFile`: the named file is created with `perm`, less the bits of the
file mode creation mask, if it does not exist (which needs a writable directory) and
truncated otherwise (which needs a writable file, whose mode stays), then `data` is written
to it. The result is the file system
afterwards. -/
def WriteFile (fs : FS) (filename : String) (data : List UInt8) (perm : Nat) :
    Except Errno FS :=
  match resolve fs filename with
  | .error e => .error e
  | .ok pos =>
    match fs.tree.descend pos with
    | some (.dir _ _) => .error .EISDIR
    | some (.file _ a) =>
      if a.canWrite then .ok { fs with tree := fs.tree.modify pos (Node.withData data) }
      else .error .EACCES
    | none =>
      match fs.tree.descend pos.dropLast with
      | some (.dir _ a) =>
        if a.canWrite then
          .ok { fs with tree := fs.tree.create pos (.file data (attrOfPerm fs.umask perm)) }
        else .error .EACCES
      | _ => .error .ENOENT

/-- Go's `ioutil.ReadFile`: the file is opened and read to its end. -/
def ReadFile (fs : FS) (filename : String) : Except Errno (List UInt8) :=
  match Open fs filename with
  | .error e => .error e
  | .ok f => Copy f

/-! ## Directory checksums (`checksums.go`) -/

/-- Permissions of the sidecar file. -/
def filePermissions : Nat := 0o644

/-- Name of the sidecar file. -/
def packageFileName : String := "package.json"

/-- The function `computeDirChecksum` hands to `filepath.Walk`. `hash` is what has been
written to the running SHA-256 so far and the result what has been written afterwards;
`entry` is the name `info.Name()` and the object found at `path` (absent when `Lstat`
failed), `err` the error the walk reports for `path`. -/
def walkFn (root : String) (hash : List UInt8) (path : String) (entry : Option (String × Node))
    (err : Option Errno) : Except Error (List UInt8) :=
  match err, entry with
  | some _, _ => .ok hash
  | none, none => .ok hash
  | none, some (name, node) =>
    if (node.info name).isDir || ((node.info name).name = packageFileName && Dir path = root)
    then .ok hash
    else
      match node.openRead with
      | .error _ => .ok hash
      | .ok f =>
        match Copy f with
        | .error _ => .error (.failedToComputeHashOfFile (node.info name).name)
        | .ok written => .ok (hash ++ written)

mutual
/-- The recursion `walk` of `filepath.Walk` on the object found at `path`: the function
is called on the object; a directory is then listed, and each of its names is joined to
`path`, looked up with `Lstat` and walked in turn. An error of the function ends the
walk. -/
def walk (root path name : String) : Node → List UInt8 → Except Error (List UInt8)
  | .file data a, hash => walkFn root hash path (some (name, .file data a)) none
  | .dir es a, hash =>
    match walkFn root hash path (some (name, .dir es a))
        (if a.canList then none else some .EACCES) with
    | .error e => .error e
    | .ok hash1 => if a.canList then walkNames root path a.canSearch es hash1 else .ok hash1
/-- The loop of `walk` over the names of a directory found at `path`; without search
permission on the directory `Lstat` fails on every name, and the function is called with
that error. -/
def walkNames (root path : String) (canSearch : Bool) :
    List (String × Node) → List UInt8 → Except Error (List UInt8)
  | [], hash => .ok hash
  | (name, child) :: rest, hash =>
    if canSearch then
      match walk root (Join [path, name]) name child hash with
      | .error e => .error e
      | .ok hash1 => walkNames root path canSearch rest hash1
    else
      match walkFn root hash (Join [path, name]) none (some .EACCES) with
      | .error e => .error e
      | .ok hash1 => walkNames root path canSearch rest hash1
end

/-- Go's `filepath.Walk(root, walkFn)` for the function of `computeDirChecksum`: what has
been written to the hash when the walk ends, or the error that ended it. -/
def Walk (fs : FS) (root : String) : Except Error (List UInt8) :=
  match lookup fs root with
  | .error e => walkFn root [] root none (some e)
  | .ok node => walk root root (basename root) node []

/-- The hexadecimal SHA-256 digest of what a walk of `root` feeds to the hash. -/
def computeDirChecksum (fs : FS) (root : String) : Except Error String :=
  match Walk fs root with
  | .error err => .error err
  | .ok hash => .ok (SprintfHex (sha256 hash))

/-- The sidecar file of `root` is written with the checksum of `root`; the result is the
file system afterwards. -/
def createPackageFile (fs : FS) (root : String) : Except Error FS :=
  match computeDirChecksum fs root with
  | .error err => .error err
  | .ok checksum =>
    match WriteFile fs (Join [root, packageFileName]) (Marshal { Checksum := checksum })
        filePermissions with
    | .error err => .error (.os err)
    | .ok fs1 => .ok fs1

/-- CheckDirChecksum reads checksum from the package.json and compares it with a recomputed
value. -/
def CheckDirChecksum (fs : FS) (root : String) : Except Error Bool :=
  match ReadFile fs (Join [root, packageFileName]) with
  | .error err => .error (.os err)
  | .ok packageJSON =>
    let file := Unmarshal packageJSON { Checksum := "" }
    match computeDirChecksum fs root with
    | .error err => .error err
    | .ok checksum => .ok (decide (file.Checksum = checksum))

/-! ## Vocabulary of the directory claims -/

/-- `createPackageFile(root)` and, when it succeeds, `CheckDirChecksum(root)` right after it
on the file system it leaves. -/
def stampThenCheck (fs : FS) (root : String) : Except Error Bool :=
  match createPackageFile fs root with
  | .error err => .error err
  | .ok fs1 => CheckDirChecksum fs1 root

/-- Whether a result is a value, not an error. -/
def succeeds {ε α : Type} : Except ε α → Bool
  | .ok _ => true
  | .error _ => false

/-- A file system whose working directory `/` holds the empty directory `dir`. -/
def emptyDirFS : FS := { tree := plainDir [("dir", plainDir [])], cwd := [] }

/-- A file system whose working directory `/` holds the directory `dir` with the file
`a.txt` and a sidecar file of the given content. -/
def sidecarFS (sidecar : List UInt8) : FS :=
  { tree := plainDir [("dir", plainDir [("a.txt", plainFile [0x61]),
      ("package.json", plainFile sidecar)])], cwd := [] }

/-- The file system after the bytes of the file at a position (the names leading to it from
`/`) have been replaced; nothing changes when there is no file at the position. -/
def FS.replaceContent (fs : FS) (pos : List String) (data : List UInt8) : FS :=
  { fs with tree := fs.tree.modify pos (Node.withData data) }

/-- A plain name of a directory entry: not empty, without separator, neither `.` nor `..`. -/
def IsName (n : String) : Prop :=
  n.data ≠ [] ∧ '/' ∉ n.data ∧ n.data ≠ ['.'] ∧ n.data ≠ ['.', '.']

instance (n : String) : Decidable (IsName n) := by
  unfold IsName
  infer_instance

/-- Whether a walk that reaches an object reads the file at the relative position `rel`
below it: the directories on the way can be listed and searched, and the file opens for
reading. -/
def Node.readsFile : Node → List String → Bool
  | .file _ a, [] => a.canRead
  | .file _ _, _ :: _ => false
  | .dir _ _, [] => false
  | .dir es a, c :: cs =>
    a.canList && a.canSearch &&
      match lookupEntry c es with
      | none => false
      | some child => child.readsFile cs

/-- A file system whose working directory `/` holds the directory `dir` with the file
`a.txt`, which cannot be opened for reading. -/
def lockedFileFS : FS :=
  { tree := plainDir [("dir", plainDir [("a.txt", .file [0x61] ⟨false, true, false, 0o200⟩)])],
    cwd := [] }

/-- `createPackageFile(root)`, then the bytes of the file at `pos` replaced by `data`, then
`CheckDirChecksum(root)`. -/
def stampTamperCheck (fs : FS) (root : String) (pos : List String) (data : List UInt8) :
    Except Error Bool :=
  match createPackageFile fs root with
  | .error err => .error err
  | .ok fs1 => CheckDirChecksum (fs1.replaceContent pos data) root

/-- A file system whose working directory `/` holds the directory `dir` with the file
`a.txt`, of content `a`. -/
def oneFileFS : FS :=
  { tree := plainDir [("dir", plainDir [("a.txt", plainFile [0x61])])], cwd := [] }

/-- The file system `createPackageFile("dir")` makes of `oneFileFS`: the sidecar holds the
SHA-256 digest of `a`. -/
def oneFileStampedFS : FS :=
  { tree := plainDir [("dir", plainDir [("a.txt", plainFile [0x61]),
      ("package.json", plainFile (Marshal { Checksum :=
        "ca978112ca1bbdcafac231b39a23dc4da786eff8147c4e72b9807785afee48bb" }))])],
    cwd := [] }

/-! ## Auxiliary notions of the proofs -/

/-- Whether a path starts at the root. -/
def isRooted (p : List Char) : Bool := decide (p.head? = some '/')

/-- The elements `filepath.Clean` keeps of a path, the last one first. -/
def cleanStack (p : List Char) : List (List Char) :=
  (splitSlash p).foldl (cleanStep (decide (p.head? = some '/'))) []

/-- The path `filepath.Clean` writes for the elements it keeps. -/
def renderClean (rooted : Bool) (stk : List (List Char)) : List Char :=
  if rooted then '/' :: joinSlash stk.reverse
  else if joinSlash stk.reverse = [] then ['.'] else joinSlash stk.reverse

/-- A plain name, as a list of characters. -/
def IsNameChars (n : List Char) : Prop :=
  n ≠ [] ∧ '/' ∉ n ∧ n ≠ ['.'] ∧ n ≠ ['.', '.']

/-- Every directory of `t` is a directory of `t'`, at the same position and with the same
attributes. -/
def KeepsDirs (t t' : Node) : Prop :=
  ∀ (cur : List String) (es : List (String × Node)) (a : DirAttr),
    t.descend cur = some (.dir es a) → ∃ es', t'.descend cur = some (.dir es' a)

/-- The number of elements of a path that `filepath.Clean` keeps. -/
def pathDepth (p : String) : Nat := (cleanStack p.data).length

/-- The digits `fmt.Sprintf("%x", ...)` writes. -/
def lowerHexDigits : List Char := "0123456789abcdef".data

/-- The bytes of a string of ASCII characters. -/
def asciiBytes (cs : List Char) : List UInt8 := cs.map (fun c => UInt8.ofNat c.toNat)

/-- A character that a JSON string literal holds as it is, in one byte. -/
def IsPlainAscii (c : Char) : Prop :=
  0x20 ≤ c.toNat ∧ c.toNat < 0x80 ∧ c.toNat ≠ 0x22 ∧ c.toNat ≠ 0x5C

instance (c : Char) : Decidable (IsPlainAscii c) := by
  unfold IsPlainAscii
  infer_instance

/-! ## Vocabulary of the sidecar claims -/

/-- The checksum string an object records, as the decoder takes it: the string value of the
last member whose key names the field `checksum` and whose value is a string; nothing when
there is no such member. -/
def recordedChecksum : List (List UInt8 × JSON) → Option String
  | [] => none
  | (key, value) :: rest =>
    match recordedChecksum rest with
    | some s => some s
    | none =>
      if equalFold "checksum".data (unquote key).data then
        match value with
        | .string raw => some (unquote raw)
        | _ => none
      else none

/-- Whether the content of a sidecar file yields a checksum string: it is a JSON object
that records one. -/
def yieldsChecksum (content : List UInt8) : Bool :=
  match parseJSON content with
  | some (.object members) => (recordedChecksum members).isSome
  | _ => false

/-- A file system whose working directory `/` holds the directory `dir` with the file
`a.txt`, on which every read fails, and a sidecar file of the given content. -/
def faultyFileFS (sidecar : List UInt8) : FS :=
  { tree := plainDir [("dir", plainDir [("a.txt", .file [0x61] ⟨true, true, true, 0o644⟩),
      ("package.json", plainFile sidecar)])], cwd := [] }

/-! ## Vocabulary of the checksum claims -/

/-- Whether an object is a file. -/
def Node.isFile : Node → Bool
  | .file _ _ => true
  | .dir _ _ => false

/-- Whether a name comes before the first name of a listing, in byte order; it does when the
listing is empty. -/
def ltHead (n : String) : List (String × Node) → Bool
  | [] => true
  | (m, _) :: _ => ltChars n.data m.data

mutual
/-- Whether the directories of a tree are as a file system lists them: every name is a
plain name, and the names of a directory ascend in byte order. -/
def Node.wellFormed : Node → Bool
  | .file _ _ => true
  | .dir es _ => entriesWellFormed es
/-- Whether a listing and the trees below it are as a file system lists them. -/
def entriesWellFormed : List (String × Node) → Bool
  | [] => true
  | (n, child) :: rest =>
    decide (IsName n) && ltHead n rest && child.wellFormed && entriesWellFormed rest
end

mutual
/-- Whether no file of a tree that opens for reading, below directories that can be listed
and searched, fails while it is read. -/
def Node.faultFree : Node → Bool
  | .file _ a => !(a.canRead && a.readFault)
  | .dir es a => !(a.canList && a.canSearch) || entriesFaultFree es
/-- Whether no file of the trees of a listing fails while it is read. -/
def entriesFaultFree : List (String × Node) → Bool
  | [] => true
  | (_, child) :: rest => child.faultFree && entriesFaultFree rest
end

mutual
/-- The bytes of a tree in traversal order: the content of a file that opens for reading;
for a directory that can be listed and searched the bytes of its entries, one entry after
the other and each with all that is below it; nothing for a file that does not open and for
a directory that cannot be listed or searched. -/
def Node.contents : Node → List UInt8
  | .file data a => if a.canRead then data else []
  | .dir es a => if a.canList && a.canSearch then entriesContents es else []
/-- The bytes of the trees of a listing, in the order of the listing. -/
def entriesContents : List (String × Node) → List UInt8
  | [] => []
  | (_, child) :: rest => child.contents ++ entriesContents rest
end

/-- The listing of a root directory without its sidecar: the file named `package.json`. -/
def withoutSidecar (es : List (String × Node)) : List (String × Node) :=
  es.filter (fun e => !(decide (e.1 = packageFileName) && e.2.isFile))

/-- A file system whose working directory `/` holds the directory `dir` with the file
`a.txt`, of content `a`, and the directory `sub`, which can be searched but not listed, with
the file `b.txt`, of content `b`. -/
def hiddenFileFS : FS :=
  { tree := plainDir [("dir", plainDir [("a.txt", plainFile [0x61]),
      ("sub", .dir [("b.txt", plainFile [0x62])] ⟨4096, false, true, true⟩)])], cwd := [] }

/-- A file system whose working directory `/` holds the directory `dir` with the file
`a.txt`, of content `a`, a sidecar of content `x`, and the directory `sub` with a file
`package.json` of content `b` and a file `z.txt` that does not open for reading. -/
def nestedSidecarFS : FS :=
  { tree := plainDir [("dir", plainDir [("a.txt", plainFile [0x61]),
      ("package.json", plainFile [0x78]),
      ("sub", plainDir [("package.json", plainFile [0x62]),
        ("z.txt", .file [0x7A] ⟨false, true, false, 0o200⟩)])])], cwd := [] }

/-- A file system whose working directory `/` holds the directory `dir` with ordinary files
of the given names and contents, and a sidecar file of the given content. -/
def filesFS (files : List (String × List UInt8)) (sidecar : List UInt8) : FS :=
  { tree := plainDir [("dir", plainDir (files.map (fun f => (f.1, plainFile f.2))
      ++ [("package.json", plainFile sidecar)]))], cwd := [] }

/-- The sidecar content of a directory whose files hold `abc` in all. -/
def abcSidecar : List UInt8 :=
  Marshal { Checksum := "ba7816bf8f01cfea414140de5dae2223b00361a396177a9cb410ff61f20015ad" }

end Releases

/-! ## Semantic versions: the library `github.com/blang/semver`

`cores.go` parses, compares and prints versions with this library. Strings are handled as
lists of characters. -/

namespace Semver

/-- The digits. -/
def numbers : List Char := "0123456789".data

/-- The letters and the hyphen. -/
def alphas : List Char := "abcdefghijklmnopqrstuvwxyzABCDEFGHIJKLMNOPQRSTUVWXYZ-".data

/-- The characters of an alphanumeric identifier. -/
def alphanum : List Char := alphas ++ numbers

/-- A pre-release element: a number, or an alphanumeric identifier. -/
structure PRVersion where
  VersionStr : String
  VersionNum : Nat
  IsNum : Bool
deriving DecidableEq, Repr

/-- A semantic version. -/
structure Version where
  Major : Nat
  Minor : Nat
  Patch : Nat
  Pre : List PRVersion
  Build : List String
deriving DecidableEq, Repr

/-- Whether every character of `s` is in `set`. -/
def containsOnly (s set : List Char) : Bool := s.all (fun c => decide (c ∈ set))

/-- The test `len(s) > 1 && s[0] == '0'`: a first character `0` that is not the last one. -/
def hasLeadingZeroes (s : List Char) : Bool :=
  decide (1 < s.length) && decide (s.head? = some '0')

/-- The value of a digit. -/
def digitValue (c : Char) : Nat := c.toNat - '0'.toNat

/-- Go's `strconv.ParseUint(s, 10, 64)`: the value of a string of digits that is not empty,
when it is below `2 ^ 64`. -/
def ParseUint (s : List Char) : Option Nat :=
  if s = [] ∨ containsOnly s numbers = false then none
  else
    let n := s.foldl (fun acc c => acc * 10 + digitValue c) 0
    if n < 2 ^ 64 then some n else none

/-- The digit of a value below ten. -/
def digitChar (d : Nat) : Char := Char.ofNat ('0'.toNat + d)

/-- The decimal digits of a number, at most `fuel` of them. -/
def formatDigits : Nat → Nat → List Char
  | 0, _ => []
  | fuel + 1, n =>
    if n < 10 then [digitChar n] else formatDigits fuel (n / 10) ++ [digitChar (n % 10)]

/-- Go's `strconv.FormatUint(n, 10)`. -/
def FormatUint (n : Nat) : List Char := formatDigits (n + 1) n

/-- Go's `strings.Split(s, sep)` for a separator of one character. -/
def Split (sep : Char) : List Char → List (List Char)
  | [] => [[]]
  | c :: cs =>
    if c = sep then [] :: Split sep cs
    else
      match Split sep cs with
      | [] => [[c]]
      | h :: t => (c :: h) :: t

/-- The elements of a list joined by a separator. -/
def joinWith (sep : Char) : List (List Char) → List Char
  | [] => []
  | [a] => a
  | a :: b :: rest => a ++ sep :: joinWith sep (b :: rest)

/-- The library's `NewPRVersion`: a string of digits without leading zero is a number, another
alphanumeric string an identifier; the empty string and other strings are errors. -/
def NewPRVersion (s : List Char) : Option PRVersion :=
  if s = [] then none
  else if containsOnly s numbers then
    if hasLeadingZeroes s then none
    else
      match ParseUint s with
      | none => none
      | some num => some { VersionStr := "", VersionNum := num, IsNum := true }
  else if containsOnly s alphanum then
    some { VersionStr := String.mk s, VersionNum := 0, IsNum := false }
  else none

/-- The loop of `Parse` over the pre-release elements. -/
def parsePre : List (List Char) → Option (List PRVersion)
  | [] => some []
  | s :: rest =>
    match NewPRVersion s with
    | none => none
    | some p =>
      match parsePre rest with
      | none => none
      | some ps => some (p :: ps)

/-- The loop of `Parse` over the elements of the build meta data. -/
def parseBuild : List (List Char) → Option (List String)
  | [] => some []
  | s :: rest =>
    if s = [] ∨ containsOnly s alphanum = false then none
    else
      match parseBuild rest with
      | none => none
      | some bs => some (String.mk s :: bs)

/-- The steps of `Parse` for each of major, minor and patch: digits only, no leading zero,
then `ParseUint`. -/
def parseNumber (s : List Char) : Option Nat :=
  if containsOnly s numbers = false then none
  else if hasLeadingZeroes s then none
  else ParseUint s

/-- The library's `Parse`: the string is split at its first two dots; what follows the first
`+` of the last part is the build meta data and, before it, what follows the first `-` the
pre-release, both split at dots. An error is `none`. -/
def Parse (s : String) : Option Version :=
  if s.data = [] then none
  else
    match Releases.splitNChars '.' 3 s.data with
    | [majorStr, minorStr, rest] =>
      match parseNumber majorStr, parseNumber minorStr with
      | some major, some minor =>
        let build : List (List Char) :=
          match (Releases.cutAt '+' rest).2 with
          | some b => Split '.' b
          | none => []
        let rest1 : List Char :=
          match (Releases.cutAt '+' rest).2 with
          | some _ => (Releases.cutAt '+' rest).1
          | none => rest
        let prerelease : List (List Char) :=
          match (Releases.cutAt '-' rest1).2 with
          | some p => Split '.' p
          | none => []
        let patchStr : List Char :=
          match (Releases.cutAt '-' rest1).2 with
          | some _ => (Releases.cutAt '-' rest1).1
          | none => rest1
        match parseNumber patchStr, parsePre prerelease, parseBuild build with
        | some patch, some pre, some bld =>
          some { Major := major, Minor := minor, Patch := patch, Pre := pre, Build := bld }
        | _, _, _ => none
      | _, _ => none
    | _ => none

/-- The library's `Make`, another name of `Parse`. -/
def Make (s : String) : Option Version := Parse s

/-- What a pre-release element is printed as. -/
def PRVersion.String (v : PRVersion) : List Char :=
  if v.IsNum then FormatUint v.VersionNum else v.VersionStr.data

/-- The library's `Version.String`, which `fmt.Sprint` prints a version with:
`major.minor.patch`, then `-` and the pre-release elements, then `+` and the build
elements, each joined by dots, when there are any. -/
def Version.String (v : Version) : String :=
  String.mk (FormatUint v.Major ++ '.' :: FormatUint v.Minor ++ '.' :: FormatUint v.Patch
    ++ (if v.Pre.length > 0 then '-' :: joinWith '.' (v.Pre.map PRVersion.String) else [])
    ++ (if v.Build.length > 0 then '+' :: joinWith '.' (v.Build.map String.data) else []))

/-- The comparison of two numbers: `1`, `0` or `-1`. -/
def compareNat (a b : Nat) : Int := if a = b then 0 else if a > b then 1 else -1

/-- The comparison of two strings, byte by byte. -/
def compareStr (a b : String) : Int :=
  if a = b then 0 else if Releases.ltChars b.data a.data then 1 else -1

/-- The library's `PRVersion.Compare`: a number is below an identifier, numbers compare by
value and identifiers as strings. -/
def PRVersion.Compare (v o : PRVersion) : Int :=
  if v.IsNum = true ∧ o.IsNum = false then -1
  else if v.IsNum = false ∧ o.IsNum = true then 1
  else if v.IsNum = true ∧ o.IsNum = true then compareNat v.VersionNum o.VersionNum
  else compareStr v.VersionStr o.VersionStr

/-- The loop of `Version.Compare` over the pre-release elements of both versions, and what
follows it: the first elements that differ decide; when there are none, the longer list is
the greater. -/
def comparePre : List PRVersion → List PRVersion → Int
  | [], [] => 0
  | [], _ :: _ => -1
  | _ :: _, [] => 1
  | a :: as, b :: bs =>
    if a.Compare b = 0 then comparePre as bs
    else if a.Compare b = 1 then 1
    else -1

/-- The part of `Version.Compare` on the pre-releases: a version without pre-release is
above one with. -/
def compareRelease (p q : List PRVersion) : Int :=
  if p.length = 0 ∧ q.length = 0 then 0
  else if p.length = 0 ∧ q.length > 0 then 1
  else if p.length > 0 ∧ q.length = 0 then -1
  else comparePre p q

/-- The library's `Version.Compare`: `1` when `v` is the greater version, `-1` when `o` is,
`0` otherwise; the build meta data is not looked at. -/
def Version.Compare (v o : Version) : Int :=
  if v.Major ≠ o.Major then (if v.Major > o.Major then 1 else -1)
  else if v.Minor ≠ o.Minor then (if v.Minor > o.Minor then 1 else -1)
  else if v.Patch ≠ o.Patch then (if v.Patch > o.Patch then 1 else -1)
  else compareRelease v.Pre o.Pre

/-- The library's `Version.GT`. -/
def Version.GT (v o : Version) : Bool := decide (v.Compare o = 1)

/-- The library's `Version.GTE`. -/
def Version.GTE (v o : Version) : Bool := decide (v.Compare o ≥ 0)

/-- A three-way comparison: its values are `-1`, `0` and `1`, turning the arguments around
negates it, elements it finds equal compare alike with every other element, and being
greater is transitive. -/
def IsComparison {α : Type} (c : α → α → Int) : Prop :=
  (∀ a b, c a b = -1 ∨ c a b = 0 ∨ c a b = 1)
  ∧ (∀ a b, c b a = - c a b)
  ∧ (∀ a b d, c a b = 0 → c a d = c b d)
  ∧ (∀ a b d, c a b = 1 → c b d = 1 → c a d = 1)

/-- Two comparisons one after the other: the second decides where the first finds no
difference. -/
def lexCompare {α β : Type} (c1 : α → α → Int) (c2 : β → β → Int) (p q : α × β) : Int :=
  if c1 p.1 q.1 = 0 then c2 p.2 q.2 else c1 p.1 q.1

/-- What `Version.Compare` looks at, in the order it does. -/
def Version.key (v : Version) : Nat × Nat × Nat × List PRVersion :=
  (v.Major, v.Minor, v.Patch, v.Pre)

end Semver

/-! ## Core packages (`cores.go`) -/

namespace Cores

/-- Release represents a release of a core package. -/
structure Release where
  Version : String
  ArchiveFileName : String
  Checksum : String
  Size : Int
  Boards : List String
deriving DecidableEq, Repr

/-- Core represents a core package. `Releases` is the map of the releases, as the list of
its keys and values in the order in which an iteration visits them. -/
structure Core where
  Name : String
  Architecture : String
  Category : String
  Releases : List (String × Release)
deriving DecidableEq, Repr

/-- The value a map holds under a key. -/
def mapGet (key : String) : List (String × Release) → Option Release
  | [] => none
  | (k, v) :: rest => if k = key then some v else mapGet key rest

/-- GetVersion returns the specified release corresponding the provided version, or nil if
not found. -/
def Core.GetVersion (core : Core) (version : String) : Option Release :=
  mapGet version core.Releases

/-- The loop of `Versions`: the versions of the releases that parse, in the order of the
iteration. -/
def versionsOf : List (String × Release) → List Semver.Version
  | [] => []
  | (_, release) :: rest =>
    match Semver.Make release.Version with
    | some temp => temp :: versionsOf rest
    | none => versionsOf rest

/-- Versions returns all the version numbers in this Core Package. -/
def Core.Versions (core : Core) : List Semver.Version := versionsOf core.Releases

/-- The loop of `latestVersion`: the maximum so far is replaced by each version greater than
it. -/
def maxVersion (max : Semver.Version) : List Semver.Version → Semver.Version
  | [] => max
  | v :: rest => if v.GT max then maxVersion v rest else maxVersion max rest

/-- Core.latestVersion obtains latest version number: the greatest version printed, the empty
string when there is none. -/
def Core.latestVersion (core : Core) : String :=
  match core.Versions with
  | [] => ""
  | first :: rest => (maxVersion first rest).String

/-- Latest obtains latest version of a core package. -/
def Core.Latest (core : Core) : Option Release :=
  core.GetVersion core.latestVersion

/-- A release of a version, with no more said about it. -/
def releaseOf (version : String) : Release :=
  { Version := version, ArchiveFileName := "", Checksum := "", Size := 0, Boards := [] }

/-- A core with the given releases. -/
def coreOf (releases : List (String × Release)) : Core :=
  { Name := "avr", Architecture := "avr", Category := "Arduino", Releases := releases }

/-- The greatest string of a list in byte order, the empty string for the empty list. -/
def greatestString : List String → String
  | [] => ""
  | s :: rest =>
    if Releases.ltChars s.data (greatestString rest).data then greatestString rest else s

end Cores

namespace Releases

/-! ## The library functions on known values -/

/-- The digests of the empty input and of `abc` are those of the standards. -/
theorem digest_test_vectors :
    SprintfHex (md5 []) = "d41d8cd98f00b204e9800998ecf8427e"
    ∧ SprintfHex (md5 [0x61, 0x62, 0x63]) = "900150983cd24fb0d6963f7d28e17f72"
    ∧ SprintfHex (sha1 []) = "da39a3ee5e6b4b0d3255bfef95601890afd80709"
    ∧ SprintfHex (sha1 [0x61, 0x62, 0x63]) = "a9993e364706816aba3e25717850c26c9cd0d89d"
    ∧ SprintfHex (sha256 [])
        = "e3b0c44298fc1c149afbf4c8996fb92427ae41e4649b934ca495991b7852b855"
    ∧ SprintfHex (sha256 [0x61, 0x62, 0x63])
        = "ba7816bf8f01cfea414140de5dae2223b00361a396177a9cb410ff61f20015ad" := by
  decide!

/-- A message of two blocks: 70 bytes `a`. -/
theorem digest_two_blocks :
    SprintfHex (sha256 (List.replicate 70 0x61))
        = "6bd5e5034855a11241f0dee8fc72850ffd9955b28347a86428b5fa19119f6ad0"
    ∧ SprintfHex (md5 (List.replicate 70 0x61)) = "0f5c6c4e740bfcc08c3c26ccb2673d46"
    ∧ SprintfHex (sha1 (List.replicate 70 0x61))
        = "ed6c69d9e8b4373af86303dfaa3528dfbc129902" := by
  decide!

/-- `filepath.Clean`, `filepath.Join`, `filepath.Dir` and `os.basename` on paths of the
library's own tests. -/
theorem path_test_vectors :
    Clean "" = "." ∧ Clean "abc//def//ghi" = "abc/def/ghi" ∧ Clean "/../abc" = "/abc"
    ∧ Clean "abc/def/../../.." = ".." ∧ Clean "abc/../../././../def" = "../../def"
    ∧ Clean "/abc/def/../.." = "/" ∧ Clean "abc/" = "abc" ∧ Clean "./" = "."
    ∧ Join ["a", "b"] = "a/b" ∧ Join ["a", ""] = "a" ∧ Join ["", "b"] = "b"
    ∧ Join ["/", "a"] = "/a" ∧ Join ["a/", "b"] = "a/b" ∧ Join ["", ""] = ""
    ∧ Dir "" = "." ∧ Dir "/foo" = "/" ∧ Dir "x/" = "x" ∧ Dir "abc" = "." ∧ Dir "a/b/c.x" = "a/b"
    ∧ Dir "////" = "/"
    ∧ basename "dir/" = "dir" ∧ basename "/" = "/" ∧ basename "a/b" = "b" := by
  decide

/-- `strings.SplitN`, `hex.DecodeString` and `json.Unmarshal` on small inputs. -/
theorem string_test_vectors :
    SplitN "a:b:c" ':' 2 = ["a", "b:c"] ∧ SplitN "abc" ':' 2 = ["abc"]
    ∧ SplitN "" ':' 2 = [""] ∧ SplitN ":" ':' 2 = ["", ""]
    ∧ DecodeString "d41D8c" = .ok [0xd4, 0x1d, 0x8c]
    ∧ DecodeString "d41" = .error .errLength
    ∧ DecodeString "zz" = .error (.invalidByte 0x7A)
    ∧ DecodeString "0é" = .error (.invalidByte 0xC3)
    ∧ Unmarshal (utf8Bytes " \x7b \"Checksum\" : \"ab\\u0041\" \x7d ") ⟨""⟩ = ⟨"abA"⟩
    ∧ Unmarshal (utf8Bytes "\x7b\"checksum\":\"a\",\"checksum\":5\x7d") ⟨""⟩ = ⟨"a"⟩
    ∧ Unmarshal (utf8Bytes "\x7b\"checksum\":\"a\",\x7d") ⟨"old"⟩ = ⟨"old"⟩
    ∧ Unmarshal (utf8Bytes "[\"checksum\"]") ⟨"old"⟩ = ⟨"old"⟩ := by
  decide!

/-! ## Archive checks: lemmas -/

theorem fromHexChar_isSome_iff (c : Char) : (fromHexChar c).isSome = true ↔ IsHexDigit c := by
  unfold fromHexChar IsHexDigit
  split_ifs with h1 h2 h3 <;> simp_all

theorem fromHexChar_eq_none_iff (c : Char) : fromHexChar c = none ↔ ¬ IsHexDigit c := by
  rw [← fromHexChar_isSome_iff]
  cases fromHexChar c <;> simp

/-- Decoding succeeds on an even number of hexadecimal digits, with one byte for two digits. -/
theorem decodeHexChars_ok : ∀ (n : Nat) (l : List Char), l.length = 2 * n →
    (∀ c ∈ l, IsHexDigit c) → ∃ d, decodeHexChars l = .ok d ∧ d.length = n
  | 0, l, hl, _ => by
    have : l = [] := List.length_eq_zero.mp (by omega)
    subst this
    exact ⟨[], rfl, rfl⟩
  | n + 1, l, hl, hd => by
    match l, hl, hd with
    | p :: q :: rest, hl, hd =>
      have hp : IsHexDigit p := hd p (by simp)
      have hq : IsHexDigit q := hd q (by simp)
      obtain ⟨a, ha⟩ := Option.isSome_iff_exists.mp ((fromHexChar_isSome_iff p).mpr hp)
      obtain ⟨b, hb⟩ := Option.isSome_iff_exists.mp ((fromHexChar_isSome_iff q).mpr hq)
      obtain ⟨d, hd1, hd2⟩ := decodeHexChars_ok n rest (by simp at hl; omega)
        (fun c hc => hd c (by simp [hc]))
      exact ⟨UInt8.ofNat (a * 16 + b) :: d, by simp [decodeHexChars, ha, hb, hd1], by simp [hd2]⟩

/-- Decoding fails on text with a character that is no hexadecimal digit. -/
theorem decodeHexChars_error_of_not_digit : ∀ (n : Nat) (l : List Char), l.length ≤ n →
    (∃ c ∈ l, ¬ IsHexDigit c) → ∃ e, decodeHexChars l = .error e
  | _, [], _, h => by simp at h
  | _, [c], _, h => by
    simp only [List.mem_singleton, exists_eq_left] at h
    simp [decodeHexChars, (fromHexChar_eq_none_iff c).mpr h]
  | 0, _ :: _ :: _, hl, _ => by simp at hl
  | n + 1, p :: q :: rest, hl, h => by
    unfold decodeHexChars
    cases hp : fromHexChar p with
    | none => exact ⟨_, rfl⟩
    | some a =>
      cases hq : fromHexChar q with
      | none => exact ⟨_, rfl⟩
      | some b =>
        have hp1 : IsHexDigit p := (fromHexChar_isSome_iff p).mp (by simp [hp])
        have hq1 : IsHexDigit q := (fromHexChar_isSome_iff q).mp (by simp [hq])
        have hrest : ∃ c ∈ rest, ¬ IsHexDigit c := by
          obtain ⟨c, hc, hnc⟩ := h
          simp only [List.mem_cons] at hc
          rcases hc with rfl | rfl | hc
          · exact absurd hp1 hnc
          · exact absurd hq1 hnc
          · exact ⟨c, hc, hnc⟩
        obtain ⟨e, he⟩ := decodeHexChars_error_of_not_digit n rest
          (by simp at hl; omega) hrest
        exact ⟨e, by simp [he]⟩

/-- Decoding fails on text of odd length. -/
theorem decodeHexChars_error_of_odd : ∀ (n : Nat) (l : List Char), l.length = 2 * n + 1 →
    ∃ e, decodeHexChars l = .error e
  | 0, l, hl => by
    match l, hl with
    | [c], _ =>
      unfold decodeHexChars
      cases fromHexChar c <;> exact ⟨_, rfl⟩
  | n + 1, l, hl => by
    match l, hl with
    | p :: q :: rest, hl =>
      unfold decodeHexChars
      cases fromHexChar p with
      | none => exact ⟨_, rfl⟩
      | some a =>
        cases fromHexChar q with
        | none => exact ⟨_, rfl⟩
        | some b =>
          obtain ⟨e, he⟩ := decodeHexChars_error_of_odd n rest (by simp at hl; omega)
          exact ⟨e, by simp [he]⟩

theorem DecodeString_ok_of_isHexString (s : String) (h : IsHexString s) :
    ∃ d, DecodeString s = .ok d ∧ d.length = s.data.length / 2 := by
  obtain ⟨hlen, hdig⟩ := h
  exact decodeHexChars_ok (s.data.length / 2) s.data (by omega) hdig

theorem DecodeString_error_of_not_isHexString (s : String) (h : ¬ IsHexString s) :
    ∃ e, DecodeString s = .error e := by
  unfold IsHexString at h
  by_cases hlen : s.data.length % 2 = 0
  · have : ∃ c ∈ s.data, ¬ IsHexDigit c := by
      by_contra hcon
      push_neg at hcon
      exact h ⟨hlen, hcon⟩
    exact decodeHexChars_error_of_not_digit _ s.data le_rfl this
  · exact decodeHexChars_error_of_odd (s.data.length / 2) s.data (by omega)

theorem cutAt_of_not_mem (sep : Char) : ∀ (s : List Char), sep ∉ s → cutAt sep s = (s, none)
  | [], _ => rfl
  | c :: cs, h => by
    have hc : c ≠ sep := fun e => h (by simp [e])
    have ih := cutAt_of_not_mem sep cs (fun hm => h (by simp [hm]))
    simp [cutAt, hc, ih]

theorem cutAt_append (sep : Char) : ∀ (a b : List Char), sep ∉ a →
    cutAt sep (a ++ sep :: b) = (a, some b)
  | [], b, _ => by simp [cutAt]
  | c :: cs, b, h => by
    have hc : c ≠ sep := fun e => h (by simp [e])
    have ih := cutAt_append sep cs b (fun hm => h (by simp [hm]))
    simp [cutAt, hc, ih]

/-- A string without the separator is not split. -/
theorem SplitN_two_of_not_mem (s : String) (h : ':' ∉ s.data) : SplitN s ':' 2 = [s] := by
  simp [SplitN, splitNChars, cutAt_of_not_mem ':' s.data h]

/-- A string is split at its first separator only. -/
theorem SplitN_two_append (a b : String) (h : ':' ∉ a.data) :
    SplitN (a ++ ":" ++ b) ':' 2 = [a, b] := by
  have hd : (a ++ ":" ++ b).data = a.data ++ ':' :: b.data := by
    simp [String.data_append]
  simp [SplitN, splitNChars, hd, cutAt_append ':' a.data b.data h]

theorem eq_takeWhile_colon_dropWhile : ∀ (l : List Char), ':' ∈ l →
    l = l.takeWhile (fun c => c ≠ ':') ++ ':' :: (l.dropWhile (fun c => c ≠ ':')).tail
  | [], h => by simp at h
  | c :: cs, h => by
    by_cases hc : c = ':'
    · simp [hc]
    · have hmem : ':' ∈ cs := by
        rcases List.mem_cons.mp h with h1 | h1
        · exact absurd h1.symm hc
        · exact h1
      have ih := eq_takeWhile_colon_dropWhile cs hmem
      simp only [ne_eq, decide_not] at ih
      simp [hc, ← ih]

/-- A string is its text before the first colon, the colon, and the text after it. -/
theorem eq_before_colon_after (s : String) (h : ':' ∈ s.data) :
    s = beforeFirstColon s ++ ":" ++ afterFirstColon s ∧ ':' ∉ (beforeFirstColon s).data := by
  constructor
  · apply String.ext
    simp only [beforeFirstColon, afterFirstColon, String.data_append]
    have := eq_takeWhile_colon_dropWhile s.data h
    simpa using this
  · intro hmem
    have := List.mem_takeWhile_imp hmem
    simp at this

theorem toNat_ofNat_of_lt (n : Nat) (h : n < 256) : (UInt8.ofNat n).toNat = n := by
  simp [UInt8.toNat, UInt8.ofNat, Fin.ofNat, Nat.mod_eq_of_lt h]

/-- The value of a hexadecimal digit is below 16, and its lower-case digit is the digit in
lower case. -/
theorem hexDigit_fromHexChar (c : Char) (v : Nat) (h : fromHexChar c = some v) :
    v < 16 ∧ hexDigit v = c.toLower := by
  have hc : c = Char.ofNat c.toNat := (Char.ofNat_toNat c).symm
  have hd : IsHexDigit c := (fromHexChar_isSome_iff c).mp (by simp [h])
  have hb : (48 ≤ c.toNat ∧ c.toNat ≤ 57) ∨ (97 ≤ c.toNat ∧ c.toNat ≤ 102)
      ∨ (65 ≤ c.toNat ∧ c.toNat ≤ 70) := by
    rcases hd with ⟨h1, h2⟩ | ⟨h1, h2⟩ | ⟨h1, h2⟩
    · exact Or.inl ⟨h1, h2⟩
    · exact Or.inr (Or.inl ⟨h1, h2⟩)
    · exact Or.inr (Or.inr ⟨h1, h2⟩)
  have key : ∀ n : Nat, (48 ≤ n ∧ n ≤ 57) ∨ (97 ≤ n ∧ n ≤ 102) ∨ (65 ≤ n ∧ n ≤ 70) →
      ∀ w, fromHexChar (Char.ofNat n) = some w →
        w < 16 ∧ hexDigit w = (Char.ofNat n).toLower := by
    intro n hn
    rcases hn with ⟨h1, h2⟩ | ⟨h1, h2⟩ | ⟨h1, h2⟩ <;> interval_cases n <;> decide
  rw [hc] at h ⊢
  exact key c.toNat hb v h

theorem hexChars_decodeHexChars : ∀ (n : Nat) (l : List Char) (d : List UInt8),
    l.length ≤ n → decodeHexChars l = .ok d → hexChars d = l.map Char.toLower
  | _, [], d, _, h => by
    simp only [decodeHexChars, Except.ok.injEq] at h
    subst h
    rfl
  | _, [c], d, _, h => by
    unfold decodeHexChars at h
    cases hc : fromHexChar c <;> simp [hc] at h
  | 0, _ :: _ :: _, _, hl, _ => by simp at hl
  | n + 1, p :: q :: rest, d, hl, h => by
    unfold decodeHexChars at h
    rcases hp : fromHexChar p with _ | a
    · simp [hp] at h
    · rcases hq : fromHexChar q with _ | b
      · simp [hp, hq] at h
      · rcases hr : decodeHexChars rest with e | bs
        · simp [hp, hq, hr] at h
        · simp only [hp, hq, hr, Except.ok.injEq] at h
          subst h
          obtain ⟨ha, hla⟩ := hexDigit_fromHexChar p a hp
          obtain ⟨hb, hlb⟩ := hexDigit_fromHexChar q b hq
          have ih := hexChars_decodeHexChars n rest bs (by simp at hl; omega) hr
          have hv : (UInt8.ofNat (a * 16 + b)).toNat = a * 16 + b :=
            toNat_ofNat_of_lt _ (by omega)
          simp only [hexChars, hv, List.map_cons, ih]
          have h1 : (a * 16 + b) / 16 = a := by omega
          have h2 : (a * 16 + b) % 16 = b := by omega
          rw [h1, h2, hla, hlb]

/-- The bytes `hex.DecodeString` returns are those whose hexadecimal rendering is the text,
in lower case. -/
theorem SprintfHex_DecodeString (s : String) (d : List UInt8) (h : DecodeString s = .ok d) :
    SprintfHex d = String.mk (s.data.map Char.toLower) := by
  unfold SprintfHex
  rw [hexChars_decodeHexChars s.data.length s.data d le_rfl h]


/-! ## Archive checks: the claims -/

theorem md5_length (m : List UInt8) : (md5 m).length = 16 := by simp [md5, le32]

theorem sha1_length (m : List UInt8) : (sha1 m).length = 20 := by simp [sha1, be32]

theorem sha256_length (m : List UInt8) : (sha256 m).length = 32 := by simp [sha256, be32]

/-- The checksum test once the checksum string is split in two. -/
theorem testLocalArchiveChecksum_of_split (fs : FS) (r : DownloadResource) (a b : String)
    (hs : SplitN r.Checksum ':' 2 = [a, b]) :
    r.TestLocalArchiveChecksum fs =
      match DecodeString b with
      | .error err => .error (.invalidHash b err)
      | .ok digest =>
        match selectAlgo a with
        | none => .error (.unsupportedHashAlgorithm a)
        | some algo =>
          match r.ArchivePath with
          | .error err => .error (.gettingArchivePath err)
          | .ok filePath =>
            match Open fs filePath with
            | .error err => .error (.openingArchiveFile err)
            | .ok file =>
              match Copy file with
              | .error err => .error (.computingHash err)
              | .ok written => .ok (decide (algo written = digest)) := by
  simp [DownloadResource.TestLocalArchiveChecksum, hs]

/-- C1 (code): on a zero-byte archive whose expected size is 0 the size test answers
`(false, nil)`, although the sizes are equal: the comparison in the code is `!=`. -/
theorem testLocalArchiveSize_false_on_equal_size :
    Stat emptyArchiveFS "/cache/core.zip" = .ok { name := "core.zip", size := 0, isDir := false }
    ∧ emptyArchiveResource.Size = 0
    ∧ emptyArchiveResource.TestLocalArchiveSize emptyArchiveFS = .ok false := by
  decide

/-- C2 (code): in the end-to-end scenario (checksum `MD5:d41d8cd98f00b204e9800998ecf8427e`,
size 0, zero-byte archive) the archive is cached and its checksum matches, but the size test
and with it the integrity test answer `(false, nil)`. -/
theorem testLocalArchiveIntegrity_false_on_valid_archive :
    emptyArchiveResource.IsCached emptyArchiveFS = .ok true
    ∧ emptyArchiveResource.TestLocalArchiveChecksum emptyArchiveFS = .ok true
    ∧ emptyArchiveResource.TestLocalArchiveSize emptyArchiveFS = .ok false
    ∧ emptyArchiveResource.TestLocalArchiveIntegrity emptyArchiveFS = .ok false := by
  decide!

/-- C6: with a checksum `<ALGO>:<hex>` of a supported algorithm and valid hexadecimal text,
the text decodes to the bytes it renders, one for two digits of either case, and the checksum
test answers, for an archive
that opens and reads, whether the digest of its whole content under that algorithm is the
decoded bytes (so never `true` for an expected digest of the wrong length); it returns an
error when the archive does not open or its path does not resolve. -/
theorem testLocalArchiveChecksum_supported (fs : FS) (r : DownloadResource)
    (algo hex : String)
    (halgo : algo = "SHA-256" ∨ algo = "SHA-1" ∨ algo = "MD5")
    (hhex : IsHexString hex) (hsum : r.Checksum = algo ++ ":" ++ hex) :
    ∃ digest, DecodeString hex = .ok digest ∧ digest.length = hex.data.length / 2 ∧
      SprintfHex digest = String.mk (hex.data.map Char.toLower) ∧
      (∀ path file written, r.ArchivePath = .ok path → Open fs path = .ok file →
        Copy file = .ok written →
          (algo = "SHA-256" →
            r.TestLocalArchiveChecksum fs = .ok (decide (sha256 written = digest))) ∧
          (algo = "SHA-1" →
            r.TestLocalArchiveChecksum fs = .ok (decide (sha1 written = digest))) ∧
          (algo = "MD5" →
            r.TestLocalArchiveChecksum fs = .ok (decide (md5 written = digest))) ∧
          ((algo = "SHA-256" → digest.length ≠ 32) → (algo = "SHA-1" → digest.length ≠ 20) →
            (algo = "MD5" → digest.length ≠ 16) →
            r.TestLocalArchiveChecksum fs = .ok false)) ∧
      (∀ path e, r.ArchivePath = .ok path → Open fs path = .error e →
        r.TestLocalArchiveChecksum fs = .error (.openingArchiveFile e)) ∧
      (∀ msg, r.ArchivePath = .error msg →
        r.TestLocalArchiveChecksum fs = .error (.gettingArchivePath msg)) := by
  obtain ⟨digest, hdec, hlen⟩ := DecodeString_ok_of_isHexString hex hhex
  have hcolon : ':' ∉ algo.data := by
    rcases halgo with h | h | h <;> subst h <;> decide
  have hsplit : SplitN r.Checksum ':' 2 = [algo, hex] := by
    rw [hsum]
    exact SplitN_two_append algo hex hcolon
  have hrun : ∀ f, selectAlgo algo = some f → ∀ path file written, r.ArchivePath = .ok path →
      Open fs path = .ok file → Copy file = .ok written →
      r.TestLocalArchiveChecksum fs = .ok (decide (f written = digest)) := by
    intro f hf path file written hp ho hc
    rw [testLocalArchiveChecksum_of_split fs r algo hex hsplit]
    simp [hdec, hf, hp, ho, hc]
  obtain ⟨f, hf⟩ : ∃ f, selectAlgo algo = some f := by
    rcases halgo with h | h | h <;> subst h <;> exact ⟨_, rfl⟩
  refine ⟨digest, hdec, hlen, SprintfHex_DecodeString hex digest hdec, ?_, ?_, ?_⟩
  · intro path file written hp ho hc
    refine ⟨?_, ?_, ?_, ?_⟩
    · intro h
      subst h
      exact hrun sha256 rfl path file written hp ho hc
    · intro h
      subst h
      exact hrun sha1 rfl path file written hp ho hc
    · intro h
      subst h
      exact hrun md5 rfl path file written hp ho hc
    · intro h256 h1 h5
      rcases halgo with h | h | h
      · subst h
        have hne : sha256 written ≠ digest := fun e =>
          h256 rfl (by rw [← e]; exact sha256_length written)
        rw [hrun sha256 rfl path file written hp ho hc]
        simp [hne]
      · subst h
        have hne : sha1 written ≠ digest := fun e =>
          h1 rfl (by rw [← e]; exact sha1_length written)
        rw [hrun sha1 rfl path file written hp ho hc]
        simp [hne]
      · subst h
        have hne : md5 written ≠ digest := fun e =>
          h5 rfl (by rw [← e]; exact md5_length written)
        rw [hrun md5 rfl path file written hp ho hc]
        simp [hne]
  · intro path e hp ho
    rw [testLocalArchiveChecksum_of_split fs r algo hex hsplit]
    simp [hdec, hf, hp, ho]
  · intro msg hp
    rw [testLocalArchiveChecksum_of_split fs r algo hex hsplit]
    simp [hdec, hf, hp]

/-- Witness of C6: an absent archive with a well-formed SHA-256 checksum is an error of the
checksum test, not a `false` verdict. -/
theorem testLocalArchiveChecksum_supported_witness :
    (resourceWithChecksum "SHA-256:deadBEEF").TestLocalArchiveChecksum
        { tree := plainDir [], cwd := [] }
      = .error (.openingArchiveFile .ENOENT) := by
  obtain ⟨_, _, _, _, _, h, _⟩ := testLocalArchiveChecksum_supported
    { tree := plainDir [], cwd := [] } (resourceWithChecksum "SHA-256:deadBEEF")
    "SHA-256" "deadBEEF" (Or.inl rfl) (by decide) (by decide)
  exact h "/cache/core.zip" .ENOENT rfl (by rfl)

/-- C7: a checksum string that does not hold exactly one `:`, or whose text after the first
`:` is not valid hexadecimal, makes the checksum test return a malformed-input error in every
state of the file system, whatever stands before the colon: the format error when there is
no colon, the error of the hexadecimal decoding otherwise. -/
theorem testLocalArchiveChecksum_malformed (fs : FS) (r : DownloadResource)
    (h : r.Checksum.data.count ':' ≠ 1 ∨ ¬ IsHexString (afterFirstColon r.Checksum)) :
    (∃ e, r.TestLocalArchiveChecksum fs = .error e ∧ e.isMalformedInput = true) ∧
    (':' ∉ r.Checksum.data →
      r.TestLocalArchiveChecksum fs = .error (.invalidChecksumFormat r.Checksum)) ∧
    (':' ∈ r.Checksum.data → ∃ cause, r.TestLocalArchiveChecksum fs =
      .error (.invalidHash (afterFirstColon r.Checksum) cause)) := by
  have hno : ':' ∉ r.Checksum.data →
      r.TestLocalArchiveChecksum fs = .error (.invalidChecksumFormat r.Checksum) := by
    intro hc
    simp [DownloadResource.TestLocalArchiveChecksum, SplitN_two_of_not_mem r.Checksum hc]
  have hyes : ':' ∈ r.Checksum.data → ∃ cause, r.TestLocalArchiveChecksum fs =
      .error (.invalidHash (afterFirstColon r.Checksum) cause) := by
    intro hc
    obtain ⟨heq, hnot⟩ := eq_before_colon_after r.Checksum hc
    have hsplit : SplitN r.Checksum ':' 2 = [beforeFirstColon r.Checksum,
        afterFirstColon r.Checksum] := by
      conv_lhs => rw [heq]
      exact SplitN_two_append _ _ hnot
    have hbad : ¬ IsHexString (afterFirstColon r.Checksum) := by
      rcases h with hcount | hbad
      · intro hhex
        apply hcount
        have hd : r.Checksum.data = (beforeFirstColon r.Checksum).data ++
            ':' :: (afterFirstColon r.Checksum).data := by
          conv_lhs => rw [heq]
          simp [String.data_append]
        have h1 : (beforeFirstColon r.Checksum).data.count ':' = 0 :=
          List.count_eq_zero.mpr hnot
        have h2 : (afterFirstColon r.Checksum).data.count ':' = 0 :=
          List.count_eq_zero.mpr (fun hm => by
            have := hhex.2 ':' hm
            revert this
            decide)
        rw [hd, List.count_append, List.count_cons_self, h1, h2]
      · exact hbad
    obtain ⟨e, he⟩ := DecodeString_error_of_not_isHexString _ hbad
    refine ⟨e, ?_⟩
    rw [testLocalArchiveChecksum_of_split fs r _ _ hsplit, he]
  refine ⟨?_, hno, hyes⟩
  by_cases hc : ':' ∈ r.Checksum.data
  · obtain ⟨e, he⟩ := hyes hc
    exact ⟨_, he, rfl⟩
  · exact ⟨_, hno hc, rfl⟩

/-- Witness of C7: `SHA-256:zz` gives the error of the hexadecimal decoding. -/
theorem testLocalArchiveChecksum_malformed_witness :
    ∃ cause, (resourceWithChecksum "SHA-256:zz").TestLocalArchiveChecksum emptyArchiveFS
      = .error (.invalidHash "zz" cause) :=
  (testLocalArchiveChecksum_malformed emptyArchiveFS (resourceWithChecksum "SHA-256:zz")
    (Or.inr (by decide))).2.2 (by decide)

/-- C8: a checksum `A:H` with valid hexadecimal text `H` and a name `A` (the text before the
colon) that is not exactly `SHA-256`, `SHA-1` or `MD5` makes the checksum test fail with the
unsupported-algorithm error, whatever the state of the file system, the archive path and the
length of `H`. -/
theorem testLocalArchiveChecksum_unsupported (fs : FS) (r : DownloadResource) (A H : String)
    (hA : A ≠ "SHA-256" ∧ A ≠ "SHA-1" ∧ A ≠ "MD5") (hcolon : ':' ∉ A.data)
    (hH : IsHexString H) (hsum : r.Checksum = A ++ ":" ++ H) :
    r.TestLocalArchiveChecksum fs = .error (.unsupportedHashAlgorithm A) := by
  obtain ⟨digest, hdec, _⟩ := DecodeString_ok_of_isHexString H hH
  have hsplit : SplitN r.Checksum ':' 2 = [A, H] := by
    rw [hsum]
    exact SplitN_two_append A H hcolon
  rw [testLocalArchiveChecksum_of_split fs r A H hsplit, hdec]
  simp [selectAlgo, hA.1, hA.2.1, hA.2.2]

/-- Witness of C8: `sha-256:deadbeef` is rejected although the archive path does not
resolve. -/
theorem testLocalArchiveChecksum_unsupported_witness :
    ({ Checksum := "sha-256:deadbeef", Size := 0, ArchivePath := .error "no cache" } :
        DownloadResource).TestLocalArchiveChecksum emptyArchiveFS
      = .error (.unsupportedHashAlgorithm "sha-256") :=
  testLocalArchiveChecksum_unsupported emptyArchiveFS _ "sha-256" "deadbeef"
    (by decide) (by decide) (by decide) rfl

/-- C9: when the archive path resolves and no file exists at it, the integrity test answers
`(false, nil)` for every expected size and every checksum string. -/
theorem testLocalArchiveIntegrity_not_cached (fs : FS) (r : DownloadResource) (path : String)
    (hpath : r.ArchivePath = .ok path) (habsent : Stat fs path = .error .ENOENT) :
    r.IsCached fs = .ok false ∧ r.TestLocalArchiveIntegrity fs = .ok false := by
  have hc : r.IsCached fs = .ok false := by
    simp [DownloadResource.IsCached, hpath, habsent, errOf, IsNotExist]
  exact ⟨hc, by simp [DownloadResource.TestLocalArchiveIntegrity, hc]⟩

/-- Witness of C9: the archive is absent and the checksum string malformed. -/
theorem testLocalArchiveIntegrity_not_cached_witness :
    missingArchiveResource.TestLocalArchiveIntegrity emptyArchiveFS = .ok false :=
  (testLocalArchiveIntegrity_not_cached emptyArchiveFS missingArchiveResource
    "/cache/missing.zip" rfl (by decide)).2

/-- C10: the integrity test is the short-circuit composition of the cache, size and checksum
tests, in that order: `(true, nil)` exactly when all three are, `(false, nil)` exactly when
the first of them that is not `(true, nil)` is `(false, nil)`, and an error exactly when that
one is an error, which it then carries. -/
theorem testLocalArchiveIntegrity_short_circuit (fs : FS) (r : DownloadResource) :
    (r.TestLocalArchiveIntegrity fs = .ok true ↔ ∀ c ∈ subChecks fs r, c = .ok true) ∧
    (r.TestLocalArchiveIntegrity fs = .ok false ↔
      firstNotTrue (subChecks fs r) = some (.ok false)) ∧
    ((∃ e, r.TestLocalArchiveIntegrity fs = .error e) ↔
      ∃ e, firstNotTrue (subChecks fs r) = some (.error e)) ∧
    (∀ e, firstNotTrue (subChecks fs r) = some (.error e) →
      r.TestLocalArchiveIntegrity fs = .error (.testingIfArchiveIsCached e) ∨
      r.TestLocalArchiveIntegrity fs = .error (.tetingArchiveSize e) ∨
      r.TestLocalArchiveIntegrity fs = .error (.testingArchiveChecksum e)) := by
  unfold subChecks DownloadResource.TestLocalArchiveIntegrity
  rcases h1 : r.IsCached fs with e1 | b1
  · simp [firstNotTrue]
  · cases b1
    · simp [firstNotTrue]
    · rcases h2 : r.TestLocalArchiveSize fs with e2 | b2
      · simp [firstNotTrue]
      · cases b2
        · simp [firstNotTrue]
        · rcases h3 : r.TestLocalArchiveChecksum fs with e3 | b3
          · simp [firstNotTrue]
          · cases b3 <;> simp [firstNotTrue]

/-! ## Directory checksums: the code on concrete trees -/

/-- C3 (code): for the existing empty directory `dir` named with a trailing separator,
`createPackageFile("dir/")` succeeds and `CheckDirChecksum("dir/")` right after it answers
`(false, nil)`: the walk reaches the sidecar as `dir/package.json`, whose `filepath.Dir` is
`dir` and not the root string `dir/`, so the sidecar is hashed. Named `dir`, the same
directory verifies. -/
theorem stampThenCheck_trailing_separator :
    Lstat emptyDirFS "dir/" = .ok { name := "dir", size := 4096, isDir := true }
    ∧ succeeds (createPackageFile emptyDirFS "dir/") = true
    ∧ stampThenCheck emptyDirFS "dir/" = .ok false
    ∧ stampThenCheck emptyDirFS "dir" = .ok true := by
  decide!

/-- C5 (code): two file systems that differ in the content of the sidecar `dir/package.json`
only have different checksums for the root string `./dir`, since the sidecar is hashed; for
the root string `dir` they have the same. -/
theorem computeDirChecksum_depends_on_sidecar :
    computeDirChecksum (sidecarFS [0x31]) "./dir"
      = .ok "f55ff16f66f43360266b95db6f8fec01d76031054306ae4a4b380598f6cfd114"
    ∧ computeDirChecksum (sidecarFS [0x32]) "./dir"
      = .ok "2c3a4249d77070058649dbd822dcaf7957586fce428cfb2ca88b94741eda8b07"
    ∧ computeDirChecksum (sidecarFS [0x31]) "dir" = computeDirChecksum (sidecarFS [0x32]) "dir" := by
  decide!

/-- C4 (counterexample): `dir/a.txt` holds `a` and cannot be opened for reading, so the walk
skips it; after `createPackageFile("dir")` has succeeded its content is replaced by `b`, and
`CheckDirChecksum("dir")` still answers `(true, nil)`. -/
theorem tamper_undetected_on_locked_file :
    lockedFileFS.tree.descend ["dir", "a.txt"] = some (.file [0x61] ⟨false, true, false, 0o200⟩)
    ∧ succeeds (createPackageFile lockedFileFS "dir") = true
    ∧ stampTamperCheck lockedFileFS "dir" ["dir", "a.txt"] [0x62] = .ok true := by
  decide!

/-! ## Path strings: cleaned paths and the names joined to them -/

theorem splitSlash_ne_nil : ∀ (l : List Char), splitSlash l ≠ []
  | [] => by simp [splitSlash]
  | c :: cs => by
    unfold splitSlash
    split_ifs
    · simp
    · cases h : splitSlash cs <;> simp

theorem splitSlash_append_slash : ∀ (a b : List Char),
    splitSlash (a ++ '/' :: b) = splitSlash a ++ splitSlash b
  | [], b => by simp [splitSlash]
  | c :: cs, b => by
    have ih := splitSlash_append_slash cs b
    by_cases hc : c = '/'
    · simp [splitSlash, hc, ih]
    · cases h : splitSlash cs with
      | nil => exact absurd h (splitSlash_ne_nil cs)
      | cons x xs => simp [splitSlash, hc, ih, h]

theorem splitSlash_of_not_mem : ∀ (n : List Char), '/' ∉ n → splitSlash n = [n]
  | [], _ => rfl
  | c :: cs, h => by
    have hc : c ≠ '/' := fun e => h (by simp [e])
    have ih := splitSlash_of_not_mem cs (fun hm => h (by simp [hm]))
    simp [splitSlash, hc, ih]

theorem cleanChars_eq_render (p : List Char) :
    cleanChars p = renderClean (decide (p.head? = some '/')) (cleanStack p) := by
  simp [cleanChars, renderClean, cleanStack]

theorem cleanStep_name (rooted : Bool) (stk : List (List Char)) (n : List Char)
    (hn : IsNameChars n) : cleanStep rooted stk n = n :: stk := by
  obtain ⟨h1, _, h3, h4⟩ := hn
  simp [cleanStep, h1, h3, h4]

theorem cleanStep_nil (rooted : Bool) (stk : List (List Char)) :
    cleanStep rooted stk [] = stk := by
  simp [cleanStep]

theorem cleanStep_ne_nil (rooted : Bool) (stk : List (List Char)) (x : List Char)
    (h : ∀ c ∈ stk, c ≠ []) : ∀ c ∈ cleanStep rooted stk x, c ≠ [] := by
  unfold cleanStep
  by_cases h1 : x = [] ∨ x = ['.']
  · simpa [h1] using h
  · have hx : x ≠ [] := fun e => h1 (Or.inl e)
    by_cases h2 : x = ['.', '.']
    · subst h2
      cases stk with
      | nil =>
        cases rooted <;> simp
      | cons top rest =>
        by_cases h3 : top = ['.', '.']
        · intro c hc
          simp only [h3, if_true] at hc
          have hc2 : c = ['.', '.'] ∨ c ∈ rest := by simpa using hc
          rcases hc2 with rfl | hc2
          · simp
          · exact h c (by simp [hc2])
        · intro c hc
          have hc2 : c ∈ rest := by simpa [h3] using hc
          exact h c (by simp [hc2])
    · intro c hc
      simp only [h1, h2, if_false] at hc
      rcases List.mem_cons.mp hc with rfl | hc
      · exact hx
      · exact h c hc

/-- Every element `filepath.Clean` keeps is non-empty. -/
theorem foldl_cleanStep_ne_nil (rooted : Bool) : ∀ (comps : List (List Char))
    (stk : List (List Char)), (∀ c ∈ stk, c ≠ []) →
    ∀ c ∈ comps.foldl (cleanStep rooted) stk, c ≠ []
  | [], stk, h => by simpa using h
  | x :: xs, stk, h => by
    simp only [List.foldl_cons]
    exact foldl_cleanStep_ne_nil rooted xs _ (cleanStep_ne_nil rooted stk x h)

theorem joinSlash_append_singleton : ∀ (xs : List (List Char)) (n : List Char), xs ≠ [] →
    joinSlash (xs ++ [n]) = joinSlash xs ++ '/' :: n
  | [], _, h => absurd rfl h
  | [x], n, _ => by simp [joinSlash]
  | x :: y :: rest, n, _ => by
    have ih := joinSlash_append_singleton (y :: rest) n (by simp)
    simp only [List.cons_append] at ih
    simp [joinSlash, ih]

theorem joinSlash_ne_nil : ∀ (xs : List (List Char)), xs ≠ [] → (∀ c ∈ xs, c ≠ []) →
    joinSlash xs ≠ []
  | [], h, _ => absurd rfl h
  | [x], _, h => by simpa [joinSlash] using h x (by simp)
  | x :: y :: rest, _, _ => by simp [joinSlash]

theorem dropWhile_append_of_all {α : Type} (p : α → Bool) : ∀ (a b : List α),
    (∀ x ∈ a, p x = true) → (a ++ b).dropWhile p = b.dropWhile p
  | [], _, _ => rfl
  | x :: xs, b, h => by
    have hx : p x = true := h x (by simp)
    simp [List.dropWhile, hx, dropWhile_append_of_all p xs b (fun y hy => h y (by simp [hy]))]

theorem dirPrefix_append_name (x n : List Char) (hn : '/' ∉ n) :
    dirPrefix (x ++ '/' :: n) = x ++ ['/'] := by
  unfold dirPrefix
  have hrev : (x ++ '/' :: n).reverse = n.reverse ++ '/' :: x.reverse := by simp
  rw [hrev, dropWhile_append_of_all _ n.reverse _ (by
    intro c hc
    have : c ≠ '/' := fun e => hn (by simpa [e] using hc)
    simpa using this)]
  simp [List.dropWhile]

theorem dirPrefix_name (n : List Char) (hn : '/' ∉ n) : dirPrefix n = [] := by
  unfold dirPrefix
  have := dropWhile_append_of_all (fun c => decide (c ≠ '/')) n.reverse [] (by
    intro c hc
    have : c ≠ '/' := fun e => hn (by simpa [e] using hc)
    simpa using this)
  simp only [List.append_nil] at this
  rw [this]
  rfl

theorem renderClean_ne_nil (rooted : Bool) (stk : List (List Char)) :
    renderClean rooted stk ≠ [] := by
  unfold renderClean
  split_ifs <;> simp_all

theorem clean_ne_nil (q : List Char) (hq : cleanChars q = q) : q ≠ [] := by
  rw [← hq, cleanChars_eq_render]
  exact renderClean_ne_nil _ _

theorem cleanStack_append_name (q n : List Char) (hq0 : q ≠ []) (hn : IsNameChars n) :
    (q ++ '/' :: n).head? = q.head? ∧ cleanStack (q ++ '/' :: n) = n :: cleanStack q := by
  have hhead : (q ++ '/' :: n).head? = q.head? := by
    cases q with
    | nil => exact absurd rfl hq0
    | cons c cs => rfl
  refine ⟨hhead, ?_⟩
  unfold cleanStack
  rw [hhead, splitSlash_append_slash, splitSlash_of_not_mem n hn.2.1, List.foldl_append]
  simp [cleanStep_name _ _ n hn]

/-- The three shapes of a name joined to a cleaned path: below `/`, below `.`, and appended
after a separator to any other path. -/
theorem clean_join_cases (q n : List Char) (hq : cleanChars q = q) (hn : IsNameChars n) :
    (q = ['/'] ∧ cleanChars (q ++ '/' :: n) = '/' :: n)
    ∨ (q = ['.'] ∧ cleanChars (q ++ '/' :: n) = n)
    ∨ (cleanStack q ≠ [] ∧ cleanChars (q ++ '/' :: n) = q ++ '/' :: n) := by
  have hq0 : q ≠ [] := clean_ne_nil q hq
  obtain ⟨hhead, hstack⟩ := cleanStack_append_name q n hq0 hn
  have hj : cleanChars (q ++ '/' :: n)
      = renderClean (decide (q.head? = some '/')) (n :: cleanStack q) := by
    rw [cleanChars_eq_render, hhead, hstack]
  have hqr : q = renderClean (decide (q.head? = some '/')) (cleanStack q) := by
    conv_lhs => rw [← hq, cleanChars_eq_render]
  have hne : ∀ c ∈ cleanStack q, c ≠ [] :=
    foldl_cleanStep_ne_nil _ _ [] (by simp)
  by_cases hS : cleanStack q = []
  · by_cases hr : q.head? = some '/'
    · left
      constructor
      · rw [hqr]
        simp [renderClean, hr, hS, joinSlash]
      · rw [hj]
        simp [renderClean, hr, hS, joinSlash]
    · right
      left
      constructor
      · rw [hqr]
        simp [renderClean, hr, hS, joinSlash]
      · rw [hj]
        simp [renderClean, hr, hS, joinSlash, hn.1]
  · right
    right
    refine ⟨hS, ?_⟩
    have hrev : (cleanStack q).reverse ≠ [] := by simpa using hS
    have hbody : joinSlash (cleanStack q).reverse ≠ [] :=
      joinSlash_ne_nil _ hrev (fun c hc => hne c (by simpa using hc))
    rw [hj]
    conv_rhs => rw [hqr]
    unfold renderClean
    simp only [List.reverse_cons]
    rw [joinSlash_append_singleton _ n hrev]
    by_cases hr : q.head? = some '/'
    · simp [hr]
    · simp [hr, hbody]

theorem head_name_ne_slash (n : List Char) (hn : '/' ∉ n) : n.head? ≠ some '/' := by
  cases n with
  | nil => simp
  | cons c cs =>
    intro e
    simp at e
    exact hn (by simp [e])

/-- A cleaned path with a name joined to it: the result is cleaned, its directory is the
path, and the elements it is made of are those of the path and the name. -/
theorem clean_join_name (q n : List Char) (hq : cleanChars q = q) (hn : IsNameChars n) :
    cleanChars (cleanChars (q ++ '/' :: n)) = cleanChars (q ++ '/' :: n)
    ∧ cleanChars (dirPrefix (cleanChars (q ++ '/' :: n))) = q
    ∧ cleanStack (cleanChars (q ++ '/' :: n)) = n :: cleanStack q := by
  have hq0 : q ≠ [] := clean_ne_nil q hq
  obtain ⟨hn1, hn2, hn3, hn4⟩ := hn
  have hnm : IsNameChars n := ⟨hn1, hn2, hn3, hn4⟩
  have hnhead := head_name_ne_slash n hn2
  rcases clean_join_cases q n hq hnm with ⟨hqv, hjv⟩ | ⟨hqv, hjv⟩ | ⟨hS, hjv⟩
  · rw [hjv]
    have hst : cleanStack ('/' :: n) = [n] := by
      simp [cleanStack, splitSlash, splitSlash_of_not_mem n hn2, cleanStep_nil,
        cleanStep_name _ _ n hnm]
    have hsq : cleanStack q = [] := by
      rw [hqv]
      decide
    refine ⟨?_, ?_, ?_⟩
    · rw [cleanChars_eq_render, hst]
      simp [renderClean, joinSlash]
    · have : dirPrefix ('/' :: n) = ['/'] := by
        simpa using dirPrefix_append_name [] n hn2
      rw [this, hqv]
      decide
    · rw [hst, hsq]
  · rw [hjv]
    have hst : cleanStack n = [n] := by
      simp [cleanStack, splitSlash_of_not_mem n hn2, cleanStep_name _ _ n hnm]
    have hsq : cleanStack q = [] := by
      rw [hqv]
      decide
    refine ⟨?_, ?_, ?_⟩
    · rw [cleanChars_eq_render, hst]
      simp [renderClean, joinSlash, hnhead, hn1]
    · rw [dirPrefix_name n hn2, hqv]
      decide
    · rw [hst, hsq]
  · obtain ⟨_, hstack⟩ := cleanStack_append_name q n hq0 hnm
    rw [hjv]
    refine ⟨hjv, ?_, hstack⟩
    rw [dirPrefix_append_name q n hn2]
    have hhead2 : (q ++ ['/']).head? = q.head? := by
      cases q with
      | nil => exact absurd rfl hq0
      | cons c cs => rfl
    have hst2 : cleanStack (q ++ ['/']) = cleanStack q := by
      unfold cleanStack
      rw [hhead2, splitSlash_append_slash, List.foldl_append]
      simp [splitSlash, cleanStep_nil]
    have hqr : q = renderClean (decide (q.head? = some '/')) (cleanStack q) := by
      conv_lhs => rw [← hq, cleanChars_eq_render]
    rw [cleanChars_eq_render, hhead2, hst2, ← hqr]

/-! ## The file system tree under changes -/

theorem lookupEntry_modifyEntry (k c : String) (g : Node → Node) :
    ∀ (es : List (String × Node)),
      lookupEntry k (modifyEntry c g es)
        = if k = c then (lookupEntry k es).map g else lookupEntry k es
  | [] => by simp [modifyEntry, lookupEntry]
  | (k1, v) :: rest => by
    have ih := lookupEntry_modifyEntry k c g rest
    by_cases h1 : k1 = c
    · by_cases h2 : k = c
      · simp [modifyEntry, lookupEntry, h1, h2]
      · have h3 : c ≠ k := fun e => h2 e.symm
        simp [modifyEntry, lookupEntry, h1, h2, h3]
    · by_cases h3 : k1 = k
      · have h4 : k ≠ c := fun e => h1 (h3.trans e)
        simp [modifyEntry, lookupEntry, h1, h3, h4]
      · simp [modifyEntry, lookupEntry, h1, h3, ih]

theorem lookupEntry_insertEntry (k c : String) (new : Node) :
    ∀ (es : List (String × Node)),
      lookupEntry k (insertEntry c new es) = if k = c then some new else lookupEntry k es
  | [] => by
    by_cases h : k = c
    · simp [insertEntry, lookupEntry, h]
    · have h2 : c ≠ k := fun e => h e.symm
      simp [insertEntry, lookupEntry, h, h2]
  | (k1, v) :: rest => by
    have ih := lookupEntry_insertEntry k c new rest
    by_cases h1 : k1 = c
    · by_cases h2 : k = c
      · simp [insertEntry, lookupEntry, h1, h2]
      · have h3 : c ≠ k := fun e => h2 e.symm
        simp [insertEntry, lookupEntry, h1, h2, h3]
    · by_cases hlt : ltChars c.data k1.data = true
      · by_cases h2 : k = c
        · simp [insertEntry, lookupEntry, h1, hlt, h2]
        · have h3 : c ≠ k := fun e => h2 e.symm
          simp [insertEntry, lookupEntry, h1, hlt, h2, h3]
      · by_cases h3 : k1 = k
        · subst h3
          simp [insertEntry, lookupEntry, h1, hlt]
        · simp [insertEntry, lookupEntry, h1, hlt, h3, ih]

/-- The object at `P` after a change below `P` is the object at `P` with that change. -/
theorem descend_modify_append (f : Node → Node) (rel : List String) :
    ∀ (P : List String) (t : Node),
      (t.modify (P ++ rel) f).descend P = (t.descend P).map (fun n => n.modify rel f)
  | [], t => by simp [Node.descend]
  | c :: cs, .file data a => by simp [Node.modify, Node.descend]
  | c :: cs, .dir es a => by
    simp only [List.cons_append, Node.modify, Node.descend, lookupEntry_modifyEntry, if_true]
    cases h : lookupEntry c es with
    | none => simp
    | some child => simpa using descend_modify_append f rel cs child

/-- The object at `P` after a file is entered below `P` is the object at `P` with that
file entered. -/
theorem descend_create_append (new : Node) (rel : List String) (hrel : rel ≠ []) :
    ∀ (P : List String) (t : Node),
      (t.create (P ++ rel) new).descend P = (t.descend P).map (fun n => n.create rel new)
  | [], t => by simp [Node.descend]
  | c :: cs, .file data a => by simp [Node.create, Node.descend]
  | c :: cs, .dir es a => by
    have hne : cs ++ rel ≠ [] := by simp [hrel]
    obtain ⟨d, ds, hd⟩ : ∃ d ds, cs ++ rel = d :: ds := by
      cases h : cs ++ rel with
      | nil => exact absurd h hne
      | cons d ds => exact ⟨d, ds, rfl⟩
    simp only [List.cons_append, hd, Node.create, Node.descend, lookupEntry_modifyEntry, if_true]
    cases h : lookupEntry c es with
    | none => simp
    | some child =>
      have := descend_create_append new rel hrel cs child
      rw [hd] at this
      simpa using this
theorem modify_nil (t : Node) (f : Node → Node) : t.modify [] f = f t := by
  cases t <;> rfl

theorem create_nil (t new : Node) : t.create [] new = t := by
  cases t <;> rfl

theorem descend_cons_dir (es : List (String × Node)) (a : DirAttr) (c : String)
    (cs : List String) :
    (Node.dir es a).descend (c :: cs)
      = match lookupEntry c es with
        | none => none
        | some child => child.descend cs := rfl

/-- Replacing the bytes of a file keeps the directories. -/
theorem keepsDirs_modify (d : List UInt8) : ∀ (cur : List String) (t : Node)
    (pos : List String) (es : List (String × Node)) (a : DirAttr),
    t.descend cur = some (.dir es a) →
    ∃ es', (t.modify pos (Node.withData d)).descend cur = some (.dir es' a)
  | [], t, pos, es, a, h => by
    simp only [Node.descend, Option.some.injEq] at h
    subst h
    cases pos with
    | nil => exact ⟨es, by simp [Node.modify, Node.withData, Node.descend]⟩
    | cons c cs => exact ⟨_, rfl⟩
  | c :: cs, .file data fa, pos, es, a, h => by simp [Node.descend] at h
  | c :: cs, .dir es0 a0, pos, es, a, h => by
    rw [descend_cons_dir] at h
    cases hl : lookupEntry c es0 with
    | none => simp [hl] at h
    | some child =>
      simp only [hl] at h
      cases pos with
      | nil => exact ⟨es, by simp [Node.modify, Node.withData, descend_cons_dir, hl, h]⟩
      | cons c1 cs1 =>
        simp only [Node.modify, descend_cons_dir, lookupEntry_modifyEntry, hl]
        by_cases hc : c = c1
        · simpa [hc] using keepsDirs_modify d cs child cs1 es a h
        · exact ⟨es, by simp [hc, h]⟩

/-- Entering a file where there is none keeps the directories. -/
theorem keepsDirs_create (new : Node) : ∀ (cur : List String) (t : Node)
    (pos : List String) (es : List (String × Node)) (a : DirAttr),
    t.descend pos = none → t.descend cur = some (.dir es a) →
    ∃ es', (t.create pos new).descend cur = some (.dir es' a)
  | [], t, pos, es, a, _, h => by
    simp only [Node.descend, Option.some.injEq] at h
    subst h
    match pos with
    | [] => exact ⟨es, by simp [Node.create, Node.descend]⟩
    | [c] => exact ⟨_, rfl⟩
    | c :: d :: cs => exact ⟨_, rfl⟩
  | c :: cs, .file data fa, pos, es, a, _, h => by simp [Node.descend] at h
  | c :: cs, .dir es0 a0, pos, es, a, hnone, h => by
    rw [descend_cons_dir] at h
    cases hl : lookupEntry c es0 with
    | none => simp [hl] at h
    | some child =>
      simp only [hl] at h
      match pos, hnone with
      | [], hnone => simp [Node.descend] at hnone
      | [c1], hnone =>
        have hc : c ≠ c1 := by
          intro e
          subst e
          simp [descend_cons_dir, hl, Node.descend] at hnone
        exact ⟨es, by simp [Node.create, descend_cons_dir, lookupEntry_insertEntry, hc, hl, h]⟩
      | c1 :: d :: ds, hnone =>
        simp only [Node.create, descend_cons_dir, lookupEntry_modifyEntry, hl]
        by_cases hc : c = c1
        · subst hc
          have hn2 : child.descend (d :: ds) = none := by
            simpa [descend_cons_dir, hl] using hnone
          simpa using keepsDirs_create new cs child (d :: ds) es a hn2 h
        · exact ⟨es, by simp [hc, h]⟩

theorem resolveStep_keepsDirs (fs fs1 : FS) (h : KeepsDirs fs.tree fs1.tree)
    (cur : List String) (c : String) (P : List String)
    (hs : resolveStep fs cur c = .ok P) : resolveStep fs1 cur c = .ok P := by
  unfold resolveStep at hs ⊢
  cases hd : fs.tree.descend cur with
  | none => simp [hd] at hs
  | some n =>
    cases n with
    | file data a => simp [hd] at hs
    | dir es a =>
      obtain ⟨es1, h1⟩ := h cur es a hd
      simp only [hd] at hs
      simpa [h1] using hs

theorem resolveFrom_keepsDirs (fs fs1 : FS) (h : KeepsDirs fs.tree fs1.tree) :
    ∀ (comps : List String) (cur P : List String),
      resolveFrom fs cur comps = .ok P → resolveFrom fs1 cur comps = .ok P
  | [], cur, P, hs => by simpa [resolveFrom] using hs
  | c :: cs, cur, P, hs => by
    unfold resolveFrom at hs ⊢
    cases hst : resolveStep fs cur c with
    | error e => simp [hst] at hs
    | ok next =>
      simp only [hst] at hs
      rw [resolveStep_keepsDirs fs fs1 h cur c next hst]
      exact resolveFrom_keepsDirs fs fs1 h cs next P hs

theorem resolve_keepsDirs (fs fs1 : FS) (h : KeepsDirs fs.tree fs1.tree)
    (hcwd : fs1.cwd = fs.cwd) (path : String) (P : List String)
    (hs : resolve fs path = .ok P) : resolve fs1 path = .ok P := by
  unfold resolve at hs ⊢
  by_cases hp : path = ""
  · simp [hp] at hs
  · simp only [hp, if_false] at hs ⊢
    rw [hcwd]
    exact resolveFrom_keepsDirs fs fs1 h _ _ P hs

theorem resolveFrom_append (fs : FS) : ∀ (xs ys : List String) (cur : List String),
    resolveFrom fs cur (xs ++ ys)
      = match resolveFrom fs cur xs with
        | .error e => .error e
        | .ok P => resolveFrom fs P ys
  | [], ys, cur => by simp [resolveFrom]
  | x :: xs, ys, cur => by
    simp only [List.cons_append, resolveFrom]
    cases resolveStep fs cur x with
    | error e => rfl
    | ok next => exact resolveFrom_append fs xs ys next


/-! ## Path name resolution of joined names -/

theorem isName_chars (n : String) (hn : IsName n) : IsNameChars n.data := hn

theorem isName_ne_empty (n : String) (hn : IsName n) : n ≠ "" := by
  intro e
  subst e
  exact hn.1 rfl

theorem clean_string_ne_empty (p : String) (hp : cleanChars p.data = p.data) : p ≠ "" := by
  intro e
  subst e
  exact clean_ne_nil _ hp rfl

/-- A name joined to a path by `filepath.Join`. -/
theorem Join_pair (p n : String) (hp : p ≠ "") (hn : n ≠ "") :
    Join [p, n] = String.mk (cleanChars (p.data ++ '/' :: n.data)) := by
  simp [Join, List.filter, hp, hn, joinSlash]

theorem resolveFrom_singleton (fs : FS) (cur : List String) (c : String) :
    resolveFrom fs cur [c] = resolveStep fs cur c := by
  simp only [resolveFrom]
  cases resolveStep fs cur c <;> rfl

/-- Resolving a name joined to a cleaned path is resolving the path and then the name. -/
theorem resolve_join_name (fs : FS) (root n : String)
    (hclean : cleanChars root.data = root.data) (hn : IsName n) :
    resolve fs (Join [root, n])
      = match resolve fs root with
        | .error e => .error e
        | .ok P => resolveStep fs P n := by
  have hr0 := clean_string_ne_empty root hclean
  have hn0 := isName_ne_empty n hn
  have hn1 : n ≠ "." := by
    intro e
    subst e
    exact hn.2.2.1 rfl
  rw [Join_pair root n hr0 hn0]
  have hnhead := head_name_ne_slash n.data hn.2.1
  have hn2 : n ≠ ".." := by
    intro e
    subst e
    exact hn.2.2.2 rfl
  rcases clean_join_cases root.data n.data hclean hn with ⟨hq, hj⟩ | ⟨hq, hj⟩ | ⟨_, hj⟩
  · have hroot : root = "/" := String.ext hq
    subst hroot
    rw [hj]
    have hne : String.mk ('/' :: n.data) ≠ "" := by
      intro e
      have := congrArg String.data e
      simp at this
    have hn' : String.mk n.data = n := rfl
    have h1 : resolve fs (String.mk ('/' :: n.data))
        = resolveFrom fs [] ["", n] := by
      simp only [resolve, hne, if_false, List.head?_cons, if_true, splitSlash,
        splitSlash_of_not_mem n.data hn.2.1, List.map_cons, List.map_nil, hn']
    have h2 : resolve fs "/" = resolveFrom fs [] ["", ""] := by
      simp only [resolve, hr0, if_false]
      rfl
    rw [h1, h2]
    rcases hd : fs.tree.descend [] with _ | (⟨d, a⟩ | ⟨es, a⟩)
    · simp [resolveFrom, resolveStep, hd]
    · simp [resolveFrom, resolveStep, hd]
    · by_cases hs : a.canSearch = false
      · simp [resolveFrom, resolveStep, hd, hs, hn0]
      · simp [resolveFrom, resolveStep, hd, hs, hn0, hn1, hn2]
  · have hroot : root = "." := String.ext hq
    subst hroot
    rw [hj]
    have h1 : resolve fs (String.mk n.data) = resolveFrom fs fs.cwd [n] := by
      have : String.mk n.data = n := rfl
      simp [resolve, this, hn0, hnhead, splitSlash_of_not_mem n.data hn.2.1]
    have h2 : resolve fs "." = resolveFrom fs fs.cwd ["."] := by
      simp only [resolve, hr0, if_false]
      rfl
    rw [h1, h2]
    rcases hd : fs.tree.descend fs.cwd with _ | (⟨d, a⟩ | ⟨es, a⟩)
    · simp [resolveFrom, resolveStep, hd]
    · simp [resolveFrom, resolveStep, hd]
    · by_cases hs : a.canSearch = false
      · simp [resolveFrom, resolveStep, hd, hs, hn0]
      · simp [resolveFrom, resolveStep, hd, hs, hn0, hn1, hn2]
  · rw [hj]
    have hhead : (root.data ++ '/' :: n.data).head? = root.data.head? := by
      cases hd : root.data with
      | nil => exact absurd hd (clean_ne_nil _ hclean)
      | cons c cs => rfl
    have hne : String.mk (root.data ++ '/' :: n.data) ≠ "" := by
      intro e
      have := congrArg String.data e
      simp at this
    have hn' : String.mk n.data = n := rfl
    simp only [resolve, hne, hr0, if_false, hhead, splitSlash_append_slash,
      splitSlash_of_not_mem n.data hn.2.1, List.map_append, List.map_cons, List.map_nil, hn']
    rw [resolveFrom_append]
    cases resolveFrom fs (if root.data.head? = some '/' then [] else fs.cwd)
        (List.map String.mk (splitSlash root.data)) with
    | error e => rfl
    | ok P => exact resolveFrom_singleton fs P n


/-! ## The walk under changes of the tree -/

theorem walkFn_append (root : String) (hash : List UInt8) (path : String)
    (entry : Option (String × Node)) (err : Option Errno) :
    walkFn root hash path entry err
      = match walkFn root [] path entry err with
        | .error e => .error e
        | .ok s => .ok (hash ++ s) := by
  unfold walkFn
  cases err with
  | some e => simp
  | none =>
    cases entry with
    | none => simp
    | some en =>
      obtain ⟨name, node⟩ := en
      simp only
      split_ifs
      · simp
      · cases node.openRead with
        | error e => simp
        | ok f =>
          rcases hc : Copy f with e | w
          · simp [hc]
          · simp [hc]

mutual
/-- What a walk writes to the hash comes after what was written before. -/
theorem walk_append (root path name : String) : ∀ (node : Node) (hash : List UInt8),
    walk root path name node hash
      = match walk root path name node [] with
        | .error e => .error e
        | .ok s => .ok (hash ++ s)
  | .file data a, hash => by
    simp only [walk]
    exact walkFn_append root hash path _ _
  | .dir es a, hash => by
    simp only [walk]
    rw [walkFn_append root hash path]
    cases walkFn root [] path (some (name, Node.dir es a))
        (if a.canList = true then none else some Errno.EACCES) with
    | error e => rfl
    | ok s1 =>
      simp only
      by_cases hl : a.canList = true
      · simp only [hl, if_true]
        rw [walkNames_append root path a.canSearch es (hash ++ s1),
          walkNames_append root path a.canSearch es s1]
        cases walkNames root path a.canSearch es [] with
        | error e => rfl
        | ok s2 => simp
      · simp [hl]
theorem walkNames_append (root path : String) (canSearch : Bool) :
    ∀ (es : List (String × Node)) (hash : List UInt8),
    walkNames root path canSearch es hash
      = match walkNames root path canSearch es [] with
        | .error e => .error e
        | .ok s => .ok (hash ++ s)
  | [], hash => by simp [walkNames]
  | (name, child) :: rest, hash => by
    simp only [walkNames]
    cases canSearch with
    | true =>
      simp only [if_true]
      rw [walk_append root (Join [path, name]) name child hash]
      cases walk root (Join [path, name]) name child [] with
      | error e => rfl
      | ok s1 =>
        simp only
        rw [walkNames_append root path true rest (hash ++ s1),
          walkNames_append root path true rest s1]
        cases walkNames root path true rest [] with
        | error e => rfl
        | ok s2 => simp
    | false =>
      simp only [Bool.false_eq_true, if_false, walkFn]
      exact walkNames_append root path false rest hash
end

/-- A name joined to a cleaned path gives a cleaned path one element deeper, whose directory
is the path. -/
theorem join_name_clean (p n : String) (hclean : cleanChars p.data = p.data) (hn : IsName n) :
    cleanChars (Join [p, n]).data = (Join [p, n]).data
    ∧ Dir (Join [p, n]) = p
    ∧ pathDepth (Join [p, n]) = pathDepth p + 1 := by
  rw [Join_pair p n (clean_string_ne_empty p hclean) (isName_ne_empty n hn)]
  obtain ⟨h1, h2, h3⟩ := clean_join_name p.data n.data hclean hn
  refine ⟨h1, ?_, ?_⟩
  · unfold Dir
    exact String.ext h2
  · simp [pathDepth, h3]

theorem isName_packageFileName : IsName packageFileName := by decide

/-- The sidecar file directly in a cleaned root is passed over by the walk. -/
theorem walk_sidecar (root : String) (hroot : cleanChars root.data = root.data)
    (d : List UInt8) (a : FileAttr) (hash : List UInt8) :
    walk root (Join [root, packageFileName]) packageFileName (.file d a) hash = .ok hash := by
  have hdir := (join_name_clean root packageFileName hroot isName_packageFileName).2.1
  simp [walk, walkFn, Node.info, hdir]

theorem walkNames_insert_sidecar (root : String) (hroot : cleanChars root.data = root.data)
    (canSearch : Bool) (d : List UInt8) (a : FileAttr) :
    ∀ (es : List (String × Node)) (hash : List UInt8), lookupEntry packageFileName es = none →
      walkNames root root canSearch (insertEntry packageFileName (.file d a) es) hash
        = walkNames root root canSearch es hash
  | [], hash, _ => by
    cases canSearch
    · simp [insertEntry, walkNames, walkFn]
    · simp [insertEntry, walkNames, walk_sidecar root hroot]
  | (k, v) :: rest, hash, h => by
    have hk : k ≠ packageFileName := by
      intro e
      simp [lookupEntry, e] at h
    have hrest : lookupEntry packageFileName rest = none := by
      simpa [lookupEntry, hk] using h
    have ih := walkNames_insert_sidecar root hroot canSearch d a rest
    by_cases hlt : ltChars packageFileName.data k.data = true
    · cases canSearch
      · simp [insertEntry, hk, hlt, walkNames, walkFn]
      · simp [insertEntry, hk, hlt, walkNames, walk_sidecar root hroot]
    · cases canSearch
      · simp only [insertEntry, hk, hlt, if_false, walkNames, walkFn, Bool.false_eq_true]
        exact ih hash hrest
      · simp only [insertEntry, hk, hlt, if_false, walkNames, if_true]
        cases walk root (Join [root, k]) k v hash with
        | error e => rfl
        | ok h1 => exact ih h1 hrest

theorem walkNames_modify_sidecar (root : String) (hroot : cleanChars root.data = root.data)
    (canSearch : Bool) (d d0 : List UInt8) (a0 : FileAttr) :
    ∀ (es : List (String × Node)) (hash : List UInt8),
      lookupEntry packageFileName es = some (.file d0 a0) →
      walkNames root root canSearch (modifyEntry packageFileName (Node.withData d) es) hash
        = walkNames root root canSearch es hash
  | [], _, h => by simp [lookupEntry] at h
  | (k, v) :: rest, hash, h => by
    by_cases hk : k = packageFileName
    · subst hk
      have hv : v = .file d0 a0 := by simpa [lookupEntry] using h
      subst hv
      cases canSearch
      · simp [modifyEntry, walkNames, walkFn]
      · simp [modifyEntry, walkNames, Node.withData, walk_sidecar root hroot]
    · have hrest : lookupEntry packageFileName rest = some (.file d0 a0) := by
        simpa [lookupEntry, hk] using h
      have ih := walkNames_modify_sidecar root hroot canSearch d d0 a0 rest
      cases canSearch
      · simp only [modifyEntry, hk, if_false, walkNames, walkFn, Bool.false_eq_true]
        exact ih hash hrest
      · simp only [modifyEntry, hk, if_false, walkNames, if_true]
        cases walk root (Join [root, k]) k v hash with
        | error e => rfl
        | ok h1 => exact ih h1 hrest

/-- Changing one entry of a directory so that its walk writes something else changes what
the walk of the directory writes. -/
theorem walkNames_modify_ne (root path c : String) (g : Node → Node) (child : Node)
    (hchild : ∀ (h s1 : List UInt8), walk root (Join [path, c]) c child h = .ok s1 →
      ∃ s1', walk root (Join [path, c]) c (g child) h = .ok s1' ∧ s1' ≠ s1) :
    ∀ (es : List (String × Node)) (hash s : List UInt8), lookupEntry c es = some child →
      walkNames root path true es hash = .ok s →
      ∃ s', walkNames root path true (modifyEntry c g es) hash = .ok s' ∧ s' ≠ s
  | [], _, _, h, _ => by simp [lookupEntry] at h
  | (k, v) :: rest, hash, s, h, hw => by
    simp only [walkNames, if_true] at hw
    by_cases hk : k = c
    · subst hk
      have hv : v = child := by simpa [lookupEntry] using h
      subst hv
      rcases hw1 : walk root (Join [path, k]) k v hash with e | h1
      · simp [hw1] at hw
      · simp only [hw1] at hw
        obtain ⟨h1', hw1', hne⟩ := hchild hash h1 hw1
        rw [walkNames_append] at hw
        rcases hw2 : walkNames root path true rest [] with e | t
        · simp [hw2] at hw
        · simp only [hw2, Except.ok.injEq] at hw
          refine ⟨h1' ++ t, ?_, ?_⟩
          · simp only [modifyEntry, if_true, walkNames, hw1']
            rw [walkNames_append, hw2]
          · rw [← hw]
            intro e
            exact hne (List.append_cancel_right e)
    · have hrest : lookupEntry c rest = some child := by
        simpa [lookupEntry, hk] using h
      rcases hw1 : walk root (Join [path, k]) k v hash with e | h1
      · simp [hw1] at hw
      · simp only [hw1] at hw
        obtain ⟨s', hs', hne⟩ := walkNames_modify_ne root path c g child hchild rest h1 s hrest hw
        exact ⟨s', by simp [modifyEntry, hk, walkNames, hw1, hs'], hne⟩

/-- The walk on a file that opens for reading and is not the sidecar of the root. -/
theorem walk_file_read (root path name : String) (d : List UInt8) (a : FileAttr)
    (hash : List UInt8) (hcond : ¬ (name = packageFileName ∧ Dir path = root))
    (hread : a.canRead = true) :
    walk root path name (.file d a) hash
      = if a.readFault = true then .error (.failedToComputeHashOfFile name)
        else .ok (hash ++ d) := by
  have hc : (decide (name = packageFileName) && decide (Dir path = root)) = false := by
    by_cases h1 : name = packageFileName
    · by_cases h2 : Dir path = root
      · exact absurd ⟨h1, h2⟩ hcond
      · simp [h2]
    · simp [h1]
  simp only [walk, walkFn, Node.info, Bool.false_or, hc, Bool.false_eq_true, if_false,
    Node.openRead, hread, if_true, Copy]
  by_cases hf : a.readFault = true
  · simp [hf]
  · simp [hf]

/-- Replacing the bytes of a file that the walk reads, other than the sidecar directly in
the root, changes what the walk writes to the hash. -/
theorem walk_replace_ne (root : String) (hroot : cleanChars root.data = root.data)
    (d d' : List UInt8) (a : FileAttr) (hd : d' ≠ d) :
    ∀ (rel : List String) (node : Node) (path name : String) (hash s : List UInt8),
      cleanChars path.data = path.data → pathDepth root ≤ pathDepth path →
      (path = root → rel ≠ [packageFileName]) →
      (rel = [] → ¬ (name = packageFileName ∧ Dir path = root)) →
      (∀ c ∈ rel, IsName c) →
      node.readsFile rel = true → node.descend rel = some (.file d a) →
      walk root path name node hash = .ok s →
      ∃ s', walk root path name (node.modify rel (Node.withData d')) hash = .ok s' ∧ s' ≠ s
  | [], node, path, name, hash, s, _, _, _, hex, _, hreads, hdesc, hw => by
    have hnode : node = .file d a := by simpa [Node.descend] using hdesc
    subst hnode
    have hread : a.canRead = true := by simpa [Node.readsFile] using hreads
    have hcond : ¬ (name = packageFileName ∧ Dir path = root) := hex rfl
    rw [walk_file_read root path name d a hash hcond hread] at hw
    by_cases hf : a.readFault = true
    · simp [hf] at hw
    · have hs : hash ++ d = s := by simpa [hf] using hw
      refine ⟨hash ++ d', ?_, ?_⟩
      · rw [modify_nil]
        simp only [Node.withData]
        rw [walk_file_read root path name d' a hash hcond hread]
        simp [hf]
      · rw [← hs]
        intro e
        exact hd (List.append_cancel_left e)
  | c :: cs, .file data fa, _, _, _, _, _, _, _, _, _, hreads, _, _ => by
    simp [Node.readsFile] at hreads
  | c :: cs, .dir es a0, path, name, hash, s, hpath, hdepth, hside, _, hnames, hreads, hdesc,
      hw => by
    simp only [Node.readsFile, Bool.and_eq_true] at hreads
    obtain ⟨⟨hlist, hsearch⟩, hchild⟩ := hreads
    rcases hl : lookupEntry c es with _ | child
    · simp [hl] at hchild
    · simp only [hl] at hchild
      have hdesc' : child.descend cs = some (.file d a) := by
        simpa [descend_cons_dir, hl] using hdesc
      have hc : IsName c := hnames c (by simp)
      obtain ⟨hj1, hj2, hj3⟩ := join_name_clean path c hpath hc
      have hw' : walkNames root path true es hash = .ok s := by
        simpa [walk, walkFn, Node.info, hlist, hsearch] using hw
      have hrec : ∀ (h s1 : List UInt8), walk root (Join [path, c]) c child h = .ok s1 →
          ∃ s1', walk root (Join [path, c]) c (child.modify cs (Node.withData d')) h = .ok s1'
            ∧ s1' ≠ s1 := by
        intro h s1 hw1
        refine walk_replace_ne root hroot d d' a hd cs child (Join [path, c]) c h s1 hj1
          (by omega) ?_ ?_ (fun x hx => hnames x (by simp [hx])) hchild hdesc' hw1
        · intro e
          rw [e] at hj3
          omega
        · intro hcs hex
          subst hcs
          rw [hj2] at hex
          exact hside hex.2 (by rw [hex.1])
      obtain ⟨s', hs', hne⟩ := walkNames_modify_ne root path c
        (fun child => child.modify cs (Node.withData d')) child hrec es hash s hl hw'
      refine ⟨s', ?_, hne⟩
      simp only [Node.modify, walk, walkFn, Node.info, hlist, hsearch]
      simpa using hs'


/-! ## The sidecar document read back -/

theorem hexDigit_mem (x : Nat) (hx : x < 16) : hexDigit x ∈ lowerHexDigits := by
  interval_cases x <;> decide

theorem hexChars_lower : ∀ (bs : List UInt8), ∀ c ∈ hexChars bs, c ∈ lowerHexDigits
  | [], c, h => by simp [hexChars] at h
  | b :: bs, c, h => by
    simp only [hexChars, List.mem_cons] at h
    have hb : b.toNat < 256 := b.val.isLt
    rcases h with rfl | rfl | h
    · exact hexDigit_mem _ (by omega)
    · exact hexDigit_mem _ (by omega)
    · exact hexChars_lower bs c h

theorem marshalChar_lower (c : Char) (hc : c ∈ lowerHexDigits) :
    marshalChar c = [UInt8.ofNat c.toNat] := by
  revert c
  decide

theorem flatMap_marshalChar_lower : ∀ (cs : List Char), (∀ c ∈ cs, c ∈ lowerHexDigits) →
    cs.flatMap marshalChar = asciiBytes cs
  | [], _ => rfl
  | c :: cs, h => by
    simp only [List.flatMap_cons, asciiBytes, List.map_cons]
    rw [marshalChar_lower c (h c (by simp)),
      flatMap_marshalChar_lower cs (fun x hx => h x (by simp [hx]))]
    rfl

theorem lower_plain (c : Char) (hc : c ∈ lowerHexDigits) : IsPlainAscii c := by
  revert c
  decide

theorem scanString_plain (rest : List UInt8) : ∀ (cs : List Char), (∀ c ∈ cs, IsPlainAscii c) →
    scanString (asciiBytes cs ++ 0x22 :: rest) = some (asciiBytes cs, rest)
  | [], _ => by
    unfold scanString
    simp [asciiBytes]
  | c :: cs, h => by
    obtain ⟨h1, h2, h3, h4⟩ := h c (by simp)
    have ih := scanString_plain rest cs (fun x hx => h x (by simp [hx]))
    have hb : (UInt8.ofNat c.toNat).toNat = c.toNat := toNat_ofNat_of_lt _ (by omega)
    have hq : UInt8.ofNat c.toNat ≠ 0x22 := by
      intro e
      have := congrArg UInt8.toNat e
      rw [hb] at this
      exact h3 this
    have hs : UInt8.ofNat c.toNat ≠ 0x5C := by
      intro e
      have := congrArg UInt8.toNat e
      rw [hb] at this
      exact h4 this
    have hlt : ¬ (UInt8.ofNat c.toNat).toNat < 0x20 := by
      rw [hb]
      omega
    simp only [asciiBytes, List.map_cons, List.cons_append] at ih ⊢
    unfold scanString
    simp only [hq, hs, hlt, if_false]
    rw [ih]

theorem unquoteChars_plain : ∀ (cs : List Char) (fuel : Nat), cs.length ≤ fuel →
    (∀ c ∈ cs, IsPlainAscii c) → unquoteChars fuel (asciiBytes cs) = cs
  | [], fuel, _, _ => by cases fuel <;> simp [asciiBytes, unquoteChars]
  | c :: cs, 0, h, _ => by simp at h
  | c :: cs, fuel + 1, hl, h => by
    obtain ⟨h1, h2, h3, h4⟩ := h c (by simp)
    have ih := unquoteChars_plain cs fuel (by simpa using hl) (fun x hx => h x (by simp [hx]))
    have hb : (UInt8.ofNat c.toNat).toNat = c.toNat := toNat_ofNat_of_lt _ (by omega)
    have hs : UInt8.ofNat c.toNat ≠ 0x5C := by
      intro e
      have := congrArg UInt8.toNat e
      rw [hb] at this
      exact h4 this
    have hlt : (UInt8.ofNat c.toNat).toNat < 0x80 := by
      rw [hb]
      exact h2
    simp only [asciiBytes, List.map_cons] at ih ⊢
    unfold unquoteChars
    simp only [hs, if_false]
    rw [if_pos hlt, hb, ih]
    simp [Char.ofNat_toNat]

theorem unquote_plain (cs : List Char) (h : ∀ c ∈ cs, IsPlainAscii c) :
    unquote (asciiBytes cs) = String.mk cs := by
  unfold unquote
  rw [unquoteChars_plain cs _ (by simp [asciiBytes]) h]

theorem parseValue_succ_cons (fuel depth : Nat) (b : UInt8) (rest : List UInt8) :
    parseValue (fuel + 1) depth (b :: rest) =
    if b = 0x7B then
      if depth + 1 ≤ maxNestingDepth then
        match skipSpace rest with
        | [] => none
        | c :: rest2 =>
          if c = 0x7D then some (.object [], rest2)
          else
            match parseMembers fuel (depth + 1) (c :: rest2) with
            | some (ms, out) => some (.object ms, out)
            | none => none
      else none
    else if b = 0x5B then
      if depth + 1 ≤ maxNestingDepth then
        match skipSpace rest with
        | [] => none
        | c :: rest2 =>
          if c = 0x5D then some (.array [], rest2)
          else
            match parseElements fuel (depth + 1) (c :: rest2) with
            | some (es, out) => some (.array es, out)
            | none => none
      else none
    else if b = 0x22 then
      match scanString rest with
      | some (raw, out) => some (.string raw, out)
      | none => none
    else if b = 0x74 then
      match rest with
      | 0x72 :: 0x75 :: 0x65 :: out => some (.bool true, out)
      | _ => none
    else if b = 0x66 then
      match rest with
      | 0x61 :: 0x6C :: 0x73 :: 0x65 :: out => some (.bool false, out)
      | _ => none
    else if b = 0x6E then
      match rest with
      | 0x75 :: 0x6C :: 0x6C :: out => some (.null, out)
      | _ => none
    else
      match scanNumber (b :: rest) with
      | some out => some (.number, out)
      | none => none := by
  rfl

theorem parseMembers_succ_cons (fuel depth : Nat) (q : UInt8) (rest : List UInt8) :
    parseMembers (fuel + 1) depth (q :: rest) =
    if q = 0x22 then
      match scanString rest with
      | none => none
      | some (key, r1) =>
        match skipSpace r1 with
        | [] => none
        | colon :: r2 =>
          if colon = 0x3A then
            match parseValue fuel depth (skipSpace r2) with
            | none => none
            | some (v, r3) =>
              match skipSpace r3 with
              | [] => none
              | sep :: r4 =>
                if sep = 0x7D then some ([(key, v)], r4)
                else if sep = 0x2C then
                  match parseMembers fuel depth (skipSpace r4) with
                  | some (ms, out) => some ((key, v) :: ms, out)
                  | none => none
                else none
          else none
    else none := by
  rfl

theorem skipSpace_cons_of_not_space (b : UInt8) (rest : List UInt8) (h : isSpace b = false) :
    skipSpace (b :: rest) = b :: rest := by
  simp [skipSpace, h]

theorem Marshal_hex (cs : List Char) (h : ∀ c ∈ cs, c ∈ lowerHexDigits) :
    Marshal { Checksum := String.mk cs }
      = 0x7B :: 0x22 :: (asciiBytes "checksum".data
          ++ 0x22 :: 0x3A :: 0x22 :: (asciiBytes cs ++ 0x22 :: [0x7D])) := by
  unfold Marshal
  rw [flatMap_marshalChar_lower cs h]
  have h1 : utf8Bytes "\x7b\"checksum\":\""
      = 0x7B :: 0x22 :: (asciiBytes "checksum".data ++ [0x22, 0x3A, 0x22]) := by decide
  have h2 : utf8Bytes "\"\x7d" = [0x22, 0x7D] := by decide
  rw [h1, h2]
  simp

/-- The members of the object `json.Marshal` writes for a checksum of hexadecimal digits. -/
theorem parseJSON_Marshal_hex (cs : List Char) (h : ∀ c ∈ cs, c ∈ lowerHexDigits) :
    parseJSON (Marshal { Checksum := String.mk cs })
      = some (.object [(asciiBytes "checksum".data, .string (asciiBytes cs))]) := by
  rw [Marshal_hex cs h]
  have hplain : ∀ c ∈ cs, IsPlainAscii c := fun c hc => lower_plain c (h c hc)
  have hkey : ∀ c ∈ "checksum".data, IsPlainAscii c := by decide
  have hlen : (0x7B :: 0x22 :: (asciiBytes "checksum".data
      ++ 0x22 :: 0x3A :: 0x22 :: (asciiBytes cs ++ 0x22 :: [0x7D]))).length + 1
        = (cs.length + 13 + 2) + 1 := by
    simp [asciiBytes]
  unfold parseJSON
  rw [hlen, skipSpace_cons_of_not_space _ _ (by decide)]
  -- the object
  have hval : parseValue (cs.length + 13 + 1) 1 (0x22 :: (asciiBytes cs ++ 0x22 :: [0x7D]))
      = some (.string (asciiBytes cs), [0x7D]) := by
    rw [parseValue_succ_cons, if_neg (by decide : ¬ (0x22 : UInt8) = 0x7B),
      if_neg (by decide : ¬ (0x22 : UInt8) = 0x5B), if_pos rfl,
      scanString_plain [0x7D] cs hplain]
  have hmem : parseMembers (cs.length + 13 + 2) 1 (0x22 :: (asciiBytes "checksum".data
      ++ 0x22 :: 0x3A :: 0x22 :: (asciiBytes cs ++ 0x22 :: [0x7D])))
        = some ([(asciiBytes "checksum".data, .string (asciiBytes cs))], []) := by
    rw [parseMembers_succ_cons]
    simp only [if_true, scanString_plain _ "checksum".data hkey]
    rw [skipSpace_cons_of_not_space _ _ (by decide)]
    simp only [if_true]
    rw [skipSpace_cons_of_not_space _ _ (by decide), hval]
    simp only [skipSpace_cons_of_not_space _ _ (by decide : isSpace 0x7D = false)]
    simp
  rw [parseValue_succ_cons]
  simp only [if_true]
  rw [if_pos (by decide : 0 + 1 ≤ maxNestingDepth),
    skipSpace_cons_of_not_space _ _ (by decide)]
  have h1 : ((0x22 : UInt8) = 0x7D) = False := by decide
  simp only [h1, if_false, hmem]
  simp [skipSpace]

/-- The sidecar that `createPackageFile` writes is read back as the checksum it was written
for. -/
theorem Unmarshal_Marshal_hex (bs : List UInt8) (file : packageFile) :
    Unmarshal (Marshal { Checksum := SprintfHex bs }) file = { Checksum := SprintfHex bs } := by
  have hl := hexChars_lower bs
  have hplain : ∀ c ∈ hexChars bs, IsPlainAscii c := fun c hc => lower_plain c (hl c hc)
  unfold Unmarshal SprintfHex
  rw [parseJSON_Marshal_hex (hexChars bs) hl]
  have hkey : unquote (asciiBytes "checksum".data) = "checksum" := by decide
  simp only [List.foldl_cons, List.foldl_nil, storeMember, hkey]
  have hfold : equalFold "checksum".data "checksum".data = true := by decide
  simp only [hfold, if_true]
  rw [unquote_plain _ hplain]

/-! ## The depth limit of the decoder -/

theorem parseElements_succ (fuel depth : Nat) (bs : List UInt8) :
    parseElements (fuel + 1) depth bs =
    match parseValue fuel depth bs with
    | none => none
    | some (v, r1) =>
      match skipSpace r1 with
      | [] => none
      | sep :: r2 =>
        if sep = 0x5D then some ([v], r2)
        else if sep = 0x2C then
          match parseElements fuel depth (skipSpace r2) with
          | some (es, out) => some (v :: es, out)
          | none => none
        else none := by
  rfl

theorem parseValue_zero (depth : Nat) (bs : List UInt8) : parseValue 0 depth bs = none := by
  cases bs <;> rfl

theorem parseElements_zero (depth : Nat) (bs : List UInt8) :
    parseElements 0 depth bs = none := by
  cases bs <;> rfl

/-- The depth limit of the scanner: opening brackets that lead beyond `maxNestingDepth` are
no value, whatever follows them. -/
theorem parseValue_brackets : ∀ (k fuel depth : Nat) (rest : List UInt8),
    maxNestingDepth < depth + (k + 1) →
    parseValue fuel depth (List.replicate (k + 1) 0x5B ++ rest) = none
  | 0, fuel, depth, rest, h => by
    cases fuel with
    | zero => exact parseValue_zero _ _
    | succ f =>
      simp only [List.replicate, List.cons_append, List.nil_append]
      rw [parseValue_succ_cons, if_neg (by decide : ¬ (0x5B : UInt8) = 0x7B), if_pos rfl,
        if_neg (by omega)]
  | k + 1, fuel, depth, rest, h => by
    cases fuel with
    | zero => exact parseValue_zero _ _
    | succ f =>
      have ih := parseValue_brackets k (f - 1) (depth + 1) rest (by omega)
      rw [List.replicate_succ, List.cons_append, parseValue_succ_cons,
        if_neg (by decide : ¬ (0x5B : UInt8) = 0x7B), if_pos rfl]
      by_cases hd : depth + 1 ≤ maxNestingDepth
      · rw [if_pos hd, List.replicate_succ, List.cons_append,
          skipSpace_cons_of_not_space _ _ (by decide)]
        simp only [if_neg (by decide : ¬ (0x5B : UInt8) = 0x5D)]
        cases f with
        | zero => rw [parseElements_zero]
        | succ f2 =>
          rw [parseElements_succ]
          have ih2 := parseValue_brackets k f2 (depth + 1) rest (by omega)
          rw [List.replicate_succ, List.cons_append] at ih2
          rw [ih2]
      · rw [if_neg hd]

/-- A document of arrays nested beyond the limit is not valid, whatever follows the opening
brackets. -/
theorem parseJSON_deep_array (k : Nat) (rest : List UInt8) (h : maxNestingDepth < k) :
    parseJSON (List.replicate k 0x5B ++ rest) = none := by
  cases k with
  | zero => omega
  | succ k1 =>
    unfold parseJSON
    have hs : skipSpace (List.replicate (k1 + 1) 0x5B ++ rest)
        = List.replicate (k1 + 1) 0x5B ++ rest := by
      rw [List.replicate_succ, List.cons_append]
      exact skipSpace_cons_of_not_space _ _ (by decide)
    rw [hs, parseValue_brackets k1 _ 0 rest (by omega)]

/-! ## What `createPackageFile` leaves behind -/

theorem descend_append : ∀ (P rel : List String) (t : Node),
    t.descend (P ++ rel) = (t.descend P).bind (fun n => n.descend rel)
  | [], rel, t => by simp [Node.descend]
  | c :: cs, rel, .file d a => by simp [Node.descend]
  | c :: cs, rel, .dir es a => by
    simp only [List.cons_append, descend_cons_dir]
    cases lookupEntry c es with
    | none => rfl
    | some child => exact descend_append cs rel child

theorem descend_nil (t : Node) : t.descend [] = some t := by
  cases t <;> rfl

theorem descend_singleton_dir (es : List (String × Node)) (a : DirAttr) (n : String) :
    (Node.dir es a).descend [n] = lookupEntry n es := by
  rw [descend_cons_dir]
  cases lookupEntry n es with
  | none => rfl
  | some child => exact descend_nil child

theorem WriteFile_of_resolve (fs : FS) (filename : String) (data : List UInt8) (perm : Nat)
    (pos : List String) (node : Option Node) (hres : resolve fs filename = .ok pos) :
    fs.tree.descend pos = node →
    WriteFile fs filename data perm =
      match node with
      | some (.dir _ _) => .error .EISDIR
      | some (.file _ a) =>
        if a.canWrite then .ok { fs with tree := fs.tree.modify pos (Node.withData data) }
        else .error .EACCES
      | none =>
        match fs.tree.descend pos.dropLast with
        | some (.dir _ a) =>
          if a.canWrite then
            .ok { fs with tree := fs.tree.create pos (.file data (attrOfPerm fs.umask perm)) }
          else .error .EACCES
        | _ => .error .ENOENT := by
  intro hnode
  subst hnode
  rcases h : fs.tree.descend pos with _ | (⟨dd, da⟩ | ⟨ee, ea⟩)
  · rcases h2 : fs.tree.descend pos.dropLast with _ | (⟨dd, da⟩ | ⟨ee, ea⟩) <;>
      simp [WriteFile, hres, h, h2]
  · simp [WriteFile, hres, h]
  · simp [WriteFile, hres, h]

/-- A name joined to a cleaned root that names a searchable directory resolves to the entry
of that name in the directory. -/
theorem resolve_join_dir (fs : FS) (root n : String) (P : List String)
    (es : List (String × Node)) (a : DirAttr)
    (hclean : cleanChars root.data = root.data) (hn : IsName n)
    (hroot : resolve fs root = .ok P) (hdir : fs.tree.descend P = some (.dir es a)) :
    resolve fs (Join [root, n])
        = (if a.canSearch = false then .error .EACCES else .ok (P ++ [n]))
    ∧ fs.tree.descend (P ++ [n]) = lookupEntry n es := by
  constructor
  · rw [resolve_join_name fs root n hclean hn, hroot]
    have hn0 := isName_ne_empty n hn
    have hn1 : n ≠ "." := by
      intro e
      subst e
      exact hn.2.2.1 rfl
    have hn2 : n ≠ ".." := by
      intro e
      subst e
      exact hn.2.2.2 rfl
    simp [resolveStep, hdir, hn0, hn1, hn2]
  · rw [descend_append, hdir]
    exact descend_singleton_dir es a n

theorem lookup_join_dir (fs : FS) (root n : String) (P : List String)
    (es : List (String × Node)) (a : DirAttr)
    (hclean : cleanChars root.data = root.data) (hn : IsName n)
    (hroot : resolve fs root = .ok P) (hdir : fs.tree.descend P = some (.dir es a))
    (hs : a.canSearch = true) :
    lookup fs (Join [root, n])
      = match lookupEntry n es with
        | none => .error .ENOENT
        | some node => .ok node := by
  obtain ⟨h1, h2⟩ := resolve_join_dir fs root n P es a hclean hn hroot hdir
  unfold lookup
  rw [h1]
  simp only [hs, Bool.true_eq_false, if_false, h2]

theorem dropLast_append_singleton (P : List String) (n : String) :
    (P ++ [n]).dropLast = P := by
  simp

/-- The walk of a root that names a directory. -/
theorem Walk_dir (fs : FS) (root : String) (P : List String) (es : List (String × Node))
    (a : DirAttr) (hroot : resolve fs root = .ok P)
    (hdir : fs.tree.descend P = some (.dir es a)) :
    Walk fs root = walk root root (basename root) (.dir es a) []
    ∧ walk root root (basename root) (.dir es a) []
        = if a.canList = true then walkNames root root a.canSearch es [] else .ok [] := by
  constructor
  · simp [Walk, lookup, hroot, hdir]
  · by_cases hl : a.canList = true
    · simp [walk, walkFn, Node.info, hl]
    · simp [walk, walkFn, Node.info, hl]

/-- What `createPackageFile` leaves behind: the directory that a cleaned root names has the
sidecar entered, a file holding the checksum of the walk before; nothing else that the walk
or the resolution of path names looks at has changed. -/
theorem createPackageFile_shape (fs0 fs1 : FS) (root : String) (P : List String)
    (hclean : cleanChars root.data = root.data) (hroot : resolve fs0 root = .ok P)
    (hstamp : createPackageFile fs0 root = .ok fs1) :
    ∃ (esP es1 : List (String × Node)) (aP : DirAttr) (s0 : List UInt8) (a1 : FileAttr),
      fs0.tree.descend P = some (.dir esP aP)
      ∧ fs1.tree.descend P = some (.dir es1 aP)
      ∧ aP.canSearch = true
      ∧ fs1.cwd = fs0.cwd
      ∧ KeepsDirs fs0.tree fs1.tree
      ∧ Walk fs0 root = .ok s0
      ∧ lookupEntry packageFileName es1
          = some (.file (Marshal { Checksum := SprintfHex (sha256 s0) }) a1)
      ∧ ∀ (canSearch : Bool) (h : List UInt8),
          walkNames root root canSearch es1 h = walkNames root root canSearch esP h := by
  unfold createPackageFile computeDirChecksum at hstamp
  rcases hw : Walk fs0 root with e | s0
  · simp [hw] at hstamp
  · simp only [hw] at hstamp
    rcases hwr : WriteFile fs0 (Join [root, packageFileName])
        (Marshal { Checksum := SprintfHex (sha256 s0) }) filePermissions with e | fsw
    · simp [hwr] at hstamp
    · simp only [hwr, Except.ok.injEq] at hstamp
      subst hstamp
      -- the directory the root names
      have hres := resolve_join_name fs0 root packageFileName hclean isName_packageFileName
      rw [hroot] at hres
      rcases hdesc : fs0.tree.descend P with _ | (⟨dd, da⟩ | ⟨esP, aP⟩)
      · simp [WriteFile, hres, resolveStep, hdesc] at hwr
      · simp [WriteFile, hres, resolveStep, hdesc] at hwr
      · obtain ⟨h1, h2⟩ := resolve_join_dir fs0 root packageFileName P esP aP hclean
          isName_packageFileName hroot hdesc
        by_cases hs : aP.canSearch = false
        · simp [WriteFile, h1, hs] at hwr
        · have hs' : aP.canSearch = true := by simpa using hs
          simp only [hs, if_false] at h1
          rcases hl : lookupEntry packageFileName esP with _ | (⟨dd, da⟩ | ⟨ee, ea⟩)
          · -- the sidecar is created
            rw [WriteFile_of_resolve fs0 _ _ _ _ none h1 (by rw [h2, hl])] at hwr
            simp only [dropLast_append_singleton, hdesc] at hwr
            by_cases hwp : aP.canWrite = true
            · simp only [hwp, if_true, Except.ok.injEq] at hwr
              subst hwr
              have hnone : fs0.tree.descend (P ++ [packageFileName]) = none := by
                rw [h2, hl]
              refine ⟨esP, insertEntry packageFileName
                (.file (Marshal { Checksum := SprintfHex (sha256 s0) })
                  (attrOfPerm fs0.umask filePermissions)) esP, aP, s0,
                attrOfPerm fs0.umask filePermissions,
                rfl, ?_, hs', rfl, ?_, rfl, ?_, ?_⟩
              · simp only
                rw [descend_create_append _ [packageFileName] (by simp) P fs0.tree, hdesc]
                rfl
              · intro cur es a hcur
                exact keepsDirs_create _ cur fs0.tree _ es a hnone hcur
              · simp [lookupEntry_insertEntry]
              · intro canSearch h
                exact walkNames_insert_sidecar root hclean canSearch _ _ esP h hl
            · simp [hwp] at hwr
          · -- the sidecar is overwritten
            rw [WriteFile_of_resolve fs0 _ _ _ _ (some (.file dd da)) h1 (by rw [h2, hl])] at hwr
            by_cases hwp : da.canWrite = true
            · simp only [hwp, if_true, Except.ok.injEq] at hwr
              subst hwr
              refine ⟨esP, modifyEntry packageFileName
                (Node.withData (Marshal { Checksum := SprintfHex (sha256 s0) })) esP, aP, s0, da,
                rfl, ?_, hs', rfl, ?_, rfl, ?_, ?_⟩
              · simp only
                rw [descend_modify_append _ [packageFileName] P fs0.tree, hdesc]
                simp [Node.modify, modify_nil]
              · intro cur es a hcur
                exact keepsDirs_modify _ cur fs0.tree _ es a hcur
              · simp [lookupEntry_modifyEntry, hl, Node.withData]
              · intro canSearch h
                exact walkNames_modify_sidecar root hclean canSearch _ dd da esP h hl
            · simp [hwp] at hwr
          · rw [WriteFile_of_resolve fs0 _ _ _ _ (some (.dir ee ea)) h1 (by rw [h2, hl])] at hwr
            simp at hwr


/-! ## Tampering with a stamped directory -/

theorem hexDigit_injective (x y : Nat) (hx : x < 16) (hy : y < 16)
    (h : hexDigit x = hexDigit y) : x = y := by
  interval_cases x <;> interval_cases y <;> first | rfl | (exfalso; revert h; decide)

theorem uint8_eq_of_toNat_eq (a b : UInt8) (h : a.toNat = b.toNat) : a = b := by
  exact UInt8.ext h

theorem hexChars_injective : ∀ (a b : List UInt8), hexChars a = hexChars b → a = b
  | [], [], _ => rfl
  | [], _ :: _, h => by simp [hexChars] at h
  | _ :: _, [], h => by simp [hexChars] at h
  | x :: xs, y :: ys, h => by
    simp only [hexChars, List.cons.injEq] at h
    obtain ⟨h1, h2, h3⟩ := h
    have hx : x.toNat < 256 := x.val.isLt
    have hy : y.toNat < 256 := y.val.isLt
    have e1 := hexDigit_injective _ _ (by omega) (by omega) h1
    have e2 := hexDigit_injective _ _ (by omega) (by omega) h2
    have : x = y := uint8_eq_of_toNat_eq x y (by omega)
    rw [this, hexChars_injective xs ys h3]

theorem SprintfHex_injective (a b : List UInt8) (h : SprintfHex a = SprintfHex b) : a = b :=
  hexChars_injective a b (congrArg String.data h)

theorem modify_file_cons (d : List UInt8) (a : FileAttr) (c : String) (cs : List String)
    (f : Node → Node) : (Node.file d a).modify (c :: cs) f = .file d a := rfl

/-- C4 (amended): in a directory stamped under a cleaned root path, replacing the bytes of
one file other than the sidecar, which the walk reads, by different bytes changes the byte
stream that is fed to the hash, and `CheckDirChecksum` then answers `(false, nil)` unless the
SHA-256 digests of the two streams are equal. -/
theorem tamper_detected (fs0 fs1 : FS) (root : String) (P rel : List String)
    (d d' : List UInt8) (a : FileAttr)
    (hclean : Clean root = root)
    (hroot : resolve fs0 root = .ok P)
    (hstamp : createPackageFile fs0 root = .ok fs1)
    (hside : succeeds (ReadFile fs1 (Join [root, packageFileName])) = true)
    (hnames : ∀ c ∈ rel, IsName c)
    (hrel : rel ≠ [packageFileName])
    (hfile : fs1.tree.descend (P ++ rel) = some (.file d a))
    (hreads : (fs1.tree.descend P).map (fun n => n.readsFile rel) = some true)
    (hd : d' ≠ d) :
    ∃ s0 s2, Walk fs0 root = .ok s0
      ∧ Walk (fs1.replaceContent (P ++ rel) d') root = .ok s2
      ∧ s2 ≠ s0
      ∧ CheckDirChecksum (fs1.replaceContent (P ++ rel) d') root
          = .ok (decide (sha256 s2 = sha256 s0)) := by
  have hc : cleanChars root.data = root.data := congrArg String.data hclean
  obtain ⟨esP, es1, aP, s0, a1, hd0, hd1, hsearch, hcwd, hkeep, hw0, hside1, hsame⟩ :=
    createPackageFile_shape fs0 fs1 root P hc hroot hstamp
  -- the stamped directory
  have hroot1 : resolve fs1 root = .ok P := resolve_keepsDirs fs0 fs1 hkeep hcwd root P hroot
  have hnode : (Node.dir es1 aP).descend rel = some (.file d a) := by
    have := hfile
    rw [descend_append, hd1] at this
    exact this
  have hreads1 : (Node.dir es1 aP).readsFile rel = true := by
    simpa [hd1] using hreads
  obtain ⟨c, cs, hrelc⟩ : ∃ c cs, rel = c :: cs := by
    cases rel with
    | nil => simp [descend_nil] at hnode
    | cons c cs => exact ⟨c, cs, rfl⟩
  have hlist : aP.canList = true := by
    rw [hrelc] at hreads1
    simp only [Node.readsFile, Bool.and_eq_true] at hreads1
    exact hreads1.1.1
  -- the walk before and after stamping
  obtain ⟨hW0, hW0'⟩ := Walk_dir fs0 root P esP aP hroot hd0
  have hwalk1 : walk root root (basename root) (.dir es1 aP) [] = .ok s0 := by
    have h1 := (Walk_dir fs1 root P es1 aP hroot1 hd1).2
    rw [h1, hsame, ← hW0', ← hW0, hw0]
  -- the tampered directory
  let fs2 := fs1.replaceContent (P ++ rel) d'
  have hkeep2 : KeepsDirs fs1.tree fs2.tree := by
    intro cur es a hcur
    exact keepsDirs_modify d' cur fs1.tree (P ++ rel) es a hcur
  have hroot2 : resolve fs2 root = .ok P :=
    resolve_keepsDirs fs1 fs2 hkeep2 rfl root P hroot1
  have hd2 : fs2.tree.descend P
      = some (.dir (modifyEntry c (fun child => child.modify cs (Node.withData d')) es1) aP) := by
    show (fs1.tree.modify (P ++ rel) (Node.withData d')).descend P = _
    rw [descend_modify_append, hd1, hrelc]
    rfl
  obtain ⟨s2, hwalk2, hne⟩ := walk_replace_ne root hc d d' a hd rel (.dir es1 aP) root
    (basename root) [] s0 hc le_rfl (fun _ => hrel)
    (fun e => by rw [hrelc] at e; exact absurd e (by simp))
    hnames hreads1 hnode hwalk1
  have hW2 : Walk fs2 root = .ok s2 := by
    rw [(Walk_dir fs2 root P _ aP hroot2 hd2).1]
    rw [hrelc] at hwalk2
    exact hwalk2
  -- the sidecar is read back
  have hlook1 : lookup fs1 (Join [root, packageFileName])
      = .ok (.file (Marshal { Checksum := SprintfHex (sha256 s0) }) a1) := by
    rw [lookup_join_dir fs1 root packageFileName P es1 aP hc isName_packageFileName hroot1 hd1
      hsearch, hside1]
  have hattr : a1.canRead = true ∧ a1.readFault = false := by
    unfold ReadFile Open at hside
    rw [hlook1] at hside
    simp only [Node.openRead] at hside
    by_cases h1 : a1.canRead = true
    · by_cases h2 : a1.readFault = true
      · simp [h1, h2, Copy, succeeds] at hside
      · exact ⟨h1, by simpa using h2⟩
    · simp [h1, succeeds] at hside
  have hside2 : lookupEntry packageFileName
      (modifyEntry c (fun child => child.modify cs (Node.withData d')) es1)
        = some (.file (Marshal { Checksum := SprintfHex (sha256 s0) }) a1) := by
    rw [lookupEntry_modifyEntry, hside1]
    by_cases hpc : packageFileName = c
    · have hcs : cs ≠ [] := by
        intro e
        apply hrel
        rw [hrelc, e, hpc]
      obtain ⟨c2, cs2, hcs2⟩ : ∃ c2 cs2, cs = c2 :: cs2 := by
        cases cs with
        | nil => exact absurd rfl hcs
        | cons c2 cs2 => exact ⟨c2, cs2, rfl⟩
      simp [hpc, hcs2, modify_file_cons]
    · simp [hpc]
  have hread2 : ReadFile fs2 (Join [root, packageFileName])
      = .ok (Marshal { Checksum := SprintfHex (sha256 s0) }) := by
    unfold ReadFile Open
    rw [lookup_join_dir fs2 root packageFileName P _ aP hc isName_packageFileName hroot2 hd2
      hsearch, hside2]
    simp [Node.openRead, Copy, hattr.1, hattr.2]
  refine ⟨s0, s2, hw0, hW2, hne, ?_⟩
  show CheckDirChecksum fs2 root = _
  unfold CheckDirChecksum computeDirChecksum
  rw [hread2, hW2]
  simp only [Unmarshal_Marshal_hex]
  congr 1
  by_cases he : sha256 s2 = sha256 s0
  · simp [he]
  · have : SprintfHex (sha256 s0) ≠ SprintfHex (sha256 s2) := fun e =>
      he (SprintfHex_injective _ _ e).symm
    simp [he, this]


/-- Witness of C4 (amended): `dir/a.txt` holds `a` when `dir` is stamped and `b` afterwards;
the check answers `(false, nil)`. -/
theorem tamper_detected_witness :
    createPackageFile oneFileFS "dir" = .ok oneFileStampedFS
    ∧ CheckDirChecksum (oneFileStampedFS.replaceContent ["dir", "a.txt"] [0x62]) "dir"
        = .ok false := by
  have hstamp : createPackageFile oneFileFS "dir" = .ok oneFileStampedFS := by decide!
  have key : ∃ s0 s2, Walk oneFileFS "dir" = .ok s0
      ∧ Walk (oneFileStampedFS.replaceContent ["dir", "a.txt"] [0x62]) "dir" = .ok s2
      ∧ s2 ≠ s0
      ∧ CheckDirChecksum (oneFileStampedFS.replaceContent ["dir", "a.txt"] [0x62]) "dir"
          = .ok (decide (sha256 s2 = sha256 s0)) :=
    tamper_detected oneFileFS oneFileStampedFS "dir"
      ["dir"] ["a.txt"] [0x61] [0x62] ⟨true, true, false, 0o644⟩ (by decide) (by decide) hstamp
      (by decide) (by decide) (by decide) (by decide) (by decide) (by decide)
  obtain ⟨s0, s2, h0, h2, _, hcheck⟩ := key
  have e0 : s0 = [0x61] := by
    have : Walk oneFileFS "dir" = .ok [0x61] := by decide
    rw [this] at h0
    exact (Except.ok.inj h0).symm
  have e2 : s2 = [0x62] := by
    have : Walk (oneFileStampedFS.replaceContent ["dir", "a.txt"] [0x62]) "dir"
        = .ok [0x62] := by decide
    rw [this] at h2
    exact (Except.ok.inj h2).symm
  have hne : sha256 s2 ≠ sha256 s0 := by
    rw [e0, e2]
    decide!
  refine ⟨hstamp, ?_⟩
  rw [hcheck]
  simp [hne]

/-! ## The cache test and the errors of the walk -/

/-- The result of `IsCached` for each outcome of `ArchivePath` and `Stat`. -/
theorem isCached_cases (fs : FS) (r : DownloadResource) :
    (∀ path info, r.ArchivePath = .ok path → Stat fs path = .ok info →
      r.IsCached fs = .ok true)
    ∧ (∀ path, r.ArchivePath = .ok path → Stat fs path = .error .ENOENT →
      r.IsCached fs = .ok false)
    ∧ (∀ path e, r.ArchivePath = .ok path → Stat fs path = .error e → e ≠ .ENOENT →
      r.IsCached fs = .error (.checkingArchiveExistence e))
    ∧ (∀ msg, r.ArchivePath = .error msg →
      r.IsCached fs = .error (.gettingArchivePath msg)) := by
  refine ⟨?_, ?_, ?_, ?_⟩
  · intro path info hp hs
    simp [DownloadResource.IsCached, hp, hs, errOf, IsNotExist]
  · intro path hp hs
    simp [DownloadResource.IsCached, hp, hs, errOf, IsNotExist]
  · intro path e hp hs he
    cases e <;> simp_all [DownloadResource.IsCached, errOf, IsNotExist]
  · intro msg hp
    simp [DownloadResource.IsCached, hp]

/-- C11: `IsCached` answers `(true, nil)` exactly when `Stat` of the resolved archive path
succeeds, `(false, nil)` exactly when it fails with a does-not-exist error, and returns an
error when `Stat` fails with another error or the archive path does not resolve. -/
theorem isCached_iff (fs : FS) (r : DownloadResource) :
    (r.IsCached fs = .ok true ↔
      ∃ path info, r.ArchivePath = .ok path ∧ Stat fs path = .ok info)
    ∧ (r.IsCached fs = .ok false ↔
      ∃ path, r.ArchivePath = .ok path ∧ Stat fs path = .error .ENOENT)
    ∧ (∀ path e, r.ArchivePath = .ok path → Stat fs path = .error e → e ≠ .ENOENT →
      r.IsCached fs = .error (.checkingArchiveExistence e))
    ∧ (∀ msg, r.ArchivePath = .error msg →
      r.IsCached fs = .error (.gettingArchivePath msg)) := by
  obtain ⟨h1, h2, h3, h4⟩ := isCached_cases fs r
  refine ⟨⟨?_, ?_⟩, ⟨?_, ?_⟩, h3, h4⟩
  · intro hv
    rcases hp : r.ArchivePath with msg | path
    · rw [h4 msg hp] at hv
      cases hv
    · rcases hs : Stat fs path with e | info
      · by_cases he : e = .ENOENT
        · subst he
          rw [h2 path hp hs] at hv
          cases hv
        · rw [h3 path e hp hs he] at hv
          cases hv
      · exact ⟨path, info, rfl, hs⟩
  · rintro ⟨path, info, hp, hs⟩
    exact h1 path info hp hs
  · intro hv
    rcases hp : r.ArchivePath with msg | path
    · rw [h4 msg hp] at hv
      cases hv
    · rcases hs : Stat fs path with e | info
      · by_cases he : e = .ENOENT
        · subst he
          exact ⟨path, rfl, hs⟩
        · rw [h3 path e hp hs he] at hv
          cases hv
      · rw [h1 path info hp hs] at hv
        cases hv
  · rintro ⟨path, hp, hs⟩
    exact h2 path hp hs

/-- Instances of C11: the zero-byte archive is cached, and a path that leads through a
file is reported as an error, not as an absent archive. -/
theorem isCached_iff_witness :
    emptyArchiveResource.IsCached emptyArchiveFS = .ok true
    ∧ ({ Checksum := "", Size := 0, ArchivePath := .ok "/cache/core.zip/inner" } :
        DownloadResource).IsCached emptyArchiveFS
      = .error (.checkingArchiveExistence .ENOTDIR) :=
  ⟨(isCached_iff emptyArchiveFS emptyArchiveResource).1.mpr
      ⟨"/cache/core.zip", ⟨"core.zip", 0, false⟩, rfl, by decide⟩,
    (isCached_iff emptyArchiveFS _).2.2.1 "/cache/core.zip/inner" .ENOTDIR rfl
      (by decide) (by decide)⟩

/-- `Lstat` fails exactly when the lookup of the path fails, with the same error. -/
theorem Lstat_error_iff (fs : FS) (root : String) (e : Errno) :
    Lstat fs root = .error e ↔ lookup fs root = .error e := by
  unfold Lstat
  cases lookup fs root <;> simp

/-- C19: the function of the walk returns without error, and without looking at the file
info, when the walk reports an error for an entry; a directory that cannot be listed and the
entries of a directory that cannot be searched are passed over without error; and for a root
on which `Lstat` fails the checksum is that of the empty input, without error. -/
theorem computeDirChecksum_skips_errors :
    (∀ (root : String) (hash : List UInt8) (path : String) (entry : Option (String × Node))
        (e : Errno), walkFn root hash path entry (some e) = .ok hash)
    ∧ (∀ (root path name : String) (es : List (String × Node)) (a : DirAttr)
        (hash : List UInt8), a.canList = false →
        walk root path name (.dir es a) hash = .ok hash)
    ∧ (∀ (root path : String) (es : List (String × Node)) (hash : List UInt8),
        walkNames root path false es hash = .ok hash)
    ∧ (∀ (fs : FS) (root : String) (e : Errno), Lstat fs root = .error e →
        computeDirChecksum fs root
          = .ok "e3b0c44298fc1c149afbf4c8996fb92427ae41e4649b934ca495991b7852b855") := by
  refine ⟨?_, ?_, ?_, ?_⟩
  · intro root hash path entry e
    simp [walkFn]
  · intro root path name es a hash hl
    simp [walk, walkFn, hl]
  · intro root path es
    induction es with
    | nil => intro hash; simp [walkNames]
    | cons en rest ih =>
      intro hash
      obtain ⟨n, c⟩ := en
      simp [walkNames, walkFn, ih]
  · intro fs root e he
    have hl := (Lstat_error_iff fs root e).mp he
    have hw : Walk fs root = .ok [] := by simp [Walk, hl, walkFn]
    have hd := digest_test_vectors.2.2.2.2.1
    simp [computeDirChecksum, hw, hd]

/-- An instance of C19: a root that does not exist has the checksum of the empty input. -/
theorem computeDirChecksum_skips_errors_witness :
    Lstat emptyDirFS "nowhere" = .error .ENOENT
    ∧ computeDirChecksum emptyDirFS "nowhere"
      = .ok "e3b0c44298fc1c149afbf4c8996fb92427ae41e4649b934ca495991b7852b855" :=
  ⟨by decide, computeDirChecksum_skips_errors.2.2.2 emptyDirFS "nowhere" .ENOENT (by decide)⟩


/-! ## Reading the sidecar file -/

/-- The members of an object stored one after the other leave the recorded checksum in the
field, and the field as it was when the object records none. -/
theorem foldl_storeMember : ∀ (members : List (List UInt8 × JSON)) (file : packageFile),
    members.foldl storeMember file
      = { Checksum := (recordedChecksum members).getD file.Checksum }
  | [], file => rfl
  | (key, value) :: rest, file => by
    rw [List.foldl_cons, foldl_storeMember rest]
    rcases hr : recordedChecksum rest with _ | s
    · by_cases hk : equalFold "checksum".data (unquote key).data = true
      · cases value <;> simp [recordedChecksum, hr, storeMember, hk]
      · simp [recordedChecksum, hr, storeMember, hk]
    · simp [recordedChecksum, hr]

/-- The length of the hexadecimal rendering: two characters for each byte. -/
theorem SprintfHex_length (bs : List UInt8) : (SprintfHex bs).length = 2 * bs.length := by
  show (hexChars bs).length = 2 * bs.length
  induction bs with
  | nil => rfl
  | cons b bs ih => simp [hexChars, ih]; omega

/-- A checksum that `computeDirChecksum` returns has 64 characters, all of them lower-case
hexadecimal digits. -/
theorem computeDirChecksum_format (fs : FS) (root c : String)
    (h : computeDirChecksum fs root = .ok c) :
    c.length = 64 ∧ ∀ ch ∈ c.data, ch ∈ lowerHexDigits := by
  unfold computeDirChecksum at h
  rcases hw : Walk fs root with err | hash
  · rw [hw] at h; cases h
  · rw [hw] at h
    simp only [Except.ok.injEq] at h
    subst h
    refine ⟨?_, ?_⟩
    · rw [SprintfHex_length, sha256_length]
    · exact hexChars_lower _

/-- A failure to find the file is a failure to read it. -/
theorem ReadFile_of_Lstat_error (fs : FS) (path : String) (e : Errno)
    (h : Lstat fs path = .error e) : ReadFile fs path = .error e := by
  have hl := (Lstat_error_iff fs path e).mp h
  simp [ReadFile, Open, hl]

/-- C13: when the sidecar file cannot be read, and so when it is absent, `CheckDirChecksum`
returns the error of the read; when it is read, its content is a JSON object that the
decoder accepts (valid, and nested no deeper than the decoder allows) and that records a
checksum string, and the checksum of the tree is computed, the result is `(b, nil)` where
`b` tells whether the recorded string equals the computed checksum. -/
theorem checkDirChecksum_sidecar (fs : FS) (root : String) :
    (∀ e : Errno, ReadFile fs (Join [root, packageFileName]) = .error e →
      CheckDirChecksum fs root = .error (.os e))
    ∧ (∀ e : Errno, Lstat fs (Join [root, packageFileName]) = .error e →
      CheckDirChecksum fs root = .error (.os e))
    ∧ (∀ (content : List UInt8) (members : List (List UInt8 × JSON)) (recorded c : String),
      ReadFile fs (Join [root, packageFileName]) = .ok content →
      parseJSON content = some (.object members) →
      recordedChecksum members = some recorded →
      computeDirChecksum fs root = .ok c →
      CheckDirChecksum fs root = .ok (decide (recorded = c))) := by
  refine ⟨?_, ?_, ?_⟩
  · intro e h
    simp [CheckDirChecksum, h]
  · intro e h
    simp [CheckDirChecksum, ReadFile_of_Lstat_error fs _ e h]
  · intro content members recorded c hr hp hm hc
    simp [CheckDirChecksum, hr, hc, Unmarshal, hp, foldl_storeMember, hm]

/-- Instances of C13: the stamped directory verifies against the checksum its sidecar
records, and a directory without sidecar gives the error of the read. -/
theorem checkDirChecksum_sidecar_witness :
    CheckDirChecksum oneFileStampedFS "dir" = .ok true
    ∧ CheckDirChecksum emptyDirFS "dir" = .error (.os .ENOENT) := by
  have h1 := (checkDirChecksum_sidecar oneFileStampedFS "dir").2.2
    (Marshal { Checksum := "ca978112ca1bbdcafac231b39a23dc4da786eff8147c4e72b9807785afee48bb" })
    [(asciiBytes "checksum".data, .string (asciiBytes
      "ca978112ca1bbdcafac231b39a23dc4da786eff8147c4e72b9807785afee48bb".data))]
    "ca978112ca1bbdcafac231b39a23dc4da786eff8147c4e72b9807785afee48bb"
    "ca978112ca1bbdcafac231b39a23dc4da786eff8147c4e72b9807785afee48bb"
    (by decide!)
    (parseJSON_Marshal_hex
      "ca978112ca1bbdcafac231b39a23dc4da786eff8147c4e72b9807785afee48bb".data (by decide))
    (by decide!) (by decide!)
  have h2 := (checkDirChecksum_sidecar emptyDirFS "dir").1 .ENOENT (by decide!)
  exact ⟨by simpa using h1, h2⟩

/-- What `Unmarshal` leaves of a file when the content yields no checksum string: the file
as it was. -/
theorem Unmarshal_of_not_yields (content : List UInt8) (file : packageFile)
    (h : yieldsChecksum content = false) : Unmarshal content file = file := by
  unfold yieldsChecksum at h
  unfold Unmarshal
  rcases hp : parseJSON content with _ | j
  · rfl
  · cases j with
    | object members =>
      rw [hp] at h
      rcases hrc : recordedChecksum members with _ | s
      · simp [foldl_storeMember, hrc]
      · simp [hrc] at h
    | _ => rfl

/-- C18 (counterexample): the sidecar of `dir` is readable and holds `x`, which is no JSON
document, and reading `dir/a.txt` fails; `CheckDirChecksum("dir")` returns the error of the
checksum computation, not `(false, nil)`. -/
theorem checkDirChecksum_error_without_checksum :
    ReadFile (faultyFileFS [0x78]) "dir/package.json" = .ok [0x78]
    ∧ yieldsChecksum [0x78] = false
    ∧ CheckDirChecksum (faultyFileFS [0x78]) "dir"
      = .error (.failedToComputeHashOfFile "a.txt") := by
  decide!

/-- C18 (amended): when the sidecar file is read, its content yields no checksum string (it
is no valid JSON, no object, or an object that records no checksum string) and the checksum
of the tree is computed, `CheckDirChecksum` returns `(false, nil)`: the decoder leaves the
recorded checksum empty, and the computed checksum has 64 characters. -/
theorem checkDirChecksum_without_checksum (fs : FS) (root c : String) (content : List UInt8)
    (hr : ReadFile fs (Join [root, packageFileName]) = .ok content)
    (hy : yieldsChecksum content = false)
    (hc : computeDirChecksum fs root = .ok c) :
    CheckDirChecksum fs root = .ok false
    ∧ Unmarshal content { Checksum := "" } = { Checksum := "" }
    ∧ c.length = 64 := by
  have hu := Unmarshal_of_not_yields content { Checksum := "" } hy
  have hl := (computeDirChecksum_format fs root c hc).1
  refine ⟨?_, hu, hl⟩
  have hne : ¬ ("" = c) := by
    intro h
    rw [← h] at hl
    cases hl
  simp [CheckDirChecksum, hr, hc, hu, hne]

/-- Witness of C18 (amended): the sidecar of `dir` holds `x`, and the check answers
`(false, nil)`. -/
theorem checkDirChecksum_without_checksum_witness :
    CheckDirChecksum (sidecarFS [0x78]) "dir" = .ok false :=
  (checkDirChecksum_without_checksum (sidecarFS [0x78]) "dir"
    "ca978112ca1bbdcafac231b39a23dc4da786eff8147c4e72b9807785afee48bb" [0x78]
    (by decide!) (by decide!) (by decide!)).1

/-! ## Writing the sidecar file -/

/-- Nothing is found below a file. -/
theorem descend_file_cons (d : List UInt8) (a : FileAttr) (c : String) (cs : List String) :
    (Node.file d a).descend (c :: cs) = none := rfl

/-- Nothing is found at a position that leads through a file. -/
theorem descend_through_file (t : Node) (q r : List String) (d : List UInt8) (a : FileAttr)
    (hq : t.descend q = some (.file d a)) (hr : r ≠ []) : t.descend (q ++ r) = none := by
  rw [descend_append, hq]
  cases r with
  | nil => exact absurd rfl hr
  | cons c cs => rfl

/-- Replacing the bytes of the file at `pos` changes nothing at a position that does not
lead to `pos`. -/
theorem descend_modify_other (data : List UInt8) : ∀ (pos q : List String) (t : Node),
    ¬ q <+: pos → (t.modify pos (Node.withData data)).descend q = t.descend q
  | [], q, t, h => by
    rw [modify_nil]
    cases t with
    | file d a =>
      cases q with
      | nil => exact absurd List.prefix_rfl h
      | cons c cs => rfl
    | dir es a => rfl
  | c :: cs, q, .file d a, _ => rfl
  | c :: cs, [], .dir es a, h => absurd (List.nil_prefix) h
  | c :: cs, k :: q, .dir es a, h => by
    simp only [Node.modify, descend_cons_dir, lookupEntry_modifyEntry]
    by_cases hk : k = c
    · subst hk
      simp only [if_true]
      cases hl : lookupEntry k es with
      | none => rfl
      | some child =>
        simp only [Option.map_some']
        apply descend_modify_other data cs q child
        intro hp
        exact h ((List.cons_prefix_cons).mpr ⟨rfl, hp⟩)
    · simp only [hk, if_false]

/-- Entering a file at the free position `pos` changes nothing at a position that does not
lead to `pos`. -/
theorem descend_create_other (data : List UInt8) (attr : FileAttr) :
    ∀ (pos q : List String) (t : Node), t.descend pos = none → ¬ q <+: pos →
      (t.create pos (.file data attr)).descend q = t.descend q
  | [], q, t, _, _ => by rw [create_nil]
  | c :: cs, q, .file d a, _, _ => rfl
  | [c], [], .dir es a, _, h => absurd (List.nil_prefix) h
  | [c], k :: q, .dir es a, hfree, h => by
    simp only [Node.create, descend_cons_dir, lookupEntry_insertEntry]
    by_cases hk : k = c
    · subst hk
      simp only [if_true]
      have hl : lookupEntry k es = none := by
        rw [← descend_singleton_dir es a k]
        exact hfree
      rw [hl]
      cases q with
      | nil => exact absurd List.prefix_rfl h
      | cons c2 q2 => rfl
    · simp only [hk, if_false]
  | c :: d :: cs, [], .dir es a, _, h => absurd (List.nil_prefix) h
  | c :: d :: cs, k :: q, .dir es a, hfree, h => by
    simp only [Node.create, descend_cons_dir, lookupEntry_modifyEntry]
    by_cases hk : k = c
    · subst hk
      simp only [if_true]
      cases hl : lookupEntry k es with
      | none => rfl
      | some child =>
        simp only [Option.map_some']
        rw [descend_cons_dir, hl] at hfree
        apply descend_create_other data attr (d :: cs) q child hfree
        intro hp
        exact h ((List.cons_prefix_cons).mpr ⟨rfl, hp⟩)
    · simp only [hk, if_false]

/-- A position that leads to another one, and is not that one, is continued by names. -/
theorem prefix_ne_split (q pos : List String) (h : q <+: pos) (hne : q ≠ pos) :
    ∃ r, r ≠ [] ∧ pos = q ++ r := by
  obtain ⟨r, hr⟩ := h
  refine ⟨r, ?_, hr.symm⟩
  intro e
  subst e
  exact hne (by simpa using hr)

/-- What a successful `WriteFile` leaves behind: the file named holds the data, with the
attributes of the permission bits when it is new and its earlier attributes otherwise; the
working directory, the directories and every other file are as before. -/
theorem WriteFile_effect (fs fs1 : FS) (filename : String) (data : List UInt8) (perm : Nat)
    (h : WriteFile fs filename data perm = .ok fs1) :
    ∃ (pos : List String) (a : FileAttr),
      resolve fs filename = .ok pos
      ∧ fs1.cwd = fs.cwd
      ∧ KeepsDirs fs.tree fs1.tree
      ∧ fs1.tree.descend pos = some (.file data a)
      ∧ (fs.tree.descend pos = none → a = attrOfPerm fs.umask perm)
      ∧ (∀ d a0, fs.tree.descend pos = some (.file d a0) → a = a0)
      ∧ (∀ q, ¬ q <+: pos → fs1.tree.descend q = fs.tree.descend q)
      ∧ (∀ q d0 a0, q ≠ pos →
          (fs1.tree.descend q = some (.file d0 a0) ↔ fs.tree.descend q = some (.file d0 a0))) := by
  rcases hres : resolve fs filename with e | pos
  · simp [WriteFile, hres] at h
  · rcases hd : fs.tree.descend pos with _ | (⟨dd, da⟩ | ⟨ee, ea⟩)
    · -- the file is created
      rw [WriteFile_of_resolve fs _ _ _ pos none hres hd] at h
      rcases hp : fs.tree.descend pos.dropLast with _ | (⟨pd, pa⟩ | ⟨pes, pa⟩)
      · simp [hp] at h
      · simp [hp] at h
      · simp only [hp] at h
        by_cases hw : pa.canWrite = true
        · simp only [hw, if_true, Except.ok.injEq] at h
          subst h
          have hpos : pos ≠ [] := by
            intro e
            subst e
            rw [descend_nil] at hd
            cases hd
          have hsplit : pos = pos.dropLast ++ [pos.getLast hpos] :=
            (List.dropLast_append_getLast hpos).symm
          have hnew : (fs.tree.create pos (.file data (attrOfPerm fs.umask perm))).descend pos
              = some (.file data (attrOfPerm fs.umask perm)) := by
            have h1 := descend_append pos.dropLast [pos.getLast hpos]
              (fs.tree.create pos (.file data (attrOfPerm fs.umask perm)))
            rw [← hsplit] at h1
            rw [h1]
            have h2 := descend_create_append (.file data (attrOfPerm fs.umask perm))
              [pos.getLast hpos] (by simp) pos.dropLast fs.tree
            rw [← hsplit] at h2
            rw [h2, hp]
            simp [Node.create, descend_singleton_dir, lookupEntry_insertEntry]
          have hother : ∀ q, ¬ q <+: pos →
              (fs.tree.create pos (.file data (attrOfPerm fs.umask perm))).descend q
                = fs.tree.descend q :=
            fun q hq => descend_create_other data (attrOfPerm fs.umask perm) pos q fs.tree hd hq
          refine ⟨pos, attrOfPerm fs.umask perm, rfl, rfl, ?_, hnew, fun _ => rfl, ?_, hother, ?_⟩
          · intro cur es a hcur
            exact keepsDirs_create _ cur fs.tree _ es a hd hcur
          · intro d a0 h0
            rw [hd] at h0
            cases h0
          · intro q d0 a0 hq
            by_cases hpre : q <+: pos
            · obtain ⟨r, hr, hqr⟩ := prefix_ne_split q pos hpre hq
              constructor
              · intro hf
                have := descend_through_file _ q r d0 a0 hf hr
                rw [← hqr, hnew] at this
                cases this
              · intro hf
                -- the directory the file is entered in lies below `q` or is `q`
                have hdl : pos.dropLast = q ++ r.dropLast := by
                  rw [hqr, List.dropLast_append_of_ne_nil _ hr]
                by_cases hr2 : r.dropLast = []
                · rw [hdl, hr2, List.append_nil, hf] at hp
                  cases hp
                · have := descend_through_file _ q r.dropLast d0 a0 hf hr2
                  rw [← hdl, hp] at this
                  cases this
            · show (fs.tree.create pos (.file data (attrOfPerm fs.umask perm))).descend q = _ ↔ _
              rw [hother q hpre]
        · simp [hw] at h
    · -- the file is overwritten
      rw [WriteFile_of_resolve fs _ _ _ pos (some (.file dd da)) hres hd] at h
      by_cases hw : da.canWrite = true
      · simp only [hw, if_true, Except.ok.injEq] at h
        subst h
        have hnew : (fs.tree.modify pos (Node.withData data)).descend pos
            = some (.file data da) := by
          have h2 := descend_modify_append (Node.withData data) [] pos fs.tree
          rw [List.append_nil] at h2
          rw [h2, hd]
          simp [modify_nil, Node.withData]
        have hother : ∀ q, ¬ q <+: pos →
            (fs.tree.modify pos (Node.withData data)).descend q = fs.tree.descend q :=
          fun q hq => descend_modify_other data pos q fs.tree hq
        refine ⟨pos, da, rfl, rfl, ?_, hnew, ?_, ?_, hother, ?_⟩
        · intro cur es a hcur
          exact keepsDirs_modify _ cur fs.tree _ es a hcur
        · intro h0
          rw [hd] at h0
          cases h0
        · intro d a0 h0
          rw [hd] at h0
          cases h0
          rfl
        · intro q d0 a0 hq
          by_cases hpre : q <+: pos
          · obtain ⟨r, hr, hqr⟩ := prefix_ne_split q pos hpre hq
            constructor
            · intro hf
              have := descend_through_file _ q r d0 a0 hf hr
              rw [← hqr, hnew] at this
              cases this
            · intro hf
              have := descend_through_file _ q r d0 a0 hf hr
              rw [← hqr, hd] at this
              cases this
          · show (fs.tree.modify pos (Node.withData data)).descend q = _ ↔ _
            rw [hother q hpre]
      · simp [hw] at h
    · rw [WriteFile_of_resolve fs _ _ _ pos (some (.dir ee ea)) hres hd] at h
      simp at h

/-- The bytes `json.Marshal` writes for a checksum of hexadecimal digits, as text. -/
theorem Marshal_hex_text (cs : List Char) (h : ∀ c ∈ cs, c ∈ lowerHexDigits) :
    Marshal { Checksum := String.mk cs }
      = asciiBytes ("\x7b\"checksum\":\"".data ++ cs ++ "\"\x7d".data) := by
  rw [Marshal_hex cs h]
  simp [asciiBytes]

/-- A mask below `0o1000` that has no bit of `0o644` leaves `0o644` as it is. -/
theorem createMode_table : ∀ m < 512, m &&& 0o644 = 0 → 0o644 &&& (0o777 - m) = 0o644 := by
  decide!

/-- A file mode creation mask that has no bit of `0o644` (as `0o022` and `0`) leaves the
mode `0o644` as it is. -/
theorem createMode_of_disjoint (umask : Nat) (h : umask &&& 0o644 = 0) :
    createMode umask 0o644 = 0o644 := by
  unfold createMode
  have hlt : umask &&& 0o777 < 512 := by
    have := @Nat.and_le_right umask 0o777
    omega
  have hz : (umask &&& 0o777) &&& 0o644 = 0 := by
    rw [Nat.land_assoc]
    exact h
  exact createMode_table _ hlt hz

/-- C14: when `createPackageFile(root)` succeeds, the checksum `c` of `root` was computed
before the write and has 64 lower-case hexadecimal digits; the sidecar was written by
`WriteFile` with mode 0644 and afterwards is a file whose whole content is the text
`\x7b"checksum":"c"\x7d`, an object of that single member; when it is new its mode is 0644
less the bits of the file mode creation mask, which is 0644 where the mask has none of its
bits, and when it was there its content is replaced and its mode stays; every other file is
as before. When the checksum cannot be computed, the error is returned and nothing is
written. -/
theorem createPackageFile_writes (fs0 : FS) (root : String) :
    (∀ fs1 : FS, createPackageFile fs0 root = .ok fs1 →
      ∃ (c : String) (pos : List String) (a : FileAttr),
        computeDirChecksum fs0 root = .ok c
        ∧ c.length = 64 ∧ (∀ ch ∈ c.data, ch ∈ lowerHexDigits)
        ∧ WriteFile fs0 (Join [root, packageFileName]) (Marshal { Checksum := c }) 0o644
            = .ok fs1
        ∧ Marshal { Checksum := c }
            = asciiBytes ("\x7b\"checksum\":\"".data ++ c.data ++ "\"\x7d".data)
        ∧ parseJSON (Marshal { Checksum := c })
            = some (.object [(asciiBytes "checksum".data, .string (asciiBytes c.data))])
        ∧ resolve fs0 (Join [root, packageFileName]) = .ok pos
        ∧ lookup fs1 (Join [root, packageFileName])
            = .ok (.file (Marshal { Checksum := c }) a)
        ∧ (fs0.tree.descend pos = none → a = attrOfPerm fs0.umask 0o644)
        ∧ (fs0.tree.descend pos = none → fs0.umask &&& 0o644 = 0 →
            a = { canRead := true, canWrite := true, readFault := false, mode := 0o644 })
        ∧ (∀ d a0, fs0.tree.descend pos = some (.file d a0) → a = a0)
        ∧ (∀ q d0 a0, q ≠ pos →
            (fs1.tree.descend q = some (.file d0 a0)
              ↔ fs0.tree.descend q = some (.file d0 a0))))
    ∧ (∀ err : Error, computeDirChecksum fs0 root = .error err →
        createPackageFile fs0 root = .error err) := by
  constructor
  · intro fs1 hstamp
    rcases hc : computeDirChecksum fs0 root with err | c
    · simp [createPackageFile, hc] at hstamp
    · rcases hw : WriteFile fs0 (Join [root, packageFileName]) (Marshal { Checksum := c })
          filePermissions with e | fsw
      · simp [createPackageFile, hc, hw] at hstamp
      · simp only [createPackageFile, hc, hw, Except.ok.injEq] at hstamp
        subst hstamp
        obtain ⟨hlen, hlow⟩ := computeDirChecksum_format fs0 root c hc
        obtain ⟨pos, a, hres, hcwd, hkeep, hnew, hcreated, hkept, _, hfiles⟩ :=
          WriteFile_effect fs0 fsw _ _ _ hw
        have hres1 := resolve_keepsDirs fs0 fsw hkeep hcwd _ pos hres
        refine ⟨c, pos, a, rfl, hlen, hlow, hw, Marshal_hex_text c.data hlow,
          parseJSON_Marshal_hex c.data hlow, hres, ?_, hcreated, ?_, hkept, hfiles⟩
        · simp [lookup, hres1, hnew]
        · intro hfree hmask
          rw [hcreated hfree]
          have hm : createMode fs0.umask filePermissions = 0o644 :=
            createMode_of_disjoint fs0.umask hmask
          simp [attrOfPerm, hm]
  · intro err hc
    simp [createPackageFile, hc]

/-- An instance of C14: stamping `dir`, which holds `a.txt`, leaves the sidecar with the
checksum of `a`, a new file of mode 0644. -/
theorem createPackageFile_writes_witness :
    createPackageFile oneFileFS "dir" = .ok oneFileStampedFS
    ∧ ∃ (c : String) (a : FileAttr), computeDirChecksum oneFileFS "dir" = .ok c
      ∧ c.length = 64
      ∧ lookup oneFileStampedFS (Join ["dir", packageFileName])
          = .ok (.file (Marshal { Checksum := c }) a)
      ∧ a.mode = 0o644 := by
  have hstamp : createPackageFile oneFileFS "dir" = .ok oneFileStampedFS := by decide!
  obtain ⟨c, pos, a, hc, hlen, _, _, _, _, hres, hlook, _, hmode, _⟩ :=
    (createPackageFile_writes oneFileFS "dir").1 oneFileStampedFS hstamp
  have hpos : pos = ["dir", "package.json"] := by
    have h : resolve oneFileFS (Join ["dir", packageFileName])
        = .ok ["dir", "package.json"] := by decide
    rw [h] at hres
    exact (Except.ok.inj hres).symm
  subst hpos
  have ha := hmode (by decide) (by decide)
  exact ⟨hstamp, c, a, hc, hlen, hlook, by rw [ha]⟩

/-! ## What the walk feeds to the hash -/

/-- The entries of a directory that cannot be searched are passed over. -/
theorem walkNames_unsearchable (root path : String) :
    ∀ (es : List (String × Node)) (hash : List UInt8),
      walkNames root path false es hash = .ok hash
  | [], hash => by simp [walkNames]
  | (n, c) :: rest, hash => by
    simp [walkNames, walkFn, walkNames_unsearchable root path rest]

/-- The walk on a file that does not open for reading. -/
theorem walk_file_locked (root path name : String) (d : List UInt8) (a : FileAttr)
    (hash : List UInt8) (hread : a.canRead = false) :
    walk root path name (.file d a) hash = .ok hash := by
  simp only [walk, walkFn, Node.info, Node.openRead, hread]
  split_ifs <;> first | rfl | contradiction

mutual
/-- The walk on an object below a cleaned root writes the bytes of the object's tree. -/
theorem walk_contents (root : String) : ∀ (node : Node) (path name : String)
    (hash : List UInt8), cleanChars path.data = path.data →
    pathDepth root < pathDepth path →
    (node.isFile = true → ¬ (name = packageFileName ∧ Dir path = root)) →
    node.wellFormed = true → node.faultFree = true →
    walk root path name node hash = .ok (hash ++ node.contents)
  | .file d a, path, name, hash, _, _, hex, _, hff => by
    by_cases hread : a.canRead = true
    · rw [walk_file_read root path name d a hash (hex rfl) hread]
      have hf : a.readFault = false := by
        simpa [Node.faultFree, hread] using hff
      simp [hf, Node.contents, hread]
    · have hr : a.canRead = false := by simpa using hread
      rw [walk_file_locked root path name d a hash hr]
      simp [Node.contents, hr]
  | .dir es a, path, name, hash, hclean, hdepth, _, hwf, hff => by
    by_cases hl : a.canList = true
    · by_cases hs : a.canSearch = true
      · have hff' : entriesFaultFree es = true := by
          simpa [Node.faultFree, hl, hs] using hff
        have hwf' : entriesWellFormed es = true := by
          simpa [Node.wellFormed] using hwf
        have := walkNames_contents root es path hash hclean hdepth hwf' hff'
        simp [walk, walkFn, Node.info, hl, hs, Node.contents, this]
      · have hs' : a.canSearch = false := by simpa using hs
        simp [walk, walkFn, Node.info, hl, hs', Node.contents,
          walkNames_unsearchable]
    · have hl' : a.canList = false := by simpa using hl
      simp [walk, walkFn, Node.info, hl', Node.contents]
/-- The walk over the listing of a directory below a cleaned root writes the bytes of the
trees of the listing. -/
theorem walkNames_contents (root : String) : ∀ (es : List (String × Node)) (path : String)
    (hash : List UInt8), cleanChars path.data = path.data →
    pathDepth root < pathDepth path →
    entriesWellFormed es = true → entriesFaultFree es = true →
    walkNames root path true es hash = .ok (hash ++ entriesContents es)
  | [], path, hash, _, _, _, _ => by simp [walkNames, entriesContents]
  | (n, child) :: rest, path, hash, hclean, hdepth, hwf, hff => by
    simp only [entriesWellFormed, Bool.and_eq_true, decide_eq_true_eq] at hwf
    obtain ⟨⟨⟨hn, _⟩, hwc⟩, hwr⟩ := hwf
    simp only [entriesFaultFree, Bool.and_eq_true] at hff
    obtain ⟨hfc, hfr⟩ := hff
    obtain ⟨hj1, hj2, hj3⟩ := join_name_clean path n hclean hn
    have hchild := walk_contents root child (Join [path, n]) n hash hj1 (by omega)
      (by
        intro _ hex
        rw [hj2] at hex
        rw [hex.2] at hdepth
        omega) hwc hfc
    have hrest := walkNames_contents root rest path (hash ++ child.contents) hclean hdepth
      hwr hfr
    simp [walkNames, hchild, hrest, entriesContents]
end

/-- The walk over the listing of a cleaned root writes the bytes of the trees of the
listing, the sidecar file left out. -/
theorem walkNames_root (root : String) (hroot : cleanChars root.data = root.data) :
    ∀ (es : List (String × Node)) (hash : List UInt8),
    entriesWellFormed es = true → entriesFaultFree (withoutSidecar es) = true →
    walkNames root root true es hash = .ok (hash ++ entriesContents (withoutSidecar es))
  | [], hash, _, _ => by simp [walkNames, withoutSidecar, entriesContents]
  | (n, child) :: rest, hash, hwf, hff => by
    simp only [entriesWellFormed, Bool.and_eq_true, decide_eq_true_eq] at hwf
    obtain ⟨⟨⟨hn, _⟩, hwc⟩, hwr⟩ := hwf
    by_cases hex : n = packageFileName ∧ child.isFile = true
    · obtain ⟨hname, hfile⟩ := hex
      subst hname
      have hdrop : withoutSidecar ((packageFileName, child) :: rest) = withoutSidecar rest := by
        simp [withoutSidecar, List.filter, hfile]
      rw [hdrop] at hff ⊢
      cases child with
      | dir es2 a2 => simp [Node.isFile] at hfile
      | file d a =>
        simp only [walkNames, if_true, walk_sidecar root hroot]
        exact walkNames_root root hroot rest hash hwr hff
    · have hkeep : withoutSidecar ((n, child) :: rest) = (n, child) :: withoutSidecar rest := by
        have : (decide (n = packageFileName) && child.isFile) = false := by
          by_cases h1 : n = packageFileName
          · by_cases h2 : child.isFile = true
            · exact absurd ⟨h1, h2⟩ hex
            · simp [h2]
          · simp [h1]
        simp [withoutSidecar, List.filter, this]
      rw [hkeep] at hff ⊢
      simp only [entriesFaultFree, Bool.and_eq_true] at hff
      obtain ⟨hfc, hfr⟩ := hff
      obtain ⟨hj1, hj2, hj3⟩ := join_name_clean root n hroot hn
      have hchild := walk_contents root child (Join [root, n]) n hash hj1 (by omega)
        (fun hfile hc => hex ⟨hc.1, hfile⟩) hwc hfc
      have hrest := walkNames_root root hroot rest (hash ++ child.contents) hwr hfr
      simp [walkNames, hchild, hrest, entriesContents]

/-- C12 (counterexample): `dir/sub/b.txt` holds `b` and opens for reading, but `dir/sub` can
be searched and not listed, so the walk does not reach the file: the checksum of `dir` is
the digest of `a`, the content of `dir/a.txt`, not that of `ab`. -/
theorem computeDirChecksum_misses_unlisted_file :
    ReadFile hiddenFileFS "dir/sub/b.txt" = .ok [0x62]
    ∧ computeDirChecksum hiddenFileFS "dir"
      = .ok "ca978112ca1bbdcafac231b39a23dc4da786eff8147c4e72b9807785afee48bb"
    ∧ SprintfHex (sha256 [0x61, 0x62])
      = "fb8e20fc2e4c3f248c60c39bd652f3c1347298bb977b8b4d5903b85055620603" := by
  decide!

/-- The walk of a cleaned root path that names a directory of a well-formed tree, in which
no file that the walk opens fails while it is read, writes the bytes of the tree in
traversal order, the sidecar file directly in the root left out. -/
theorem Walk_contents (fs : FS) (root : String) (P : List String)
    (es : List (String × Node)) (a : DirAttr)
    (hclean : Clean root = root)
    (hroot : resolve fs root = .ok P)
    (hdir : fs.tree.descend P = some (.dir es a))
    (hwf : entriesWellFormed es = true)
    (hff : (Node.dir (withoutSidecar es) a).faultFree = true) :
    Walk fs root = .ok (Node.dir (withoutSidecar es) a).contents := by
  have hc : cleanChars root.data = root.data := congrArg String.data hclean
  obtain ⟨hw1, hw2⟩ := Walk_dir fs root P es a hroot hdir
  rw [hw1, hw2]
  by_cases hl : a.canList = true
  · by_cases hs : a.canSearch = true
    · have hff' : entriesFaultFree (withoutSidecar es) = true := by
        simpa [Node.faultFree, hl, hs] using hff
      have := walkNames_root root hc es [] hwf hff'
      simp [hl, hs, Node.contents, this]
    · have hs' : a.canSearch = false := by simpa using hs
      simp [hl, hs', Node.contents, walkNames_unsearchable]
  · have hl' : a.canList = false := by simpa using hl
    simp [hl', Node.contents]

/-- C12 (amended): for a cleaned root path that names a directory of a well-formed tree in
which no file that the walk opens fails while it is read, `computeDirChecksum` returns the
lower-case hexadecimal SHA-256 digest of the bytes of the tree in traversal order, the
sidecar file directly in the root left out: files that open for reading below directories
that can be listed and searched contribute their content, everything else nothing. -/
theorem computeDirChecksum_contents (fs : FS) (root : String) (P : List String)
    (es : List (String × Node)) (a : DirAttr)
    (hclean : Clean root = root)
    (hroot : resolve fs root = .ok P)
    (hdir : fs.tree.descend P = some (.dir es a))
    (hwf : entriesWellFormed es = true)
    (hff : (Node.dir (withoutSidecar es) a).faultFree = true) :
    computeDirChecksum fs root
      = .ok (SprintfHex (sha256 (Node.dir (withoutSidecar es) a).contents)) := by
  have hc : cleanChars root.data = root.data := congrArg String.data hclean
  obtain ⟨hw1, hw2⟩ := Walk_dir fs root P es a hroot hdir
  -- what the walk writes to the hash
  have hwalk : Walk fs root = .ok (Node.dir (withoutSidecar es) a).contents := by
    rw [hw1, hw2]
    by_cases hl : a.canList = true
    · by_cases hs : a.canSearch = true
      · have hff' : entriesFaultFree (withoutSidecar es) = true := by
          simpa [Node.faultFree, hl, hs] using hff
        rw [if_pos hl, hs, walkNames_root root hc es [] hwf hff']
        simp [Node.contents, hl, hs]
      · have hs' : a.canSearch = false := by simpa using hs
        rw [if_pos hl, hs', walkNames_unsearchable]
        simp [Node.contents, hl, hs']
    · have hl' : a.canList = false := by simpa using hl
      simp [hl', Node.contents]
  unfold computeDirChecksum
  rw [hwalk]

/-- Witness of C12 (amended): of `dir`, which holds `a.txt`, a sidecar, and `sub` with a file
`package.json` and a file that does not open, the checksum is the digest of `ab`: the content
of `a.txt` and of `sub/package.json`. -/
theorem computeDirChecksum_contents_witness :
    computeDirChecksum nestedSidecarFS "dir"
      = .ok "fb8e20fc2e4c3f248c60c39bd652f3c1347298bb977b8b4d5903b85055620603" := by
  have h := computeDirChecksum_contents nestedSidecarFS "dir" ["dir"]
    [("a.txt", plainFile [0x61]), ("package.json", plainFile [0x78]),
      ("sub", plainDir [("package.json", plainFile [0x62]),
        ("z.txt", .file [0x7A] ⟨false, true, false, 0o200⟩)])]
    ⟨4096, true, true, true⟩ (by decide) (by decide) (by decide) (by decide) (by decide)
  have hc : SprintfHex (sha256 (Node.dir (withoutSidecar
      [("a.txt", plainFile [0x61]), ("package.json", plainFile [0x78]),
        ("sub", plainDir [("package.json", plainFile [0x62]),
          ("z.txt", .file [0x7A] ⟨false, true, false, 0o200⟩)])])
      ⟨4096, true, true, true⟩).contents)
      = "fb8e20fc2e4c3f248c60c39bd652f3c1347298bb977b8b4d5903b85055620603" := by
    decide!
  rw [hc] at h
  exact h

/-! ## The checksum as a function of the bytes -/

/-- C17: the checksum is a function of the bytes the walk feeds to the hash alone: two roots
whose walks write the same bytes have the same checksum, and, when their sidecar files read
the same, the same result of `CheckDirChecksum`; and what the walk of a cleaned root that
names a directory of a well-formed tree without read fault writes, is the concatenation of
the contents of the included files in traversal order, whatever their names and
boundaries. -/
theorem checksum_depends_on_bytes (fs fs' : FS) (root root' : String) :
    (∀ s : List UInt8, Walk fs root = .ok s → Walk fs' root' = .ok s →
      computeDirChecksum fs' root' = computeDirChecksum fs root
      ∧ (ReadFile fs' (Join [root', packageFileName])
            = ReadFile fs (Join [root, packageFileName]) →
          CheckDirChecksum fs' root' = CheckDirChecksum fs root))
    ∧ (∀ (P P' : List String) (es es' : List (String × Node)) (a a' : DirAttr),
      Clean root = root → Clean root' = root' →
      resolve fs root = .ok P → resolve fs' root' = .ok P' →
      fs.tree.descend P = some (.dir es a) → fs'.tree.descend P' = some (.dir es' a') →
      entriesWellFormed es = true → entriesWellFormed es' = true →
      (Node.dir (withoutSidecar es) a).faultFree = true →
      (Node.dir (withoutSidecar es') a').faultFree = true →
      (Node.dir (withoutSidecar es') a').contents = (Node.dir (withoutSidecar es) a).contents →
      computeDirChecksum fs' root' = computeDirChecksum fs root
      ∧ (ReadFile fs' (Join [root', packageFileName])
            = ReadFile fs (Join [root, packageFileName]) →
          CheckDirChecksum fs' root' = CheckDirChecksum fs root)) := by
  have key : ∀ s : List UInt8, Walk fs root = .ok s → Walk fs' root' = .ok s →
      computeDirChecksum fs' root' = computeDirChecksum fs root
      ∧ (ReadFile fs' (Join [root', packageFileName])
            = ReadFile fs (Join [root, packageFileName]) →
          CheckDirChecksum fs' root' = CheckDirChecksum fs root) := by
    intro s h h'
    have hc : computeDirChecksum fs' root' = computeDirChecksum fs root := by
      simp [computeDirChecksum, h, h']
    refine ⟨hc, ?_⟩
    intro hr
    simp [CheckDirChecksum, hr, hc]
  refine ⟨key, ?_⟩
  intro P P' es es' a a' hclean hclean' hroot hroot' hdir hdir' hwf hwf' hff hff' hsame
  have h := Walk_contents fs root P es a hclean hroot hdir hwf hff
  have h' := Walk_contents fs' root' P' es' a' hclean' hroot' hdir' hwf' hff'
  rw [hsame] at h'
  exact key _ h h'

/-- Instances of C17: a directory with the files `a` = `ab` and `b` = `c`, stamped, verifies;
and so it does with the contents `a` and `bc`, with the files named `c` and `d`, and with an
empty file `e` added. -/
theorem checksum_depends_on_bytes_witness :
    CheckDirChecksum (filesFS [("a", [0x61, 0x62]), ("b", [0x63])] abcSidecar) "dir" = .ok true
    ∧ CheckDirChecksum (filesFS [("a", [0x61]), ("b", [0x62, 0x63])] abcSidecar) "dir"
      = .ok true
    ∧ CheckDirChecksum (filesFS [("c", [0x61, 0x62]), ("d", [0x63])] abcSidecar) "dir"
      = .ok true
    ∧ CheckDirChecksum (filesFS [("a", [0x61, 0x62]), ("b", [0x63]), ("e", [])] abcSidecar)
        "dir" = .ok true := by
  have h0 : CheckDirChecksum (filesFS [("a", [0x61, 0x62]), ("b", [0x63])] abcSidecar) "dir"
      = .ok true := by decide!
  have hw : Walk (filesFS [("a", [0x61, 0x62]), ("b", [0x63])] abcSidecar) "dir"
      = .ok [0x61, 0x62, 0x63] := by decide
  refine ⟨h0, ?_, ?_, ?_⟩
  · rw [← h0]
    exact ((checksum_depends_on_bytes _ _ "dir" "dir").1 [0x61, 0x62, 0x63] hw
      (by decide)).2 (by decide)
  · rw [← h0]
    exact ((checksum_depends_on_bytes _ _ "dir" "dir").1 [0x61, 0x62, 0x63] hw
      (by decide)).2 (by decide)
  · rw [← h0]
    exact ((checksum_depends_on_bytes _ _ "dir" "dir").2 ["dir"] ["dir"]
      [("a", plainFile [0x61, 0x62]), ("b", plainFile [0x63]),
        ("package.json", plainFile abcSidecar)]
      [("a", plainFile [0x61, 0x62]), ("b", plainFile [0x63]), ("e", plainFile []),
        ("package.json", plainFile abcSidecar)]
      ⟨4096, true, true, true⟩ ⟨4096, true, true, true⟩
      (by decide) (by decide) (by decide) (by decide) (by decide) (by decide)
      (by decide) (by decide) (by decide) (by decide) (by decide)).2 (by decide)

end Releases

/-! ## Semantic versions: order and printing -/

namespace Semver
open Releases (ltChars cutAt splitNChars)

theorem ltChars_irrefl : ∀ (a : List Char), ltChars a a = false
  | [] => rfl
  | c :: cs => by simp [ltChars, ltChars_irrefl cs]

theorem ltChars_asymm : ∀ (a b : List Char), ltChars a b = true → ltChars b a = false
  | _, [], h => by simp [ltChars] at h
  | [], _ :: _, _ => rfl
  | c :: cs, d :: ds, h => by
    simp only [ltChars, Bool.or_eq_true, decide_eq_true_eq, Bool.and_eq_true] at h
    simp only [ltChars, Bool.or_eq_false_iff, decide_eq_false_iff_not, Bool.and_eq_false_iff]
    rcases h with h | ⟨h1, h2⟩
    · refine ⟨by omega, Or.inl ?_⟩
      intro e
      subst e
      omega
    · subst h1
      exact ⟨by omega, Or.inr (ltChars_asymm cs ds h2)⟩

theorem ltChars_trans : ∀ (a b d : List Char), ltChars a b = true → ltChars b d = true →
    ltChars a d = true
  | _, _, [], _, h => by simp [ltChars] at h
  | _, [], _ :: _, h, _ => by simp [ltChars] at h
  | [], _ :: _, _ :: _, _, _ => rfl
  | x :: xs, y :: ys, z :: zs, h1, h2 => by
    simp only [ltChars, Bool.or_eq_true, decide_eq_true_eq, Bool.and_eq_true] at h1 h2 ⊢
    rcases h1 with h1 | ⟨e1, h1⟩
    · rcases h2 with h2 | ⟨e2, h2⟩
      · exact Or.inl (by omega)
      · subst e2
        exact Or.inl h1
    · subst e1
      rcases h2 with h2 | ⟨e2, h2⟩
      · exact Or.inl h2
      · exact Or.inr ⟨e2, ltChars_trans xs ys zs h1 h2⟩

theorem char_eq_of_toNat_eq (c d : Char) (h : c.toNat = d.toNat) : c = d := by
  apply Char.ext
  apply UInt32.ext
  exact h

theorem ltChars_total : ∀ (a b : List Char), a ≠ b → ltChars a b = true ∨ ltChars b a = true
  | [], [], h => absurd rfl h
  | [], _ :: _, _ => Or.inl rfl
  | _ :: _, [], _ => Or.inr rfl
  | c :: cs, d :: ds, h => by
    simp only [ltChars, Bool.or_eq_true, decide_eq_true_eq, Bool.and_eq_true]
    rcases Nat.lt_trichotomy c.toNat d.toNat with hlt | heq | hgt
    · exact Or.inl (Or.inl hlt)
    · have e := char_eq_of_toNat_eq c d heq
      subst e
      have hne : cs ≠ ds := fun e => h (by rw [e])
      rcases ltChars_total cs ds hne with h1 | h1
      · exact Or.inl (Or.inr ⟨rfl, h1⟩)
      · exact Or.inr (Or.inr ⟨rfl, h1⟩)
    · exact Or.inr (Or.inl hgt)

theorem isComparison_compareNat : IsComparison compareNat := by
  refine ⟨?_, ?_, ?_, ?_⟩
  · intro a b
    unfold compareNat
    split_ifs <;> simp
  · intro a b
    unfold compareNat
    split_ifs <;> first | rfl | omega
  · intro a b d h
    unfold compareNat at h ⊢
    split_ifs at h ⊢ <;> first | rfl | omega
  · intro a b d h1 h2
    unfold compareNat at h1 h2 ⊢
    split_ifs at h1 h2 ⊢ <;> first | rfl | omega

theorem compareStr_eq_one (a b : String) :
    compareStr a b = 1 ↔ ltChars b.data a.data = true := by
  unfold compareStr
  by_cases h : a = b
  · subst h
    simp [ltChars_irrefl]
  · by_cases h2 : ltChars b.data a.data = true
    · simp [h, h2]
    · simp [h, h2]

theorem compareStr_eq_zero (a b : String) : compareStr a b = 0 ↔ a = b := by
  unfold compareStr
  by_cases h : a = b
  · simp [h]
  · by_cases h2 : ltChars b.data a.data = true
    · simp [h, h2]
    · simp [h, h2]

theorem isComparison_compareStr : IsComparison compareStr := by
  have hrange : ∀ a b, compareStr a b = -1 ∨ compareStr a b = 0 ∨ compareStr a b = 1 := by
    intro a b
    unfold compareStr
    split_ifs <;> simp
  refine ⟨hrange, ?_, ?_, ?_⟩
  · intro a b
    by_cases h : a = b
    · subst h
      simp [compareStr]
    · have hd : a.data ≠ b.data := fun e => h (String.ext e)
      have h' : b ≠ a := fun e => h e.symm
      rcases ltChars_total a.data b.data hd with h1 | h1
      · have h2 := ltChars_asymm _ _ h1
        simp [compareStr, h, h', h1, h2]
      · have h2 := ltChars_asymm _ _ h1
        simp [compareStr, h, h', h1, h2]
  · intro a b d h
    rw [(compareStr_eq_zero a b).mp h]
  · intro a b d h1 h2
    rw [compareStr_eq_one] at h1 h2 ⊢
    exact ltChars_trans _ _ _ h2 h1

theorem IsComparison.refl {α : Type} {c : α → α → Int} (h : IsComparison c) (a : α) :
    c a a = 0 := by
  have := h.2.1 a a
  omega

/-- An element greater than one that is not below a third is greater than the third. -/
theorem IsComparison.gt_of_gt_of_ge {α : Type} {c : α → α → Int} (h : IsComparison c)
    (a b d : α) (h1 : c a b = 1) (h2 : 0 ≤ c b d) : c a d = 1 := by
  obtain ⟨hr, hs, hc, ht⟩ := h
  rcases hr b d with h3 | h3 | h3
  · omega
  · have h4 : c d b = 0 := by rw [hs b d, h3]; rfl
    have h5 := hc d b a h4
    rw [hs a d, hs a b] at h5
    omega
  · exact ht a b d h1 h3

theorem isComparison_prCompare : IsComparison PRVersion.Compare := by
  obtain ⟨n1, n2, n3, n4⟩ := isComparison_compareNat
  obtain ⟨s1, s2, s3, s4⟩ := isComparison_compareStr
  refine ⟨?_, ?_, ?_, ?_⟩
  · intro a b
    cases ha : a.IsNum <;> cases hb : b.IsNum <;> simp [PRVersion.Compare, ha, hb]
    · exact s1 _ _
    · exact n1 _ _
  · intro a b
    cases ha : a.IsNum <;> cases hb : b.IsNum <;> simp [PRVersion.Compare, ha, hb]
    · exact s2 _ _
    · exact n2 _ _
  · intro a b d h
    cases ha : a.IsNum <;> cases hb : b.IsNum <;> cases hd : d.IsNum <;>
      simp [PRVersion.Compare, ha, hb, hd] at h ⊢
    · exact s3 _ _ _ h
    · exact n3 _ _ _ h
  · intro a b d h1 h2
    cases ha : a.IsNum <;> cases hb : b.IsNum <;> cases hd : d.IsNum <;>
      simp [PRVersion.Compare, ha, hb, hd] at h1 h2 ⊢
    · exact s4 _ _ _ h1 h2
    · exact n4 _ _ _ h1 h2

theorem comparePre_range : ∀ (a b : List PRVersion),
    comparePre a b = -1 ∨ comparePre a b = 0 ∨ comparePre a b = 1
  | [], [] => by simp [comparePre]
  | [], _ :: _ => by simp [comparePre]
  | _ :: _, [] => by simp [comparePre]
  | x :: xs, y :: ys => by
    simp only [comparePre]
    split_ifs
    · exact comparePre_range xs ys
    · simp
    · simp

theorem comparePre_swap : ∀ (a b : List PRVersion), comparePre b a = - comparePre a b
  | [], [] => rfl
  | [], _ :: _ => rfl
  | _ :: _, [] => rfl
  | x :: xs, y :: ys => by
    have hs := isComparison_prCompare.2.1 x y
    have hr := isComparison_prCompare.1 x y
    simp only [comparePre]
    rcases hr with h | h | h
    · have h' : y.Compare x = 1 := by rw [hs, h]; rfl
      simp [h, h']
    · have h' : y.Compare x = 0 := by rw [hs, h]; rfl
      simp [h, h', comparePre_swap xs ys]
    · have h' : y.Compare x = -1 := by rw [hs, h]
      simp [h, h']

theorem comparePre_congr : ∀ (a b d : List PRVersion), comparePre a b = 0 →
    comparePre a d = comparePre b d
  | [], [], _, _ => rfl
  | [], _ :: _, _, h => by simp [comparePre] at h
  | _ :: _, [], _, h => by simp [comparePre] at h
  | x :: xs, y :: ys, [], _ => rfl
  | x :: xs, y :: ys, z :: zs, h => by
    simp only [comparePre] at h
    have hxy : x.Compare y = 0 := by
      by_contra hne
      rw [if_neg hne] at h
      split_ifs at h
      all_goals omega
    rw [if_pos hxy] at h
    have hc := isComparison_prCompare.2.2.1 x y z hxy
    simp only [comparePre, hc]
    rw [comparePre_congr xs ys zs h]

theorem comparePre_trans : ∀ (a b d : List PRVersion), comparePre a b = 1 →
    comparePre b d = 1 → comparePre a d = 1
  | [], [], _, h, _ => by simp [comparePre] at h
  | [], _ :: _, _, h, _ => by simp [comparePre] at h
  | _ :: _, [], [], _, h => by simp [comparePre] at h
  | _ :: _, [], _ :: _, _, h => by simp [comparePre] at h
  | _ :: _, _ :: _, [], _, _ => rfl
  | x :: xs, y :: ys, z :: zs, h1, h2 => by
    have hP := isComparison_prCompare
    simp only [comparePre] at h1 h2 ⊢
    by_cases hxy : x.Compare y = 0
    · rw [if_pos hxy] at h1
      have hc := hP.2.2.1 x y z hxy
      rw [hc]
      by_cases hyz : y.Compare z = 0
      · rw [if_pos hyz] at h2 ⊢
        exact comparePre_trans xs ys zs h1 h2
      · rw [if_neg hyz] at h2 ⊢
        exact h2
    · rw [if_neg hxy] at h1
      have hxy1 : x.Compare y = 1 := by
        by_contra hne
        rw [if_neg hne] at h1
        cases h1
      have hyz : 0 ≤ y.Compare z := by
        by_cases hyz0 : y.Compare z = 0
        · omega
        · rw [if_neg hyz0] at h2
          by_cases hyz1 : y.Compare z = 1
          · omega
          · rw [if_neg hyz1] at h2
            cases h2
      have hxz := hP.gt_of_gt_of_ge x y z hxy1 hyz
      simp [hxz]

theorem isComparison_comparePre : IsComparison comparePre :=
  ⟨comparePre_range, comparePre_swap, comparePre_congr, comparePre_trans⟩

theorem isComparison_compareRelease : IsComparison compareRelease := by
  obtain ⟨p1, p2, p3, p4⟩ := isComparison_comparePre
  refine ⟨?_, ?_, ?_, ?_⟩
  · intro a b
    cases a <;> cases b <;> simp [compareRelease]
    exact p1 _ _
  · intro a b
    cases a <;> cases b <;> simp [compareRelease]
    exact p2 _ _
  · intro a b d h
    cases a <;> cases b <;> cases d <;> simp [compareRelease] at h ⊢
    exact p3 _ _ _ h
  · intro a b d h1 h2
    cases a <;> cases b <;> cases d <;> simp [compareRelease] at h1 h2 ⊢
    exact p4 _ _ _ h1 h2

theorem isComparison_lexCompare {α β : Type} {c1 : α → α → Int} {c2 : β → β → Int}
    (h1 : IsComparison c1) (h2 : IsComparison c2) : IsComparison (lexCompare c1 c2) := by
  obtain ⟨a1, a2, a3, a4⟩ := h1
  obtain ⟨b1, b2, b3, b4⟩ := h2
  refine ⟨?_, ?_, ?_, ?_⟩
  · intro p q
    unfold lexCompare
    split_ifs
    · exact b1 _ _
    · exact a1 _ _
  · intro p q
    unfold lexCompare
    have := a2 p.1 q.1
    split_ifs with h h' h'
    · exact b2 _ _
    · omega
    · omega
    · exact this
  · intro p q r h
    unfold lexCompare at h ⊢
    by_cases hpq : c1 p.1 q.1 = 0
    · rw [if_pos hpq] at h
      rw [a3 p.1 q.1 r.1 hpq, b3 p.2 q.2 r.2 h]
    · rw [if_neg hpq] at h
      exact absurd h hpq
  · intro p q r h h'
    have hA : IsComparison c1 := ⟨a1, a2, a3, a4⟩
    unfold lexCompare at h h' ⊢
    by_cases hpq : c1 p.1 q.1 = 0
    · rw [if_pos hpq] at h
      rw [a3 p.1 q.1 r.1 hpq]
      by_cases hqr : c1 q.1 r.1 = 0
      · rw [if_pos hqr] at h' ⊢
        exact b4 _ _ _ h h'
      · rw [if_neg hqr] at h' ⊢
        exact h'
    · rw [if_neg hpq] at h
      have hqr : 0 ≤ c1 q.1 r.1 := by
        by_cases hqr0 : c1 q.1 r.1 = 0
        · omega
        · rw [if_neg hqr0] at h'
          omega
      have hpr := hA.gt_of_gt_of_ge p.1 q.1 r.1 h hqr
      rw [hpr]
      simp

theorem compare_eq_lexCompare (v o : Version) :
    v.Compare o
      = lexCompare compareNat (lexCompare compareNat (lexCompare compareNat compareRelease))
          v.key o.key := by
  unfold Version.Compare Version.key
  by_cases h1 : v.Major = o.Major
  · by_cases h2 : v.Minor = o.Minor
    · by_cases h3 : v.Patch = o.Patch
      · simp [lexCompare, compareNat, h1, h2, h3]
      · by_cases g3 : v.Patch > o.Patch <;> simp [lexCompare, compareNat, h1, h2, h3, g3]
    · by_cases g2 : v.Minor > o.Minor <;> simp [lexCompare, compareNat, h1, h2, g2]
  · by_cases g1 : v.Major > o.Major <;> simp [lexCompare, compareNat, h1, g1]

theorem isComparison_compare : IsComparison Version.Compare := by
  have hL := isComparison_lexCompare isComparison_compareNat
    (isComparison_lexCompare isComparison_compareNat
      (isComparison_lexCompare isComparison_compareNat isComparison_compareRelease))
  obtain ⟨l1, l2, l3, l4⟩ := hL
  refine ⟨?_, ?_, ?_, ?_⟩
  · intro a b
    rw [compare_eq_lexCompare]
    exact l1 _ _
  · intro a b
    rw [compare_eq_lexCompare, compare_eq_lexCompare]
    exact l2 _ _
  · intro a b d h
    rw [compare_eq_lexCompare] at h ⊢
    rw [compare_eq_lexCompare]
    exact l3 _ _ _ h
  · intro a b d h1 h2
    rw [compare_eq_lexCompare] at h1 h2 ⊢
    exact l4 _ _ _ h1 h2

theorem digit_facts : ∀ c ∈ numbers,
    digitValue c < 10 ∧ digitChar (digitValue c) = c ∧ (c ≠ '0' → 1 ≤ digitValue c) := by
  decide

theorem containsOnly_append (s t set : List Char) :
    containsOnly (s ++ t) set = (containsOnly s set && containsOnly t set) := by
  simp [containsOnly]

theorem containsOnly_cons (c : Char) (t set : List Char) :
    containsOnly (c :: t) set = (decide (c ∈ set) && containsOnly t set) := by
  simp [containsOnly]

/-- The value of a string of digits after one more digit. -/
theorem foldl_digits_snoc (t : List Char) (d : Char) (acc : Nat) :
    (t ++ [d]).foldl (fun acc c => acc * 10 + digitValue c) acc
      = t.foldl (fun acc c => acc * 10 + digitValue c) acc * 10 + digitValue d := by
  simp [List.foldl_append]

theorem foldl_digits_pos : ∀ (t : List Char) (acc : Nat), 1 ≤ acc →
    1 ≤ t.foldl (fun acc c => acc * 10 + digitValue c) acc
  | [], acc, h => h
  | c :: t, acc, h => by
    simp only [List.foldl_cons]
    exact foldl_digits_pos t _ (by omega)

/-- Printing the value of a string of digits without leading zero gives the string. -/
theorem formatDigits_foldl (s : List Char) : containsOnly s numbers = true → s ≠ [] →
    hasLeadingZeroes s = false → ∀ fuel : Nat,
    s.foldl (fun acc c => acc * 10 + digitValue c) 0 < fuel →
    formatDigits fuel (s.foldl (fun acc c => acc * 10 + digitValue c) 0) = s := by
  induction s using List.reverseRecOn with
  | nil => intro _ h; exact absurd rfl h
  | append_singleton t d ih =>
    intro hdig _ hlead fuel hfuel
    rw [containsOnly_append, Bool.and_eq_true] at hdig
    obtain ⟨hdt, hdd⟩ := hdig
    have hd : d ∈ numbers := by simpa [containsOnly] using hdd
    obtain ⟨hv, hc, _⟩ := digit_facts d hd
    rw [foldl_digits_snoc] at hfuel ⊢
    cases fuel with
    | zero => omega
    | succ k =>
      cases t with
      | nil =>
        simp only [List.foldl_nil, Nat.zero_mul, Nat.zero_add, List.nil_append]
        simp [formatDigits, hv, hc]
      | cons c t' =>
        have hcn : c ∈ numbers := by
          rw [containsOnly_cons, Bool.and_eq_true] at hdt
          simpa using hdt.1
        have hc0 : c ≠ '0' := by
          intro e
          subst e
          simp [hasLeadingZeroes] at hlead
        have hpos : 1 ≤ (c :: t').foldl (fun acc c => acc * 10 + digitValue c) 0 := by
          simp only [List.foldl_cons, Nat.zero_mul, Nat.zero_add]
          exact foldl_digits_pos t' _ ((digit_facts c hcn).2.2 hc0)
        have hlead' : hasLeadingZeroes (c :: t') = false := by
          simp [hasLeadingZeroes, hc0]
        have ih' := ih hdt (by simp) hlead' k (by omega)
        have hge : ¬ ((c :: t').foldl (fun acc c => acc * 10 + digitValue c) 0 * 10
            + digitValue d < 10) := by omega
        have hdiv : ((c :: t').foldl (fun acc c => acc * 10 + digitValue c) 0 * 10
            + digitValue d) / 10 = (c :: t').foldl (fun acc c => acc * 10 + digitValue c) 0 := by
          omega
        have hmod : ((c :: t').foldl (fun acc c => acc * 10 + digitValue c) 0 * 10
            + digitValue d) % 10 = digitValue d := by omega
        rw [formatDigits, if_neg hge, hdiv, hmod, ih', hc]

/-- A number that `ParseUint` reads from a string of digits without leading zero is printed
as that string. -/
theorem FormatUint_ParseUint (s : List Char) (n : Nat) (hlead : hasLeadingZeroes s = false)
    (h : ParseUint s = some n) : FormatUint n = s := by
  unfold ParseUint at h
  by_cases hc : s = [] ∨ containsOnly s numbers = false
  · simp [hc] at h
  · rw [if_neg hc] at h
    simp only at h
    split_ifs at h
    simp only [Option.some.injEq] at h
    subst h
    have hne : s ≠ [] := fun e => hc (Or.inl e)
    have hdig : containsOnly s numbers = true := by
      by_contra e
      exact hc (Or.inr (by simpa using e))
    exact formatDigits_foldl s hdig hne hlead _ (by omega)

theorem FormatUint_parseNumber (s : List Char) (n : Nat) (h : parseNumber s = some n) :
    FormatUint n = s := by
  unfold parseNumber at h
  split_ifs at h with h1 h2
  exact FormatUint_ParseUint s n (by simpa using h2) h

theorem Split_ne_nil (sep : Char) : ∀ (s : List Char), Split sep s ≠ []
  | [] => by simp [Split]
  | c :: cs => by
    unfold Split
    split_ifs
    · simp
    · cases h : Split sep cs <;> simp

/-- Joining what `Split` gives by the separator gives the string back. -/
theorem joinWith_Split (sep : Char) : ∀ (s : List Char), joinWith sep (Split sep s) = s
  | [] => rfl
  | c :: cs => by
    have ih := joinWith_Split sep cs
    unfold Split
    by_cases hc : c = sep
    · rw [if_pos hc]
      cases h : Split sep cs with
      | nil => exact absurd h (Split_ne_nil sep cs)
      | cons a rest =>
        rw [h] at ih
        simp [joinWith, ih, hc]
    · rw [if_neg hc]
      cases h : Split sep cs with
      | nil => exact absurd h (Split_ne_nil sep cs)
      | cons a rest =>
        rw [h] at ih
        cases rest with
        | nil =>
          simp only [joinWith] at ih ⊢
          rw [ih]
        | cons b rest' =>
          simp only [joinWith] at ih ⊢
          rw [← ih]
          simp

/-- A string is what `cutAt` finds before the separator, the separator and the rest. -/
theorem cutAt_some (sep : Char) : ∀ (s r : List Char), (cutAt sep s).2 = some r →
    s = (cutAt sep s).1 ++ sep :: r
  | [], r, h => by simp [cutAt] at h
  | c :: cs, r, h => by
    by_cases hc : c = sep
    · simp only [cutAt, if_pos hc, Option.some.injEq] at h
      simp [cutAt, hc, h]
    · simp only [cutAt, if_neg hc] at h
      have ih := cutAt_some sep cs r h
      simp only [cutAt, if_neg hc, List.cons_append]
      rw [← ih]

/-- A string split in three is its parts with the separator between them. -/
theorem splitNChars_three (sep : Char) (s a b c : List Char)
    (h : splitNChars sep 3 s = [a, b, c]) : s = a ++ sep :: (b ++ sep :: c) := by
  simp only [splitNChars] at h
  rcases h1 : (cutAt sep s).2 with _ | r1
  · simp [h1] at h
  · simp only [h1] at h
    rcases h2 : (cutAt sep r1).2 with _ | r2
    · simp [h2] at h
    · simp only [h2, List.cons.injEq, and_true] at h
      obtain ⟨ha, hb, hc⟩ := h
      have e1 := cutAt_some sep s r1 h1
      have e2 := cutAt_some sep r1 r2 h2
      rw [ha] at e1
      rw [hb, hc] at e2
      rw [e1, e2]

theorem String_NewPRVersion (s : List Char) (p : PRVersion) (h : NewPRVersion s = some p) :
    p.String = s := by
  unfold NewPRVersion at h
  split_ifs at h with h0 h1 h2 h3
  · rcases hp : ParseUint s with _ | num
    · simp [hp] at h
    · simp only [hp, Option.some.injEq] at h
      subst h
      simp only [PRVersion.String, if_true]
      exact FormatUint_ParseUint s num (by simpa using h2) hp
  · simp only [Option.some.injEq] at h
    subst h
    simp [PRVersion.String]

theorem map_String_parsePre : ∀ (l : List (List Char)) (ps : List PRVersion),
    parsePre l = some ps → ps.map PRVersion.String = l
  | [], ps, h => by
    simp only [parsePre, Option.some.injEq] at h
    subst h
    rfl
  | s :: rest, ps, h => by
    simp only [parsePre] at h
    rcases h1 : NewPRVersion s with _ | p
    · simp [h1] at h
    · rcases h2 : parsePre rest with _ | ps'
      · simp [h1, h2] at h
      · simp only [h1, h2, Option.some.injEq] at h
        subst h
        simp [String_NewPRVersion s p h1, map_String_parsePre rest ps' h2]

theorem map_data_parseBuild : ∀ (l : List (List Char)) (bs : List String),
    parseBuild l = some bs → bs.map String.data = l
  | [], bs, h => by
    simp only [parseBuild, Option.some.injEq] at h
    subst h
    rfl
  | s :: rest, bs, h => by
    simp only [parseBuild] at h
    split_ifs at h
    rcases h2 : parseBuild rest with _ | bs'
    · simp [h2] at h
    · simp only [h2, Option.some.injEq] at h
      subst h
      simp [map_data_parseBuild rest bs' h2]

/-- What `Parse` makes of the part of a version string after its second dot. -/
theorem parse_rest (rest : List Char) (patch : Nat) (pre : List PRVersion)
    (bld : List String)
    (hpatch : parseNumber (match (cutAt '-' (match (cutAt '+' rest).2 with
          | some _ => (cutAt '+' rest).1
          | none => rest)).2 with
        | some _ => (cutAt '-' (match (cutAt '+' rest).2 with
          | some _ => (cutAt '+' rest).1
          | none => rest)).1
        | none => (match (cutAt '+' rest).2 with
          | some _ => (cutAt '+' rest).1
          | none => rest)) = some patch)
    (hpre : parsePre (match (cutAt '-' (match (cutAt '+' rest).2 with
          | some _ => (cutAt '+' rest).1
          | none => rest)).2 with
        | some p => Split '.' p
        | none => []) = some pre)
    (hbld : parseBuild (match (cutAt '+' rest).2 with
        | some b => Split '.' b
        | none => []) = some bld) :
    FormatUint patch
      ++ (if pre.length > 0 then '-' :: joinWith '.' (pre.map PRVersion.String) else [])
      ++ (if bld.length > 0 then '+' :: joinWith '.' (bld.map String.data) else [])
      = rest := by
  -- the build meta data
  have hb : ∃ rest1, (match (cutAt '+' rest).2 with
        | some _ => (cutAt '+' rest).1
        | none => rest) = rest1
      ∧ rest1 ++ (if bld.length > 0 then '+' :: joinWith '.' (bld.map String.data) else [])
        = rest := by
    rcases hplus : (cutAt '+' rest).2 with _ | b
    · simp only [hplus] at hbld
      simp only [parseBuild, Option.some.injEq] at hbld
      subst hbld
      exact ⟨rest, rfl, by simp⟩
    · simp only [hplus] at hbld
      have hm := map_data_parseBuild _ _ hbld
      have hlen : bld.length > 0 := by
        have := congrArg List.length hm
        have hne := Split_ne_nil '.' b
        rw [List.length_map] at this
        have : (Split '.' b).length > 0 := List.length_pos.mpr hne
        omega
      refine ⟨(cutAt '+' rest).1, rfl, ?_⟩
      rw [if_pos hlen, hm, joinWith_Split]
      exact (cutAt_some '+' rest b hplus).symm
  obtain ⟨rest1, hr1, hrest⟩ := hb
  rw [hr1] at hpatch hpre
  -- the pre-release
  have hp : FormatUint patch
      ++ (if pre.length > 0 then '-' :: joinWith '.' (pre.map PRVersion.String) else [])
      = rest1 := by
    rcases hminus : (cutAt '-' rest1).2 with _ | p
    · simp only [hminus] at hpre hpatch
      simp only [parsePre, Option.some.injEq] at hpre
      subst hpre
      simp [FormatUint_parseNumber _ _ hpatch]
    · simp only [hminus] at hpre hpatch
      have hm := map_String_parsePre _ _ hpre
      have hlen : pre.length > 0 := by
        have := congrArg List.length hm
        have hne := Split_ne_nil '.' p
        rw [List.length_map] at this
        have : (Split '.' p).length > 0 := List.length_pos.mpr hne
        omega
      rw [if_pos hlen, hm, joinWith_Split, FormatUint_parseNumber _ _ hpatch]
      exact (cutAt_some '-' rest1 p hminus).symm
  rw [hp, hrest]

/-- A version that `Parse` reads from a string is printed as that string. -/
theorem String_Parse (s : String) (v : Version) (h : Parse s = some v) : v.String = s := by
  unfold Parse at h
  split_ifs at h with h0
  split at h
  · rename_i majorStr minorStr rest hsplit
    split at h
    · rename_i major minor hmaj hmin
      simp only at h
      split at h
      · rename_i patch pre bld hpatch hpre hbld
        simp only [Option.some.injEq] at h
        subst h
        have h3 := splitNChars_three '.' s.data majorStr minorStr rest hsplit
        have hr := parse_rest rest patch pre bld hpatch hpre hbld
        apply String.ext
        simp only [Version.String]
        rw [FormatUint_parseNumber _ _ hmaj, FormatUint_parseNumber _ _ hmin, h3]
        simp only [List.append_assoc, List.cons_append] at hr ⊢
        rw [hr]
      · cases h
    · cases h
  · cases h

theorem IsComparison.ge_trans {α : Type} {c : α → α → Int} (h : IsComparison c)
    (a b d : α) (h1 : 0 ≤ c a b) (h2 : 0 ≤ c b d) : 0 ≤ c a d := by
  rcases h.1 a b with h3 | h3 | h3
  · omega
  · rw [h.2.2.1 a b d h3]
    exact h2
  · rw [h.gt_of_gt_of_ge a b d h3 h2]
    decide

theorem IsComparison.ge_of_not_gt {α : Type} {c : α → α → Int} (h : IsComparison c)
    (a b : α) (h1 : c a b ≠ 1) : 0 ≤ c b a := by
  have hs := h.2.1 a b
  rcases h.1 a b with h3 | h3 | h3 <;> omega

end Semver

/-! ## The latest release of a core -/

namespace Cores
open Semver

/-- The maximum the loop of `latestVersion` ends with is one of the versions, and none of
them is greater. -/
theorem maxVersion_spec : ∀ (l : List Version) (max : Version),
    maxVersion max l ∈ max :: l
    ∧ ∀ w ∈ max :: l, 0 ≤ (maxVersion max l).Compare w
  | [], max => by
    simp [maxVersion, isComparison_compare.refl max]
  | v :: rest, max => by
    have hC := isComparison_compare
    unfold maxVersion
    by_cases hgt : v.GT max = true
    · rw [if_pos hgt]
      obtain ⟨hmem, hge⟩ := maxVersion_spec rest v
      have hvm : v.Compare max = 1 := by simpa [Version.GT] using hgt
      refine ⟨?_, ?_⟩
      · simp only [List.mem_cons] at hmem ⊢
        rcases hmem with h | h
        · exact Or.inr (Or.inl h)
        · exact Or.inr (Or.inr h)
      · intro w hw
        simp only [List.mem_cons] at hw
        rcases hw with h | h | h
        · subst h
          exact hC.ge_trans _ v _ (hge v (by simp)) (by omega)
        · exact hge w (by simp [h])
        · exact hge w (by simp [h])
    · rw [if_neg hgt]
      obtain ⟨hmem, hge⟩ := maxVersion_spec rest max
      have hvm : v.Compare max ≠ 1 := by simpa [Version.GT] using hgt
      refine ⟨?_, ?_⟩
      · simp only [List.mem_cons] at hmem ⊢
        rcases hmem with h | h
        · exact Or.inl h
        · exact Or.inr (Or.inr h)
      · intro w hw
        simp only [List.mem_cons] at hw
        rcases hw with h | h | h
        · exact hge w (by simp [h])
        · subst h
          exact hC.ge_trans _ max _ (hge max (by simp)) (hC.ge_of_not_gt w max hvm)
        · exact hge w (by simp [h])

/-- The versions of `Versions` are those the version strings of the releases parse to. -/
theorem mem_versionsOf (v : Version) : ∀ (rs : List (String × Release)),
    v ∈ versionsOf rs ↔ ∃ kr ∈ rs, Make kr.2.Version = some v
  | [] => by simp [versionsOf]
  | (k, r) :: rest => by
    have ih := mem_versionsOf v rest
    unfold versionsOf
    rcases hm : Make r.Version with _ | t
    · simp [hm, ih]
    · simp only [hm, List.mem_cons, ih]
      constructor
      · rintro (h | ⟨kr, hkr, hv⟩)
        · exact ⟨(k, r), Or.inl rfl, by rw [hm, h]⟩
        · exact ⟨kr, Or.inr hkr, hv⟩
      · rintro ⟨kr, hkr | hkr, hv⟩
        · subst hkr
          rw [hm] at hv
          exact Or.inl (Option.some.inj hv).symm
        · exact Or.inr ⟨kr, hkr, hv⟩

/-- A key that is in the map has a value, which the map holds under the key. -/
theorem mapGet_of_mem (key : String) : ∀ (rs : List (String × Release)),
    (∃ kr ∈ rs, kr.1 = key) → ∃ r, mapGet key rs = some r ∧ (key, r) ∈ rs
  | [], h => by simp at h
  | (k, r) :: rest, h => by
    unfold mapGet
    by_cases hk : k = key
    · subst hk
      exact ⟨r, by simp, by simp⟩
    · rw [if_neg hk]
      have h' : ∃ kr ∈ rest, kr.1 = key := by
        obtain ⟨kr, hmem, hkey⟩ := h
        simp only [List.mem_cons] at hmem
        rcases hmem with e | hmem
        · subst e
          exact absurd hkey hk
        · exact ⟨kr, hmem, hkey⟩
      obtain ⟨r', h1, h2⟩ := mapGet_of_mem key rest h'
      exact ⟨r', h1, by simp [h2]⟩

/-- C15 (counterexample): the only release of the core has the version `1.0.0`, which
parses, and is stored under the label `stable`; `Latest` returns nil. -/
theorem latest_nil_under_label :
    (Make "1.0.0").isSome = true
    ∧ (coreOf [("stable", releaseOf "1.0.0")]).latestVersion = "1.0.0"
    ∧ (coreOf [("stable", releaseOf "1.0.0")]).Latest = none := by
  decide

/-- C15 (amended): in a core whose map holds every release under its version string, and in
which the version string of a release parses, `Latest` returns a release of the core whose
version string parses to a version that is greater than or equal to the version of every
release whose version string parses. -/
theorem latest_is_greatest (core : Core)
    (hkeys : ∀ kr ∈ core.Releases, kr.1 = kr.2.Version)
    (hparse : ∃ kr ∈ core.Releases, (Make kr.2.Version).isSome = true) :
    ∃ (r : Release) (v : Version), core.Latest = some r
      ∧ (r.Version, r) ∈ core.Releases
      ∧ Make r.Version = some v
      ∧ ∀ kr ∈ core.Releases, ∀ w : Version, Make kr.2.Version = some w → v.GTE w = true := by
  obtain ⟨kr0, hkr0, hsome⟩ := hparse
  obtain ⟨v0, hv0⟩ := Option.isSome_iff_exists.mp hsome
  have hmem0 : v0 ∈ core.Versions := (mem_versionsOf v0 core.Releases).mpr ⟨kr0, hkr0, hv0⟩
  rcases hvs : core.Versions with _ | ⟨first, rest⟩
  · rw [hvs] at hmem0
    cases hmem0
  · obtain ⟨hmax, hge⟩ := maxVersion_spec rest first
    rw [← hvs] at hmax hge
    -- the release the greatest version was read from
    obtain ⟨krm, hkrm, hvm⟩ := (mem_versionsOf _ core.Releases).mp hmax
    have hstr : (maxVersion first rest).String = krm.2.Version := String_Parse _ _ hvm
    have hlatest : core.latestVersion = krm.2.Version := by
      simp only [Core.latestVersion, hvs]
      exact hstr
    obtain ⟨r, hget, hin⟩ := mapGet_of_mem krm.2.Version core.Releases
      ⟨krm, hkrm, hkeys krm hkrm⟩
    have hrv : r.Version = krm.2.Version := (hkeys _ hin).symm
    refine ⟨r, maxVersion first rest, ?_, ?_, ?_, ?_⟩
    · simp only [Core.Latest, Core.GetVersion, hlatest]
      exact hget
    · rw [hrv]
      exact hin
    · rw [hrv]
      exact hvm
    · intro kr hkr w hw
      have hwm : w ∈ core.Versions := (mem_versionsOf w core.Releases).mpr ⟨kr, hkr, hw⟩
      simpa [Version.GTE] using hge w hwm

/-- Witness of C15 (amended): of the releases `9.0.0`, `10.0.0` and `10.0.0-rc.1`, each
stored under its version, `Latest` is the release `10.0.0`. -/
theorem latest_is_greatest_witness :
    (coreOf [("9.0.0", releaseOf "9.0.0"), ("10.0.0", releaseOf "10.0.0"),
      ("10.0.0-rc.1", releaseOf "10.0.0-rc.1")]).Latest = some (releaseOf "10.0.0")
    ∧ ∃ (r : Release) (v : Version),
      (coreOf [("9.0.0", releaseOf "9.0.0"), ("10.0.0", releaseOf "10.0.0"),
        ("10.0.0-rc.1", releaseOf "10.0.0-rc.1")]).Latest = some r
      ∧ Make r.Version = some v
      ∧ v.GTE { Major := 9, Minor := 0, Patch := 0, Pre := [], Build := [] } = true := by
  refine ⟨by decide, ?_⟩
  obtain ⟨r, v, h1, _, h3, h4⟩ := latest_is_greatest
    (coreOf [("9.0.0", releaseOf "9.0.0"), ("10.0.0", releaseOf "10.0.0"),
      ("10.0.0-rc.1", releaseOf "10.0.0-rc.1")])
    (by decide) ⟨("9.0.0", releaseOf "9.0.0"), by decide, by decide⟩
  exact ⟨r, v, h1, h3, h4 ("9.0.0", releaseOf "9.0.0") (by decide) _ (by decide)⟩

/-- C16 (code): of the releases `9.0.0` and `10.0.0`, in either order of the iteration,
`latestVersion` returns `10.0.0`, the greater semantic version; the greatest of the two
strings in lexicographic order is `9.0.0`. A version string that does not parse is passed
over, whatever its place in lexicographic order. -/
theorem latestVersion_not_lexicographic :
    (coreOf [("9.0.0", releaseOf "9.0.0"), ("10.0.0", releaseOf "10.0.0")]).latestVersion
      = "10.0.0"
    ∧ (coreOf [("10.0.0", releaseOf "10.0.0"), ("9.0.0", releaseOf "9.0.0")]).latestVersion
      = "10.0.0"
    ∧ greatestString ["9.0.0", "10.0.0"] = "9.0.0"
    ∧ greatestString ["10.0.0", "9.0.0"] = "9.0.0"
    ∧ (coreOf [("1.0.0", releaseOf "1.0.0"), ("latest", releaseOf "latest")]).latestVersion
      = "1.0.0"
    ∧ (coreOf []).latestVersion = "" := by
  decide

end Cores

namespace Releases

end Releases
